import Mathlib

/-
Verification of the Graph repository.

This file gives a shallow embedding, in Lean, of the adjacency-list graph
class and of the graph algorithms of the repository (graph_class.py, the
traversal modules, connected_components.py, topological_sort.py,
dijkstra.py), together with proofs of the spec-level claims about them.

Python dictionaries are modelled as association lists with the Python
update-in-place / append-if-missing semantics; Python sets are modelled by
lists up to membership; while loops are modelled by fuel-indexed recursion
together with lemmas showing the chosen fuel suffices.
-/

namespace GraphVerif

variable {V : Type} [DecidableEq V] {α : Type} {β : Type}

/-- Lookup in a Python dict modelled as an association list (first binding
wins; dict keys are unique anyway). -/
def dget (m : List (V × α)) (x : V) : Option α :=
  match m with
  | [] => none
  | (k, v) :: rest => if k = x then some v else dget rest x

/-- Python dict assignment: update the binding in place if the key is
present, append a fresh binding otherwise. -/
def dset (m : List (V × α)) (x : V) (v : α) : List (V × α) :=
  match m with
  | [] => [(x, v)]
  | (k, w) :: rest => if k = x then (k, v) :: rest else (k, w) :: dset rest x v

@[simp] theorem dget_nil (x : V) : dget ([] : List (V × α)) x = none := rfl

theorem dget_cons (k : V) (v : α) (rest : List (V × α)) (x : V) :
    dget ((k, v) :: rest) x = if k = x then some v else dget rest x := rfl

@[simp] theorem dget_cons_self (k : V) (v : α) (rest : List (V × α)) :
    dget ((k, v) :: rest) k = some v := by simp [dget_cons]

theorem dget_cons_ne (k : V) (v : α) (rest : List (V × α)) (x : V) (h : k ≠ x) :
    dget ((k, v) :: rest) x = dget rest x := by simp [dget_cons, h]

theorem dget_isSome_iff (m : List (V × α)) (x : V) :
    (dget m x).isSome = true ↔ x ∈ m.map Prod.fst := by
  induction m with
  | nil => simp
  | cons p rest ih =>
    obtain ⟨k, v⟩ := p
    by_cases h : k = x
    · subst h; simp [dget_cons]
    · simp [dget_cons, h, ih, Ne.symm h]

theorem dget_eq_none_iff (m : List (V × α)) (x : V) :
    dget m x = none ↔ x ∉ m.map Prod.fst := by
  rw [← dget_isSome_iff]
  cases dget m x <;> simp

theorem dget_mem (m : List (V × α)) (x : V) (v : α) (h : dget m x = some v) :
    (x, v) ∈ m := by
  induction m with
  | nil => simp [dget] at h
  | cons p rest ih =>
    obtain ⟨k, w⟩ := p
    by_cases hk : k = x
    · subst hk
      simp [dget_cons] at h
      simp [h]
    · rw [dget_cons_ne _ _ _ _ hk] at h
      simp [ih h]

theorem dget_of_mem_of_nodup (m : List (V × α)) (x : V) (v : α)
    (hmem : (x, v) ∈ m) (hnd : (m.map Prod.fst).Nodup) : dget m x = some v := by
  induction m with
  | nil => simp at hmem
  | cons p rest ih =>
    obtain ⟨k, w⟩ := p
    simp only [List.map_cons, List.nodup_cons] at hnd
    rcases List.mem_cons.mp hmem with h | h
    · rw [Prod.ext_iff] at h
      obtain ⟨h1, h2⟩ := h
      simp only at h1 h2
      subst h1
      simp [dget_cons, h2]
    · have hkx : k ≠ x := by
        rintro rfl
        exact hnd.1 (List.mem_map.mpr ⟨(k, v), h, rfl⟩)
      rw [dget_cons_ne _ _ _ _ hkx]
      exact ih h hnd.2

theorem dget_dset_self (m : List (V × α)) (x : V) (v : α) :
    dget (dset m x v) x = some v := by
  induction m with
  | nil => simp [dset, dget_cons]
  | cons p rest ih =>
    obtain ⟨k, w⟩ := p
    by_cases h : k = x
    · subst h; simp [dset, dget_cons]
    · simp [dset, h, dget_cons, ih]

theorem dget_dset_ne (m : List (V × α)) (x y : V) (v : α) (h : y ≠ x) :
    dget (dset m x v) y = dget m y := by
  induction m with
  | nil => simp [dset, dget_cons, Ne.symm h]
  | cons p rest ih =>
    obtain ⟨k, w⟩ := p
    by_cases hk : k = x
    · subst hk
      simp [dset, dget_cons, Ne.symm h]
    · by_cases hky : k = y
      · subst hky; simp [dset, hk, dget_cons]
      · simp [dset, hk, dget_cons, hky, ih]

theorem dset_keys_of_mem (m : List (V × α)) (x : V) (v : α)
    (h : x ∈ m.map Prod.fst) : (dset m x v).map Prod.fst = m.map Prod.fst := by
  induction m with
  | nil => simp at h
  | cons p rest ih =>
    obtain ⟨k, w⟩ := p
    by_cases hk : k = x
    · subst hk; simp [dset]
    · simp only [List.map_cons, List.mem_cons] at h
      rcases h with h | h
      · exact absurd h.symm hk
      · simp [dset, hk, ih h]

/-- Append one element to the neighbour list stored at a key (mirrors the
Python statement adjacency_list[k].append(x); the key is always present at
the call sites, so the nil case is unreachable there). -/
def dappend (m : List (V × List V)) (k : V) (x : V) : List (V × List V) :=
  match m with
  | [] => []
  | (a, l) :: rest => if a = k then (a, l ++ [x]) :: rest else (a, l) :: dappend rest k x

/-- Delete a binding from a dict (mirrors the Python del statement). -/
def ddelete (m : List (V × α)) (k : V) : List (V × α) :=
  match m with
  | [] => []
  | (a, l) :: rest => if a = k then rest else (a, l) :: ddelete rest k

/-- The Graph class of graph_class.py: an adjacency-list dict plus a
directed flag. -/
structure Graph (V : Type) where
  adjacency_list : List (V × List V)
  directed : Bool
deriving DecidableEq

namespace Graph

variable (g : Graph V)

/-- The neighbour list stored for a node, empty when the node is not a key
(adjacency_list.get(node, [])-style access). -/
def adjLookup (g : Graph V) (x : V) : List V :=
  (dget g.adjacency_list x).getD []

/-- Graph.add_node: insert the node with an empty neighbour list if absent;
return whether an insertion happened. -/
def add_node (g : Graph V) (node : V) : Bool × Graph V :=
  if (dget g.adjacency_list node).isSome then (false, g)
  else (true, { g with adjacency_list := g.adjacency_list ++ [(node, [])] })

/-- Graph.add_edge: ensure both endpoints exist, then append the edge to the
neighbour list of from_node if not already present (plus the reverse edge
when the graph is undirected); return whether the edge was inserted. -/
def add_edge (g : Graph V) (from_node to_node : V) : Bool × Graph V :=
  let g1 := (g.add_node from_node).2
  let g2 := (g1.add_node to_node).2
  if to_node ∈ (dget g2.adjacency_list from_node).getD [] then (false, g2)
  else
    let g3 : Graph V := { g2 with adjacency_list := dappend g2.adjacency_list from_node to_node }
    if g2.directed then (true, g3)
    else (true, { g3 with adjacency_list := dappend g3.adjacency_list to_node from_node })

/-- Graph.has_edge. -/
def has_edge (g : Graph V) (from_node to_node : V) : Bool :=
  decide ((dget g.adjacency_list from_node).isSome = true ∧
    to_node ∈ (dget g.adjacency_list from_node).getD [])

/-- Remove the first occurrence of x from the list at key k (mirrors the
Python statement adjacency_list[k].remove(x)). -/
def dremove (m : List (V × List V)) (k : V) (x : V) : List (V × List V) :=
  match m with
  | [] => []
  | (a, l) :: rest => if a = k then (a, l.erase x) :: rest else (a, l) :: dremove rest k x

/-- Graph.remove_edge. -/
def remove_edge (g : Graph V) (from_node to_node : V) : Bool × Graph V :=
  if g.has_edge from_node to_node then
    let g1 : Graph V := { g with adjacency_list := dremove g.adjacency_list from_node to_node }
    if g.directed = false ∧ g1.has_edge to_node from_node then
      (true, { g1 with adjacency_list := dremove g1.adjacency_list to_node from_node })
    else (true, g1)
  else (false, g)

/-- Graph.remove_node: drop the binding of the node and purge the node from
every remaining neighbour list (one .remove call per list that contains it). -/
def remove_node (g : Graph V) (node : V) : Bool × Graph V :=
  if (dget g.adjacency_list node).isNone then (false, g)
  else
    let m1 := ddelete g.adjacency_list node
    let m2 := m1.map (fun p => if node ∈ p.2 then (p.1, p.2.erase node) else p)
    (true, { g with adjacency_list := m2 })

/-- Graph.get_neighbors. -/
def get_neighbors (g : Graph V) (node : V) : List V :=
  (dget g.adjacency_list node).getD []

/-- Graph.get_nodes: the keys together with every referenced neighbour.
The Python function materialises a set, whose iteration order is arbitrary;
the dedup list below represents that set up to membership. -/
def get_nodes (g : Graph V) : List V :=
  (g.adjacency_list.map Prod.fst ++ (g.adjacency_list.map Prod.snd).flatten).dedup

/-- Graph.get_edges. -/
def get_edges (g : Graph V) : List (V × V) :=
  (g.adjacency_list.map (fun p => p.2.map (fun t => (p.1, t)))).flatten

/-- The two possible shapes of the Python get_degree return value: a bare
count, or the dict with the in, out and total keys. -/
inductive DegreeAnswer where
  | count (n : Nat)
  | table (din dout dtotal : Nat)
deriving DecidableEq

/-- Graph.get_degree: 0 for an unknown node; otherwise the in/out/total
table for a directed graph and the bare out-degree for an undirected one.
The in-degree loop counts the keys whose neighbour list contains the node. -/
def get_degree (g : Graph V) (node : V) : DegreeAnswer :=
  if node ∉ g.get_nodes then .count 0
  else
    let out_degree := ((dget g.adjacency_list node).getD []).length
    let in_degree := g.adjacency_list.foldl (fun acc p => if node ∈ p.2 then acc + 1 else acc) 0
    if g.directed then .table in_degree out_degree (in_degree + out_degree)
    else .count out_degree

end Graph

/-- The list of dict keys of a graph. -/
def Graph.keyList (g : Graph V) : List V := g.adjacency_list.map Prod.fst

theorem dget_append (m1 m2 : List (V × α)) (y : V) :
    dget (m1 ++ m2) y = ((dget m1 y).map some).getD (dget m2 y) := by
  induction m1 with
  | nil => simp
  | cons p rest ih =>
    obtain ⟨k, v⟩ := p
    by_cases h : k = y
    · subst h; simp [dget_cons]
    · simp [dget_cons, h, ih]

@[simp] theorem dappend_keys (m : List (V × List V)) (k x : V) :
    (dappend m k x).map Prod.fst = m.map Prod.fst := by
  induction m with
  | nil => simp [dappend]
  | cons p rest ih =>
    obtain ⟨a, l⟩ := p
    by_cases h : a = k <;> simp [dappend, h, ih]

theorem dget_dappend_self (m : List (V × List V)) (k x : V) (l : List V)
    (h : dget m k = some l) : dget (dappend m k x) k = some (l ++ [x]) := by
  induction m with
  | nil => simp at h
  | cons p rest ih =>
    obtain ⟨a, l0⟩ := p
    by_cases ha : a = k
    · subst ha
      simp [dget_cons] at h
      simp [dappend, dget_cons, h]
    · rw [dget_cons_ne _ _ _ _ ha] at h
      simp [dappend, ha, dget_cons, ih h]

theorem dget_dappend_ne (m : List (V × List V)) (k x y : V) (h : y ≠ k) :
    dget (dappend m k x) y = dget m y := by
  induction m with
  | nil => simp [dappend]
  | cons p rest ih =>
    obtain ⟨a, l0⟩ := p
    by_cases ha : a = k
    · subst ha
      simp [dappend, dget_cons, Ne.symm h, ih]
    · by_cases hay : a = y
      · subst hay; simp [dappend, ha, dget_cons]
      · simp [dappend, ha, dget_cons, hay, ih]

@[simp] theorem ddelete_keys (m : List (V × α)) (k : V) :
    (ddelete m k).map Prod.fst = (m.map Prod.fst).erase k := by
  induction m with
  | nil => simp [ddelete]
  | cons p rest ih =>
    obtain ⟨a, l⟩ := p
    by_cases h : a = k
    · subst h; simp [ddelete, List.erase_cons_head]
    · simp [ddelete, h, ih, List.erase_cons_tail, beq_iff_eq]

theorem ddelete_sublist (m : List (V × α)) (k : V) : (ddelete m k).Sublist m := by
  induction m with
  | nil => simp [ddelete]
  | cons p rest ih =>
    obtain ⟨a, l⟩ := p
    by_cases h : a = k
    · subst h
      simp only [ddelete, if_pos rfl]
      exact List.sublist_cons_self _ _
    · simpa [ddelete, h] using ih.cons₂ (a, l)

theorem dget_ddelete_ne (m : List (V × α)) (k y : V) (h : y ≠ k) :
    dget (ddelete m k) y = dget m y := by
  induction m with
  | nil => simp [ddelete]
  | cons p rest ih =>
    obtain ⟨a, l⟩ := p
    by_cases ha : a = k
    · subst ha; simp [ddelete, dget_cons, Ne.symm h]
    · by_cases hay : a = y
      · subst hay; simp [ddelete, ha, dget_cons]
      · simp [ddelete, ha, dget_cons, hay, ih]

@[simp] theorem Graph.dremove_keys (m : List (V × List V)) (k x : V) :
    (Graph.dremove m k x).map Prod.fst = m.map Prod.fst := by
  induction m with
  | nil => simp [Graph.dremove]
  | cons p rest ih =>
    obtain ⟨a, l⟩ := p
    by_cases h : a = k <;> simp [Graph.dremove, h, ih]

theorem dget_dremove_self (m : List (V × List V)) (k x : V) (l : List V)
    (h : dget m k = some l) : dget (Graph.dremove m k x) k = some (l.erase x) := by
  induction m with
  | nil => simp at h
  | cons p rest ih =>
    obtain ⟨a, l0⟩ := p
    by_cases ha : a = k
    · subst ha
      simp [dget_cons] at h
      simp [Graph.dremove, dget_cons, h]
    · rw [dget_cons_ne _ _ _ _ ha] at h
      simp [Graph.dremove, ha, dget_cons, ih h]

theorem dget_dremove_ne (m : List (V × List V)) (k x y : V) (h : y ≠ k) :
    dget (Graph.dremove m k x) y = dget m y := by
  induction m with
  | nil => simp [Graph.dremove]
  | cons p rest ih =>
    obtain ⟨a, l0⟩ := p
    by_cases ha : a = k
    · subst ha; simp [Graph.dremove, dget_cons, Ne.symm h, ih]
    · by_cases hay : a = y
      · subst hay; simp [Graph.dremove, ha, dget_cons]
      · simp [Graph.dremove, ha, dget_cons, hay, ih]

/-- Well-formedness invariant of adjacency-list graph states: unique dict
keys, every referenced neighbour is itself a key, no neighbour list mentions
another node twice, adjacency is symmetric (as multisets) when the graph is
undirected, and neighbour lists of directed graphs are duplicate-free even
at self-loops. These all hold for graphs built through the public mutators. -/
structure Graph.WF (g : Graph V) : Prop where
  keys_nodup : g.keyList.Nodup
  closed : ∀ p ∈ g.adjacency_list, ∀ x ∈ p.2, x ∈ g.keyList
  dupfree : ∀ a b : V, a ≠ b → (g.adjLookup a).count b ≤ 1
  symmetric : g.directed = false → ∀ a b : V, a ≠ b →
    (g.adjLookup a).count b = (g.adjLookup b).count a
  dupfree_self : g.directed = true → ∀ a : V, (g.adjLookup a).count a ≤ 1

/-- Graph states reachable through the constructor and the public mutators
of the Graph class. -/
inductive Graph.Built : Graph V → Prop
  | init (d : Bool) : Graph.Built ⟨[], d⟩
  | add_node (g : Graph V) (n : V) : Graph.Built g → Graph.Built (g.add_node n).2
  | add_edge (g : Graph V) (u v : V) : Graph.Built g → Graph.Built (g.add_edge u v).2
  | remove_edge (g : Graph V) (u v : V) : Graph.Built g → Graph.Built (g.remove_edge u v).2
  | remove_node (g : Graph V) (n : V) : Graph.Built g → Graph.Built (g.remove_node n).2

theorem mem_dappend (m : List (V × List V)) (k x : V) (p : V × List V)
    (h : p ∈ dappend m k x) : p ∈ m ∨ ∃ l, (k, l) ∈ m ∧ p = (k, l ++ [x]) := by
  induction m with
  | nil => simp [dappend] at h
  | cons q rest ih =>
    obtain ⟨a, l0⟩ := q
    by_cases ha : a = k
    · subst ha
      simp only [dappend, if_pos, List.mem_cons] at h
      rcases h with h | h
      · exact Or.inr ⟨l0, List.mem_cons_self _ _, h⟩
      · exact Or.inl (List.mem_cons_of_mem _ h)
    · simp only [dappend, if_neg ha, List.mem_cons] at h
      rcases h with h | h
      · exact Or.inl (List.mem_cons.mpr (Or.inl h))
      · rcases ih h with h2 | ⟨l, hl, hp⟩
        · exact Or.inl (List.mem_cons_of_mem _ h2)
        · exact Or.inr ⟨l, List.mem_cons_of_mem _ hl, hp⟩

theorem dget_mapVal (vf : α → β) (m : List (V × α)) (y : V) :
    dget (m.map (fun p => (p.1, vf p.2))) y = (dget m y).map vf := by
  induction m with
  | nil => simp
  | cons p rest ih =>
    obtain ⟨k, w⟩ := p
    by_cases h : k = y
    · subst h; simp [dget_cons]
    · simp [dget_cons, h, ih]

namespace Graph

@[simp] theorem directed_add_node (g : Graph V) (n : V) :
    ((g.add_node n).2).directed = g.directed := by
  unfold add_node
  split <;> rfl

@[simp] theorem adjLookup_add_node (g : Graph V) (n y : V) :
    ((g.add_node n).2).adjLookup y = g.adjLookup y := by
  unfold add_node
  split
  · rfl
  · rename_i h
    simp only [adjLookup, dget_append]
    cases hy : dget g.adjacency_list y with
    | some l => simp
    | none =>
      simp only [Option.map_none, Option.getD_none]
      by_cases hyn : n = y
      · subst hyn; simp [dget_cons]
      · simp [dget_cons, hyn, hy]

theorem adjacency_list_add_node (g : Graph V) (n : V) :
    ((g.add_node n).2).adjacency_list =
      if (dget g.adjacency_list n).isSome then g.adjacency_list
      else g.adjacency_list ++ [(n, [])] := by
  unfold add_node
  split <;> rfl

theorem keyList_add_node (g : Graph V) (n : V) :
    ((g.add_node n).2).keyList = if (dget g.adjacency_list n).isSome then g.keyList
      else g.keyList ++ [n] := by
  unfold keyList
  rw [adjacency_list_add_node]
  split <;> simp [keyList]

theorem mem_keyList_add_node (g : Graph V) (n y : V) :
    y ∈ ((g.add_node n).2).keyList ↔ y ∈ g.keyList ∨ y = n := by
  rw [keyList_add_node]
  split
  · rename_i h
    rw [dget_isSome_iff] at h
    constructor
    · exact Or.inl
    · rintro (hy | rfl)
      · exact hy
      · exact h
  · simp

theorem self_mem_keyList_add_node (g : Graph V) (n : V) :
    n ∈ ((g.add_node n).2).keyList := by
  rw [mem_keyList_add_node]; exact Or.inr rfl

theorem WF.add_node (g : Graph V) (h : g.WF) (n : V) : ((g.add_node n).2).WF := by
  constructor
  · rw [keyList_add_node]
    split
    · exact h.keys_nodup
    · rename_i hn
      have hnk : n ∉ g.keyList := by
        simp only [keyList]
        rw [← dget_isSome_iff]
        simpa using hn
      refine h.keys_nodup.append (List.nodup_singleton n) ?_
      intro x hx hxn
      rw [List.mem_singleton] at hxn
      subst hxn
      exact hnk hx
  · intro p hp x hx
    rw [adjacency_list_add_node] at hp
    rw [mem_keyList_add_node]
    split at hp
    · exact Or.inl (h.closed p hp x hx)
    · simp only [List.mem_append, List.mem_singleton] at hp
      rcases hp with hp | hp
      · exact Or.inl (h.closed p hp x hx)
      · subst hp; simp at hx
  · intro a b hab
    rw [adjLookup_add_node]
    exact h.dupfree a b hab
  · intro hd a b hab
    rw [directed_add_node] at hd
    rw [adjLookup_add_node, adjLookup_add_node]
    exact h.symmetric hd a b hab
  · intro hd a
    rw [directed_add_node] at hd
    rw [adjLookup_add_node]
    exact h.dupfree_self hd a

/-- Every member of a neighbour list of a well-formed graph is a key. -/
theorem WF.closed_adj (g : Graph V) (h : g.WF) (a x : V) (hx : x ∈ g.adjLookup a) :
    x ∈ g.keyList := by
  unfold adjLookup at hx
  cases hd : dget g.adjacency_list a with
  | none => rw [hd] at hx; simp at hx
  | some l =>
    rw [hd] at hx
    simp only [Option.getD_some] at hx
    exact h.closed (a, l) (dget_mem _ _ _ hd) x hx

theorem adjLookup_eq_of_dget (g : Graph V) (a : V) (l : List V)
    (h : dget g.adjacency_list a = some l) : g.adjLookup a = l := by
  simp [adjLookup, h]

theorem count_append_singleton (l : List V) (b x : V) :
    (l ++ [x]).count b = l.count b + if b = x then 1 else 0 := by
  by_cases h : b = x
  · subst h; simp
  · simp [List.count_append, List.count_singleton, h]

/-- Appending a fresh edge to a directed well-formed graph preserves
well-formedness. -/
theorem WF.dappend_directed (g : Graph V) (h : g.WF) (u v : V)
    (hu : u ∈ g.keyList) (hv : v ∈ g.keyList) (hvu : v ∉ g.adjLookup u)
    (hd : g.directed = true) :
    Graph.WF ⟨dappend g.adjacency_list u v, g.directed⟩ := by
  obtain ⟨lu, hlu⟩ : ∃ l, dget g.adjacency_list u = some l :=
    Option.isSome_iff_exists.mp ((dget_isSome_iff g.adjacency_list u).mpr hu)
  have hadj_u : Graph.adjLookup ⟨dappend g.adjacency_list u v, g.directed⟩ u
      = g.adjLookup u ++ [v] := by
    have h2 := dget_dappend_self g.adjacency_list u v lu hlu
    simp [Graph.adjLookup, h2, hlu]
  have hadj_ne : ∀ y, y ≠ u →
      Graph.adjLookup ⟨dappend g.adjacency_list u v, g.directed⟩ y = g.adjLookup y := by
    intro y hy
    simp [Graph.adjLookup, dget_dappend_ne g.adjacency_list u v y hy]
  constructor
  · simpa [Graph.keyList] using h.keys_nodup
  · intro p hp x hx
    have hkeys : Graph.keyList (V := V) ⟨dappend g.adjacency_list u v, g.directed⟩
        = g.keyList := by simp [Graph.keyList]
    rw [hkeys]
    rcases mem_dappend g.adjacency_list u v p hp with hp | ⟨l, hl, hpe⟩
    · exact h.closed p hp x hx
    · subst hpe
      simp only at hx
      rcases List.mem_append.mp hx with hx | hx
      · exact h.closed (u, l) hl x hx
      · rw [List.mem_singleton] at hx
        subst hx; exact hv
  · intro a b hab
    by_cases ha : a = u
    · rw [ha, hadj_u, count_append_singleton]
      by_cases hb : b = v
      · rw [if_pos hb]
        have h0 : (g.adjLookup u).count b = 0 := by
          rw [List.count_eq_zero]
          intro hmem
          refine hvu ?_
          rw [← hb]
          exact hmem
        omega
      · rw [if_neg hb]
        have h1 := h.dupfree u b (fun hh => hab (ha.trans hh))
        omega
    · rw [hadj_ne a ha]
      exact h.dupfree a b hab
  · intro hdf
    rw [hd] at hdf; cases hdf
  · intro _ a
    by_cases ha : a = u
    · rw [ha, hadj_u, count_append_singleton]
      by_cases hv2 : u = v
      · rw [if_pos hv2]
        have h0 : (g.adjLookup u).count u = 0 := by
          rw [List.count_eq_zero]
          intro hmem
          refine hvu ?_
          rw [← hv2]
          exact hmem
        omega
      · rw [if_neg hv2]
        have h1 := h.dupfree_self hd u
        omega
    · rw [hadj_ne a ha]
      exact h.dupfree_self hd a

/-- Appending a fresh edge and its reverse to an undirected well-formed
graph preserves well-formedness. -/
theorem WF.dappend_undirected (g : Graph V) (h : g.WF) (u v : V)
    (hu : u ∈ g.keyList) (hv : v ∈ g.keyList) (hvu : v ∉ g.adjLookup u)
    (hd : g.directed = false) :
    Graph.WF ⟨dappend (dappend g.adjacency_list u v) v u, g.directed⟩ := by
  obtain ⟨lu, hlu⟩ : ∃ l, dget g.adjacency_list u = some l :=
    Option.isSome_iff_exists.mp ((dget_isSome_iff g.adjacency_list u).mpr hu)
  have hlu2 : g.adjLookup u = lu := adjLookup_eq_of_dget g u lu hlu
  by_cases huv : u = v
  · -- self-loop: the same list receives the node twice
    subst huv
    have h3 : dget (dappend g.adjacency_list u u) u = some (lu ++ [u]) :=
      dget_dappend_self g.adjacency_list u u lu hlu
    have h4 : dget (dappend (dappend g.adjacency_list u u) u u) u
        = some (lu ++ [u] ++ [u]) := dget_dappend_self _ u u _ h3
    have hadj_ne : ∀ y, y ≠ u →
        Graph.adjLookup ⟨dappend (dappend g.adjacency_list u u) u u, g.directed⟩ y
          = g.adjLookup y := by
      intro y hy
      simp [Graph.adjLookup, dget_dappend_ne _ u u y hy]
    have hadj_u :
        Graph.adjLookup ⟨dappend (dappend g.adjacency_list u u) u u, g.directed⟩ u
          = lu ++ [u] ++ [u] := by
      simp [Graph.adjLookup, h4]
    constructor
    · simpa [Graph.keyList] using h.keys_nodup
    · intro p hp x hx
      have hkeys :
          Graph.keyList (V := V) ⟨dappend (dappend g.adjacency_list u u) u u, g.directed⟩
            = g.keyList := by simp [Graph.keyList]
      rw [hkeys]
      rcases mem_dappend _ u u p hp with hp2 | ⟨l, hl, hpe⟩
      · rcases mem_dappend _ u u p hp2 with hp3 | ⟨l, hl, hpe⟩
        · exact h.closed p hp3 x hx
        · subst hpe
          simp only at hx
          rcases List.mem_append.mp hx with hx | hx
          · exact h.closed (u, l) hl x hx
          · rw [List.mem_singleton] at hx; subst hx; exact hu
      · subst hpe
        simp only at hx
        rcases List.mem_append.mp hx with hx | hx
        · rcases mem_dappend _ u u (u, l) hl with hp3 | ⟨l2, hl2, hpe2⟩
          · exact h.closed (u, l) hp3 x hx
          · injection hpe2 with hfst hle
            subst hle
            rcases List.mem_append.mp hx with hx | hx
            · exact h.closed (u, l2) hl2 x hx
            · rw [List.mem_singleton] at hx; subst hx; exact hu
        · rw [List.mem_singleton] at hx; subst hx; exact hu
    · intro a b hab
      by_cases ha : a = u
      · rw [ha, hadj_u, count_append_singleton, count_append_singleton]
        have hbu : b ≠ u := fun hh => hab (ha.trans hh.symm)
        rw [if_neg hbu]
        have h1 := h.dupfree u b (fun hh => hab (ha.trans hh))
        rw [hlu2] at h1
        omega
      · rw [hadj_ne a ha]
        exact h.dupfree a b hab
    · intro _ a b hab
      by_cases ha : a = u
      · have hbu : b ≠ u := fun hh => hab (ha.trans hh.symm)
        rw [ha, hadj_u, hadj_ne b hbu, count_append_singleton, count_append_singleton]
        rw [if_neg hbu]
        have h1 := h.symmetric hd u b (fun hh => hab (ha.trans hh))
        rw [hlu2] at h1
        omega
      · by_cases hb : b = u
        · have hau : a ≠ u := ha
          rw [hb, hadj_ne a hau, hadj_u, count_append_singleton, count_append_singleton]
          rw [if_neg hau]
          have h1 := h.symmetric hd a u (fun hh => hab (hh.trans hb.symm))
          rw [hlu2] at h1
          omega
        · rw [hadj_ne a ha, hadj_ne b hb]
          exact h.symmetric hd a b hab
    · intro hdf
      rw [hd] at hdf; cases hdf
  · -- distinct endpoints
    obtain ⟨lv, hlv⟩ : ∃ l, dget g.adjacency_list v = some l :=
      Option.isSome_iff_exists.mp ((dget_isSome_iff g.adjacency_list v).mpr hv)
    have hlv2 : g.adjLookup v = lv := adjLookup_eq_of_dget g v lv hlv
    have h3u : dget (dappend g.adjacency_list u v) u = some (lu ++ [v]) :=
      dget_dappend_self g.adjacency_list u v lu hlu
    have h3v : dget (dappend g.adjacency_list u v) v = some lv := by
      rw [dget_dappend_ne _ _ _ _ (Ne.symm huv)]; exact hlv
    have h4v : dget (dappend (dappend g.adjacency_list u v) v u) v
        = some (lv ++ [u]) := dget_dappend_self _ v u lv h3v
    have h4u : dget (dappend (dappend g.adjacency_list u v) v u) u
        = some (lu ++ [v]) := by
      rw [dget_dappend_ne _ _ _ _ huv]; exact h3u
    have hadj_u :
        Graph.adjLookup ⟨dappend (dappend g.adjacency_list u v) v u, g.directed⟩ u
          = lu ++ [v] := by
      simp [Graph.adjLookup, h4u]
    have hadj_v :
        Graph.adjLookup ⟨dappend (dappend g.adjacency_list u v) v u, g.directed⟩ v
          = lv ++ [u] := by
      simp [Graph.adjLookup, h4v]
    have hadj_ne : ∀ y, y ≠ u → y ≠ v →
        Graph.adjLookup ⟨dappend (dappend g.adjacency_list u v) v u, g.directed⟩ y
          = g.adjLookup y := by
      intro y hy hyv
      simp [Graph.adjLookup, dget_dappend_ne _ v u y hyv, dget_dappend_ne _ u v y hy]
    have hcnt_uv : lu.count v = 0 := by
      rw [← hlu2]
      exact List.count_eq_zero.mpr hvu
    have hcnt_vu : lv.count u = 0 := by
      have hs := h.symmetric hd u v huv
      rw [hlu2, hlv2] at hs
      rw [← hs]
      exact hcnt_uv
    constructor
    · simpa [Graph.keyList] using h.keys_nodup
    · intro p hp x hx
      have hkeys :
          Graph.keyList (V := V) ⟨dappend (dappend g.adjacency_list u v) v u, g.directed⟩
            = g.keyList := by simp [Graph.keyList]
      rw [hkeys]
      rcases mem_dappend _ v u p hp with hp2 | ⟨l, hl, hpe⟩
      · rcases mem_dappend _ u v p hp2 with hp3 | ⟨l, hl, hpe⟩
        · exact h.closed p hp3 x hx
        · subst hpe
          simp only at hx
          rcases List.mem_append.mp hx with hx | hx
          · exact h.closed (u, l) hl x hx
          · rw [List.mem_singleton] at hx; subst hx; exact hv
      · subst hpe
        simp only at hx
        rcases List.mem_append.mp hx with hx | hx
        · rcases mem_dappend _ u v (v, l) hl with hp3 | ⟨l2, hl2, hpe2⟩
          · exact h.closed (v, l) hp3 x hx
          · injection hpe2 with hvu2 _
            exact absurd hvu2.symm huv
        · rw [List.mem_singleton] at hx; subst hx; exact hu
    · intro a b hab
      by_cases ha : a = u
      · rw [ha, hadj_u, count_append_singleton]
        by_cases hb : b = v
        · rw [if_pos hb]
          have h0 : lu.count b = 0 := by rw [hb]; exact hcnt_uv
          omega
        · rw [if_neg hb]
          have h1 := h.dupfree u b (fun hh => hab (ha.trans hh))
          rw [hlu2] at h1
          omega
      · by_cases hav : a = v
        · rw [hav, hadj_v, count_append_singleton]
          by_cases hb : b = u
          · rw [if_pos hb]
            have h0 : lv.count b = 0 := by rw [hb]; exact hcnt_vu
            omega
          · rw [if_neg hb]
            have h1 := h.dupfree v b (fun hh => hab (hav.trans hh))
            rw [hlv2] at h1
            omega
        · rw [hadj_ne a ha hav]
          exact h.dupfree a b hab
    · intro _ a b hab
      by_cases ha : a = u
      · rw [ha, hadj_u, count_append_singleton]
        by_cases hb : b = v
        · rw [hb, hadj_v, count_append_singleton]
          rw [if_pos rfl, if_pos rfl, hcnt_uv, hcnt_vu]
        · have hbu : b ≠ u := fun hh => hab (ha.trans hh.symm)
          rw [hadj_ne b hbu hb, if_neg hb]
          have h1 := h.symmetric hd u b (fun hh => hab (ha.trans hh))
          rw [hlu2] at h1
          omega
      · by_cases hav : a = v
        · rw [hav, hadj_v, count_append_singleton]
          by_cases hb : b = u
          · rw [hb, hadj_u, count_append_singleton]
            rw [if_pos rfl, if_pos rfl, hcnt_uv, hcnt_vu]
          · have hbv : b ≠ v := fun hh => hab (hav.trans hh.symm)
            rw [hadj_ne b hb hbv, if_neg hb]
            have h1 := h.symmetric hd v b (fun hh => hab (hav.trans hh))
            rw [hlv2] at h1
            omega
        · by_cases hb : b = u
          · rw [hb, hadj_ne a ha hav, hadj_u, count_append_singleton]
            have hav2 : a ≠ v := hav
            rw [if_neg hav2]
            have h1 := h.symmetric hd a u (fun hh => hab (hh.trans hb.symm))
            rw [hlu2] at h1
            omega
          · by_cases hbv : b = v
            · rw [hbv, hadj_ne a ha hav, hadj_v, count_append_singleton]
              rw [if_neg ha]
              have h1 := h.symmetric hd a v (fun hh => hab (hh.trans hbv.symm))
              rw [hlv2] at h1
              omega
            · rw [hadj_ne a ha hav, hadj_ne b hb hbv]
              exact h.symmetric hd a b hab
    · intro hdf
      rw [hd] at hdf; cases hdf

theorem WF.add_edge (g : Graph V) (h : g.WF) (u v : V) : ((g.add_edge u v).2).WF := by
  have h2 : ((((g.add_node u).2).add_node v).2).WF := WF.add_node _ (WF.add_node _ h u) v
  have hu2 : u ∈ ((((g.add_node u).2).add_node v).2).keyList := by
    rw [mem_keyList_add_node]
    exact Or.inl (self_mem_keyList_add_node g u)
  have hv2 : v ∈ ((((g.add_node u).2).add_node v).2).keyList :=
    self_mem_keyList_add_node _ v
  unfold Graph.add_edge
  simp only []
  split
  · exact h2
  · rename_i hcond
    split
    · rename_i hdir
      exact WF.dappend_directed _ h2 u v hu2 hv2 hcond hdir
    · rename_i hdir
      rw [Bool.not_eq_true] at hdir
      exact WF.dappend_undirected _ h2 u v hu2 hv2 hcond hdir

theorem adjLookup_dremove_self (m : List (V × List V)) (k x : V) (d : Bool) :
    Graph.adjLookup ⟨dremove m k x, d⟩ k = ((dget m k).getD []).erase x := by
  cases hd : dget m k with
  | some l =>
    simp [Graph.adjLookup, dget_dremove_self m k x l hd]
  | none =>
    have hnone : dget (dremove m k x) k = none := by
      rw [dget_eq_none_iff, dremove_keys]
      rw [dget_eq_none_iff] at hd
      exact hd
    simp [Graph.adjLookup, hnone]

theorem adjLookup_dremove_ne (m : List (V × List V)) (k x y : V) (d : Bool) (hy : y ≠ k) :
    Graph.adjLookup ⟨dremove m k x, d⟩ y = (dget m y).getD [] := by
  simp [Graph.adjLookup, dget_dremove_ne m k x y hy]

theorem count_pos_of_mem (l : List V) (x : V) (hx : x ∈ l) : 1 ≤ l.count x := by
  exact List.one_le_count_iff.mpr hx

theorem count_erase_eq (l : List V) (x b : V) :
    (l.erase x).count b = l.count b - if b = x then 1 else 0 := by
  rw [List.count_erase]
  by_cases h : b = x
  · simp [h]
  · simp [h, Ne.symm h]

/-- Entries of dremove preserve membership of their values in the original
entry at the same key. -/
theorem mem_dremove (m : List (V × List V)) (k x : V) (p : V × List V)
    (h : p ∈ dremove m k x) :
    p ∈ m ∨ ∃ l, (k, l) ∈ m ∧ p = (k, l.erase x) := by
  induction m with
  | nil => simp [dremove] at h
  | cons q rest ih =>
    obtain ⟨a, l0⟩ := q
    by_cases ha : a = k
    · subst ha
      simp only [dremove, if_pos, List.mem_cons] at h
      rcases h with h | h
      · exact Or.inr ⟨l0, List.mem_cons_self _ _, h⟩
      · exact Or.inl (List.mem_cons_of_mem _ h)
    · simp only [dremove, if_neg ha, List.mem_cons] at h
      rcases h with h | h
      · exact Or.inl (List.mem_cons.mpr (Or.inl h))
      · rcases ih h with h2 | ⟨l, hl, hp⟩
        · exact Or.inl (List.mem_cons_of_mem _ h2)
        · exact Or.inr ⟨l, List.mem_cons_of_mem _ hl, hp⟩

theorem WF.remove_edge (g : Graph V) (h : g.WF) (u v : V) : ((g.remove_edge u v).2).WF := by
  have hkeys1 : ∀ (m : List (V × List V)) (k x : V),
      Graph.keyList (V := V) ⟨dremove m k x, g.directed⟩ = m.map Prod.fst := by
    intro m k x
    simp [Graph.keyList]
  have hclosed1 : ∀ (m : List (V × List V)) (k x : V),
      (∀ p ∈ m, ∀ y ∈ p.2, y ∈ m.map Prod.fst) →
      ∀ p ∈ dremove m k x, ∀ y ∈ p.2, y ∈ m.map Prod.fst := by
    intro m k x hcl p hp y hy
    rcases mem_dremove m k x p hp with hp2 | ⟨l, hl, hpe⟩
    · exact hcl p hp2 y hy
    · subst hpe
      simp only at hy
      exact hcl (k, l) hl y (List.mem_of_mem_erase hy)
  unfold Graph.remove_edge
  split
  · rename_i hedge
    simp only []
    split
    · rename_i hcond
      obtain ⟨hdir, hedge2⟩ := hcond
      -- undirected, both directions removed
      have hne : ∀ y, y ≠ u → y ≠ v →
          Graph.adjLookup ⟨dremove (dremove g.adjacency_list u v) v u, g.directed⟩ y
            = g.adjLookup y := by
        intro y hy hyv
        have s1 := adjLookup_dremove_ne (dremove g.adjacency_list u v) v u y g.directed hyv
        rw [s1]
        have s2 := dget_dremove_ne g.adjacency_list u v y hy
        rw [s2]
        rfl
      by_cases huv : u = v
      · -- self-loop removal: only the list at u changes, and only in its
        -- count of u itself
        subst huv
        have hself :
            Graph.adjLookup ⟨dremove (dremove g.adjacency_list u u) u u, g.directed⟩ u
              = ((g.adjLookup u).erase u).erase u := by
          have s1 := adjLookup_dremove_self (dremove g.adjacency_list u u) u u g.directed
          rw [s1]
          have s2 : dget (dremove g.adjacency_list u u) u
              = some ((g.adjLookup u).erase u) := by
            cases hd : dget g.adjacency_list u with
            | some l =>
              rw [dget_dremove_self g.adjacency_list u u l hd]
              simp [Graph.adjLookup, hd]
            | none =>
              exfalso
              simp only [Graph.has_edge, hd, decide_eq_true_eq] at hedge
              simp at hedge
          rw [s2]
          simp
        constructor
        · rw [hkeys1, dremove_keys]
          exact h.keys_nodup
        · intro p hp y hy
          rw [hkeys1, dremove_keys]
          have hmid : ∀ p ∈ dremove g.adjacency_list u u, ∀ y ∈ p.2,
              y ∈ (dremove g.adjacency_list u u).map Prod.fst := by
            intro p2 hp2 y2 hy2
            rw [dremove_keys]
            exact hclosed1 _ u u h.closed p2 hp2 y2 hy2
          have hres := hclosed1 _ u u hmid p hp y hy
          rw [dremove_keys] at hres
          exact hres
        · intro a b hab
          by_cases ha : a = u
          · rw [ha, hself, count_erase_eq, count_erase_eq]
            have hbu : b ≠ u := fun hh => hab (ha.trans hh.symm)
            rw [if_neg hbu]
            have h1 := h.dupfree u b (fun hh => hab (ha.trans hh))
            omega
          · rw [hne a ha ha]
            exact h.dupfree a b hab
        · intro _ a b hab
          by_cases ha : a = u
          · have hbu : b ≠ u := fun hh => hab (ha.trans hh.symm)
            rw [ha, hself, hne b hbu hbu, count_erase_eq, count_erase_eq]
            rw [if_neg hbu]
            have h1 := h.symmetric hdir u b (fun hh => hab (ha.trans hh))
            omega
          · by_cases hb : b = u
            · rw [hb, hne a ha ha, hself, count_erase_eq, count_erase_eq]
              rw [if_neg ha]
              have h1 := h.symmetric hdir a u (fun hh => hab (hh.trans hb.symm))
              omega
            · rw [hne a ha ha, hne b hb hb]
              exact h.symmetric hdir a b hab
        · intro hdf
          rw [hdir] at hdf; cases hdf
      · -- distinct endpoints: one occurrence removed on each side
        have hadj_u :
            Graph.adjLookup ⟨dremove (dremove g.adjacency_list u v) v u, g.directed⟩ u
              = (g.adjLookup u).erase v := by
          have s1 := adjLookup_dremove_ne (dremove g.adjacency_list u v) v u u g.directed huv
          rw [s1]
          cases hd : dget g.adjacency_list u with
          | some l =>
            rw [dget_dremove_self g.adjacency_list u v l hd]
            simp [Graph.adjLookup, hd]
          | none =>
            exfalso
            simp only [Graph.has_edge, hd, decide_eq_true_eq] at hedge
            simp at hedge
        have hadj_v :
            Graph.adjLookup ⟨dremove (dremove g.adjacency_list u v) v u, g.directed⟩ v
              = (g.adjLookup v).erase u := by
          have s1 := adjLookup_dremove_self (dremove g.adjacency_list u v) v u g.directed
          rw [s1]
          have s2 := dget_dremove_ne g.adjacency_list u v v (Ne.symm huv)
          rw [s2]
          rfl
        constructor
        · rw [hkeys1, dremove_keys]
          exact h.keys_nodup
        · intro p hp y hy
          rw [hkeys1, dremove_keys]
          have hmid : ∀ p ∈ dremove g.adjacency_list u v, ∀ y ∈ p.2,
              y ∈ (dremove g.adjacency_list u v).map Prod.fst := by
            intro p2 hp2 y2 hy2
            rw [dremove_keys]
            exact hclosed1 _ u v h.closed p2 hp2 y2 hy2
          have hres := hclosed1 _ v u hmid p hp y hy
          rw [dremove_keys] at hres
          exact hres
        · intro a b hab
          by_cases ha : a = u
          · rw [ha, hadj_u, count_erase_eq]
            have h1 := h.dupfree u b (fun hh => hab (ha.trans hh))
            omega
          · by_cases hav : a = v
            · rw [hav, hadj_v, count_erase_eq]
              have h1 := h.dupfree v b (fun hh => hab (hav.trans hh))
              omega
            · rw [hne a ha hav]
              exact h.dupfree a b hab
        · intro _ a b hab
          by_cases ha : a = u
          · rw [ha, hadj_u, count_erase_eq]
            by_cases hb : b = v
            · rw [hb, hadj_v, count_erase_eq, if_pos rfl, if_pos rfl]
              have h1 := h.symmetric hdir u v huv
              omega
            · have hbu : b ≠ u := fun hh => hab (ha.trans hh.symm)
              rw [hne b hbu hb, if_neg hb]
              have h1 := h.symmetric hdir u b (fun hh => hab (ha.trans hh))
              omega
          · by_cases hav : a = v
            · rw [hav, hadj_v, count_erase_eq]
              by_cases hb : b = u
              · rw [hb, hadj_u, count_erase_eq, if_pos rfl, if_pos rfl]
                have h1 := h.symmetric hdir v u (Ne.symm huv)
                omega
              · have hbv : b ≠ v := fun hh => hab (hav.trans hh.symm)
                rw [hne b hb hbv, if_neg hb]
                have h1 := h.symmetric hdir v b (fun hh => hab (hav.trans hh))
                omega
            · by_cases hb : b = u
              · rw [hb, hne a ha hav, hadj_u, count_erase_eq, if_neg hav]
                have h1 := h.symmetric hdir a u (fun hh => hab (hh.trans hb.symm))
                omega
              · by_cases hbv : b = v
                · rw [hbv, hne a ha hav, hadj_v, count_erase_eq, if_neg ha]
                  have h1 := h.symmetric hdir a v (fun hh => hab (hh.trans hbv.symm))
                  omega
                · rw [hne a ha hav, hne b hb hbv]
                  exact h.symmetric hdir a b hab
        · intro hdf
          rw [hdir] at hdf; cases hdf
    · rename_i hcond
      -- only the forward direction is removed
      rw [not_and_or] at hcond
      have hadj_u :
          Graph.adjLookup ⟨dremove g.adjacency_list u v, g.directed⟩ u
            = (g.adjLookup u).erase v := by
        rw [adjLookup_dremove_self]
        rfl
      have hne : ∀ y, y ≠ u →
          Graph.adjLookup ⟨dremove g.adjacency_list u v, g.directed⟩ y
            = g.adjLookup y := by
        intro y hy
        rw [adjLookup_dremove_ne g.adjacency_list u v y g.directed hy]
        rfl
      constructor
      · rw [hkeys1]
        exact h.keys_nodup
      · intro p hp y hy
        rw [hkeys1]
        exact hclosed1 _ u v h.closed p hp y hy
      · intro a b hab
        by_cases ha : a = u
        · rw [ha, hadj_u, count_erase_eq]
          have h1 := h.dupfree u b (fun hh => hab (ha.trans hh))
          omega
        · rw [hne a ha]
          exact h.dupfree a b hab
      · intro hdf
        simp only at hdf
        rcases hcond with hcond | hcond
        · exact absurd hdf hcond
        · -- undirected but the reverse edge is not present after the first
          -- removal: under well-formedness this forces the self-loop case
          rename_i hedge
          by_cases huv : u = v
          · intro a b hab
            by_cases ha : a = u
            · have hbu : b ≠ u := fun hh => hab (ha.trans hh.symm)
              rw [ha, hadj_u, hne b hbu, count_erase_eq, ← huv, if_neg hbu]
              have h1 := h.symmetric hdf u b (fun hh => hab (ha.trans hh))
              omega
            · by_cases hb : b = u
              · rw [hb, hne a ha, hadj_u, count_erase_eq, ← huv, if_neg ha]
                have h1 := h.symmetric hdf a u (fun hh => hab (hh.trans hb.symm))
                omega
              · rw [hne a ha, hne b hb]
                exact h.symmetric hdf a b hab
          · exfalso
            apply hcond
            simp only [Graph.has_edge, decide_eq_true_eq] at hedge ⊢
            obtain ⟨hsome, hmem⟩ := hedge
            have hcv : 1 ≤ (g.adjLookup u).count v := count_pos_of_mem _ _ hmem
            have hcu : 1 ≤ (g.adjLookup v).count u := by
              rw [← h.symmetric hdf u v huv]
              exact hcv
            have hmem2 : u ∈ g.adjLookup v := List.one_le_count_iff.mp hcu
            have hvsome : (dget (dremove g.adjacency_list u v) v).isSome = true := by
              rw [dget_isSome_iff, dremove_keys, ← dget_isSome_iff]
              unfold Graph.adjLookup at hmem2
              cases hd : dget g.adjacency_list v with
              | some l => rfl
              | none => rw [hd] at hmem2; simp at hmem2
            constructor
            · exact hvsome
            · have s2 := dget_dremove_ne g.adjacency_list u v v (Ne.symm huv)
              rw [s2]
              exact hmem2
      · intro hdf a
        by_cases ha : a = u
        · rw [ha, hadj_u, count_erase_eq]
          have h1 := h.dupfree_self hdf u
          omega
        · rw [hne a ha]
          exact h.dupfree_self hdf a
  · exact h

theorem erase_map_eq (n : V) :
    (fun p : V × List V => if n ∈ p.2 then (p.1, p.2.erase n) else p)
      = fun p : V × List V => (p.1, p.2.erase n) := by
  funext p
  by_cases hnp : n ∈ p.2
  · simp [hnp]
  · simp [hnp, List.erase_of_not_mem hnp]

theorem WF.remove_node (g : Graph V) (h : g.WF) (n : V) : ((g.remove_node n).2).WF := by
  unfold Graph.remove_node
  split
  · exact h
  · simp only [erase_map_eq]
    have hkeys2 : Graph.keyList (V := V)
        ⟨(ddelete g.adjacency_list n).map (fun p => (p.1, p.2.erase n)), g.directed⟩
          = (g.keyList).erase n := by
      simp only [Graph.keyList, List.map_map]
      have : (Prod.fst ∘ fun p : V × List V => (p.1, p.2.erase n)) = Prod.fst := by
        funext p; rfl
      rw [this, ddelete_keys]
    have hkey_ne : ∀ q ∈ ddelete g.adjacency_list n, q.1 ≠ n := by
      intro q hq
      have hq1 : q.1 ∈ (g.keyList).erase n := by
        simp only [Graph.keyList]
        rw [← ddelete_keys g.adjacency_list n]
        exact List.mem_map.mpr ⟨q, hq, rfl⟩
      intro hqn
      rw [hqn] at hq1
      exact (h.keys_nodup.not_mem_erase) hq1
    have hentry : ∀ q ∈ ddelete g.adjacency_list n, g.adjLookup q.1 = q.2 := by
      intro q hq
      have hqm : q ∈ g.adjacency_list := (ddelete_sublist g.adjacency_list n).mem hq
      obtain ⟨a, l⟩ := hqm |> fun _ => q
      have : dget g.adjacency_list q.1 = some q.2 := by
        apply dget_of_mem_of_nodup
        · exact (ddelete_sublist g.adjacency_list n).mem hq
        · exact h.keys_nodup
      simp [Graph.adjLookup, this]
    have hadj_n : Graph.adjLookup
        ⟨(ddelete g.adjacency_list n).map (fun p => (p.1, p.2.erase n)), g.directed⟩ n
          = [] := by
      have : dget ((ddelete g.adjacency_list n).map (fun p => (p.1, p.2.erase n))) n
          = none := by
        rw [dget_eq_none_iff]
        intro hmem
        have : n ∈ (g.keyList).erase n := by
          simp only [Graph.keyList]
          have hk := hkeys2
          simp only [Graph.keyList] at hk
          rw [← hk]
          exact hmem
        exact h.keys_nodup.not_mem_erase this
      simp [Graph.adjLookup, this]
    have hadj_ne : ∀ y, y ≠ n → Graph.adjLookup
        ⟨(ddelete g.adjacency_list n).map (fun p => (p.1, p.2.erase n)), g.directed⟩ y
          = (g.adjLookup y).erase n := by
      intro y hy
      have hm := dget_mapVal (fun l : List V => l.erase n) (ddelete g.adjacency_list n) y
      simp only [Graph.adjLookup]
      rw [hm, dget_ddelete_ne g.adjacency_list n y hy]
      cases dget g.adjacency_list y <;> simp
    constructor
    · rw [hkeys2]
      exact h.keys_nodup.erase n
    · intro p hp y hy
      rw [hkeys2]
      obtain ⟨q, hq, hpe⟩ := List.mem_map.mp hp
      have hq1 : q.1 ≠ n := hkey_ne q hq
      have hql : g.adjLookup q.1 = q.2 := hentry q hq
      subst hpe
      simp only at hy
      have hyq : y ∈ q.2 := List.mem_of_mem_erase hy
      have hyk : y ∈ g.keyList := by
        have hqm : q ∈ g.adjacency_list := (ddelete_sublist g.adjacency_list n).mem hq
        exact h.closed q hqm y hyq
      have hyn : y ≠ n := by
        intro hyn
        rw [hyn] at hy
        have hc := count_erase_eq q.2 n n
        rw [if_pos rfl] at hc
        have h1 : q.2.count n ≤ 1 := by
          have := h.dupfree q.1 n hq1
          rw [hql] at this
          exact this
        have h0 : (q.2.erase n).count n = 0 := by omega
        have := count_pos_of_mem _ _ hy
        omega
      exact (h.keys_nodup.mem_erase_iff).mpr ⟨hyn, hyk⟩
    · intro a b hab
      by_cases ha : a = n
      · rw [ha, hadj_n]
        simp
      · rw [hadj_ne a ha, count_erase_eq]
        have h1 := h.dupfree a b hab
        omega
    · intro hdir a b hab
      by_cases ha : a = n
      · rw [ha, hadj_n]
        have hbn : b ≠ n := fun hh => hab (ha.trans hh.symm)
        rw [hadj_ne b hbn, count_erase_eq, if_pos rfl]
        have h1 : (g.adjLookup b).count n ≤ 1 := h.dupfree b n hbn
        simp
        omega
      · by_cases hb : b = n
        · rw [hb, hadj_n, hadj_ne a ha, count_erase_eq, if_pos rfl]
          have h1 : (g.adjLookup a).count n ≤ 1 := h.dupfree a n ha
          simp
          omega
        · rw [hadj_ne a ha, hadj_ne b hb, count_erase_eq, count_erase_eq]
          rw [if_neg hb, if_neg ha]
          have h1 := h.symmetric hdir a b hab
          omega
    · intro hdir a
      by_cases ha : a = n
      · rw [ha, hadj_n]
        simp
      · rw [hadj_ne a ha, count_erase_eq]
        have h1 := h.dupfree_self hdir a
        omega

/-- Every graph built through the public mutators is well-formed. -/
theorem Built.wf (g : Graph V) (h : g.Built) : g.WF := by
  induction h with
  | init d =>
    constructor
    · simp [Graph.keyList]
    · intro p hp; simp at hp
    · intro a b hab; simp [Graph.adjLookup]
    · intro _ a b hab; simp [Graph.adjLookup]
    · intro _ a; simp [Graph.adjLookup]
  | add_node g n hb ih => exact WF.add_node g ih n
  | add_edge g u v hb ih => exact WF.add_edge g ih u v
  | remove_edge g u v hb ih => exact WF.remove_edge g ih u v
  | remove_node g n hb ih => exact WF.remove_node g ih n

theorem add_node_of_isSome (g : Graph V) (n : V)
    (h : (dget g.adjacency_list n).isSome = true) : g.add_node n = (false, g) := by
  unfold Graph.add_node
  rw [if_pos h]

omit [DecidableEq V] in
theorem foldl_count_if (P : V × List V → Prop) [DecidablePred P]
    (m : List (V × List V)) (acc : Nat) :
    m.foldl (fun acc p => if P p then acc + 1 else acc) acc
      = acc + (m.filter (fun p => decide (P p))).length := by
  induction m generalizing acc with
  | nil => simp
  | cons p rest ih =>
    by_cases hp : P p
    · simp [hp, ih, List.filter_cons]
      omega
    · simp [hp, ih, List.filter_cons]

theorem filter_map_pair_length (l : List V) (a n : V) :
    ((l.map (fun t => (a, t))).filter (fun e => decide (e.2 = n))).length
      = l.count n := by
  induction l with
  | nil => simp
  | cons t rest ih =>
    by_cases ht : t = n
    · subst ht
      simp [List.filter_cons, ih, List.count_cons]
    · simp [List.filter_cons, ht, ih, List.count_cons]

theorem edges_filter_aux (m : List (V × List V)) (n : V)
    (hcnt : ∀ p ∈ m, p.2.count n ≤ 1) :
    (((m.map (fun p => p.2.map (fun t => (p.1, t)))).flatten).filter
        (fun e => decide (e.2 = n))).length
      = (m.filter (fun p => decide (n ∈ p.2))).length := by
  induction m with
  | nil => simp
  | cons p rest ih =>
    have hrest : ∀ q ∈ rest, q.2.count n ≤ 1 := fun q hq =>
      hcnt q (List.mem_cons_of_mem _ hq)
    have hp := hcnt p (List.mem_cons_self _ _)
    simp only [List.map_cons, List.flatten_cons, List.filter_append,
      List.length_append, List.filter_cons]
    rw [filter_map_pair_length, ih hrest]
    by_cases hmem : n ∈ p.2
    · have h1 : 1 ≤ p.2.count n := count_pos_of_mem _ _ hmem
      have : p.2.count n = 1 := le_antisymm hp h1
      simp [hmem, this]
      omega
    · have : p.2.count n = 0 := List.count_eq_zero.mpr hmem
      simp [hmem, this]

theorem get_edges_filter_target (g : Graph V) (n : V)
    (hcnt : ∀ p ∈ g.adjacency_list, p.2.count n ≤ 1) :
    ((g.get_edges).filter (fun e => decide (e.2 = n))).length
      = (g.adjacency_list.filter (fun p => decide (n ∈ p.2))).length := by
  unfold Graph.get_edges
  exact edges_filter_aux g.adjacency_list n hcnt

/-- C10 (amended part): for a node that is present, get_degree returns the
in/out/total table on a directed graph (with in equal to the number of edges
pointing at the node and out the length of its adjacency list), and the bare
out-degree count on an undirected graph. -/
theorem claim_c10_degree (g : Graph V) (hg : g.Built) (n : V) (hn : n ∈ g.get_nodes) :
    (g.directed = true →
      g.get_degree n = .table ((g.get_edges.filter (fun e => decide (e.2 = n))).length)
        (g.adjLookup n).length
        (((g.get_edges.filter (fun e => decide (e.2 = n))).length) + (g.adjLookup n).length)) ∧
    (g.directed = false → g.get_degree n = .count (g.adjLookup n).length) := by
  have hwf := Graph.Built.wf g hg
  have hentry : ∀ p ∈ g.adjacency_list, g.adjLookup p.1 = p.2 := by
    intro p hp
    have hd : dget g.adjacency_list p.1 = some p.2 :=
      dget_of_mem_of_nodup _ _ _ hp hwf.keys_nodup
    simp [Graph.adjLookup, hd]
  constructor
  · intro hdir
    have hcnt : ∀ p ∈ g.adjacency_list, p.2.count n ≤ 1 := by
      intro p hp
      rw [← hentry p hp]
      by_cases hpn : p.1 = n
      · rw [hpn]
        exact hwf.dupfree_self hdir n
      · exact hwf.dupfree p.1 n hpn
    unfold Graph.get_degree
    rw [if_neg (by simpa using hn)]
    simp only [hdir, if_pos]
    rw [get_edges_filter_target g n hcnt]
    have hfold := foldl_count_if (fun p : V × List V => n ∈ p.2) g.adjacency_list 0
    simp only [Nat.zero_add] at hfold
    rw [hfold]
    rfl
  · intro hdir
    unfold Graph.get_degree
    rw [if_neg (by simpa using hn)]
    rw [hdir]
    simp [Graph.adjLookup]

/-- C10 counterexample: on a directed graph, querying the degree of an
absent node returns the bare count 0, not an in/out/total table, refuting
the claim for arbitrary node identifiers. -/
theorem claim_c10_counterexample :
    ((⟨[(0, [1]), (1, [])], true⟩ : Graph Nat).get_degree 5 = .count 0) ∧
    ∀ a b c : Nat, (⟨[(0, [1]), (1, [])], true⟩ : Graph Nat).get_degree 5
      ≠ .table a b c := by
  have h0 : (⟨[(0, [1]), (1, [])], true⟩ : Graph Nat).get_degree 5 = .count 0 := by
    decide
  refine ⟨h0, ?_⟩
  intro a b c hty
  rw [h0] at hty
  exact Graph.DegreeAnswer.noConfusion hty

theorem claim_c10_witness :
    (0 : Nat) ∈ (⟨[(0, [1]), (1, [])], true⟩ : Graph Nat).get_nodes ∧
    (⟨[(0, [1]), (1, [])], true⟩ : Graph Nat).get_degree 0 = .table 0 1 1 := by
  have hb : Graph.Built (V := Nat) ⟨[(0, [1]), (1, [])], true⟩ := by
    have h1 := Graph.Built.add_edge (V := Nat) ⟨[], true⟩ 0 1 (Graph.Built.init true)
    have he : ((⟨[], true⟩ : Graph Nat).add_edge 0 1).2 = ⟨[(0, [1]), (1, [])], true⟩ := by
      decide
    rw [he] at h1
    exact h1
  have hn : (0 : Nat) ∈ (⟨[(0, [1]), (1, [])], true⟩ : Graph Nat).get_nodes := by decide
  have h := (claim_c10_degree ⟨[(0, [1]), (1, [])], true⟩ hb 0 hn).1 rfl
  refine ⟨hn, ?_⟩
  rw [h]
  decide

/-- C8: on any graph built through the public mutators, a successful
remove_node leaves no trace of the node: it is gone from get_nodes and no
edge of get_edges has it as source or destination. -/
theorem claim_c8_remove_node (g : Graph V) (hg : g.Built) (n : V) (g2 : Graph V)
    (hrem : g.remove_node n = (true, g2)) :
    n ∉ g2.get_nodes ∧ ∀ e ∈ g2.get_edges, e.1 ≠ n ∧ e.2 ≠ n := by
  have hwf := Graph.Built.wf g hg
  unfold Graph.remove_node at hrem
  split at hrem
  · exact absurd (congrArg Prod.fst hrem) (by simp)
  · simp only [erase_map_eq, Prod.mk.injEq] at hrem
    obtain ⟨-, hg2⟩ := hrem
    have hentry : ∀ q ∈ ddelete g.adjacency_list n, g.adjLookup q.1 = q.2 := by
      intro q hq
      have hd : dget g.adjacency_list q.1 = some q.2 :=
        dget_of_mem_of_nodup _ _ _ ((ddelete_sublist g.adjacency_list n).mem hq)
          hwf.keys_nodup
      simp [Graph.adjLookup, hd]
    have hkey_ne : ∀ q ∈ ddelete g.adjacency_list n, q.1 ≠ n := by
      intro q hq
      have hq1 : q.1 ∈ (g.keyList).erase n := by
        simp only [Graph.keyList]
        rw [← ddelete_keys g.adjacency_list n]
        exact List.mem_map.mpr ⟨q, hq, rfl⟩
      intro hqn
      rw [hqn] at hq1
      exact hwf.keys_nodup.not_mem_erase hq1
    have hval : ∀ p ∈ g2.adjacency_list, p.1 ≠ n ∧ n ∉ p.2 := by
      intro p hp
      rw [← hg2] at hp
      obtain ⟨q, hq, hpe⟩ := List.mem_map.mp hp
      have hq1 : q.1 ≠ n := hkey_ne q hq
      refine ⟨?_, ?_⟩
      · rw [← hpe]
        simpa using hq1
      rw [← hpe]
      simp only
      have hc1 : q.2.count n ≤ 1 := by
        have := hwf.dupfree q.1 n hq1
        rw [hentry q hq] at this
        exact this
      intro hmem
      have hc := count_erase_eq q.2 n n
      rw [if_pos rfl] at hc
      have := count_pos_of_mem _ _ hmem
      omega
    constructor
    · intro hmem
      unfold Graph.get_nodes at hmem
      rw [List.mem_dedup, List.mem_append] at hmem
      rcases hmem with hmem | hmem
      · obtain ⟨p, hp, hpe⟩ := List.mem_map.mp hmem
        exact (hval p hp).1 hpe
      · rw [List.mem_flatten] at hmem
        obtain ⟨l, hl, hnl⟩ := hmem
        obtain ⟨p, hp, hpe⟩ := List.mem_map.mp hl
        rw [← hpe] at hnl
        exact (hval p hp).2 hnl
    · intro e he
      unfold Graph.get_edges at he
      rw [List.mem_flatten] at he
      obtain ⟨l, hl, hel⟩ := he
      obtain ⟨p, hp, hpe⟩ := List.mem_map.mp hl
      rw [← hpe] at hel
      obtain ⟨t, ht, hte⟩ := List.mem_map.mp hel
      constructor
      · rw [← hte]
        exact (hval p hp).1
      · rw [← hte]
        simp only
        intro htn
        rw [htn] at ht
        exact (hval p hp).2 ht

theorem claim_c8_witness :
    (⟨[(0, [1]), (1, [0, 2]), (2, [1])], false⟩ : Graph Nat).remove_node 1
        = (true, ⟨[(0, []), (2, [])], false⟩) ∧
    (1 : Nat) ∉ (⟨[(0, []), (2, [])], false⟩ : Graph Nat).get_nodes ∧
    ∀ e ∈ (⟨[(0, []), (2, [])], false⟩ : Graph Nat).get_edges, e.1 ≠ 1 ∧ e.2 ≠ 1 := by
  have hb : Graph.Built (V := Nat) ⟨[(0, [1]), (1, [0, 2]), (2, [1])], false⟩ := by
    have h1 := Graph.Built.add_edge (V := Nat) ⟨[], false⟩ 0 1 (Graph.Built.init false)
    have h2 := Graph.Built.add_edge _ 1 2 h1
    have he : ((((⟨[], false⟩ : Graph Nat).add_edge 0 1).2).add_edge 1 2).2
        = ⟨[(0, [1]), (1, [0, 2]), (2, [1])], false⟩ := by decide
    rw [he] at h2
    exact h2
  refine ⟨by decide, ?_⟩
  exact claim_c8_remove_node _ hb 1 _ (by decide)

/-- C9: duplicate insertions are reported through the boolean result and
leave the graph unchanged; fresh insertions succeed, auto-insert both
endpoints and append the edge. -/
theorem claim_c9_duplicate_insertion (g : Graph V) (hg : g.Built) (n u v : V) :
    ((dget g.adjacency_list n).isSome = true → g.add_node n = (false, g)) ∧
    ((dget g.adjacency_list n).isSome = false →
      (g.add_node n).1 = true ∧ n ∈ ((g.add_node n).2).keyList) ∧
    (v ∈ g.adjLookup u → g.add_edge u v = (false, g)) ∧
    (v ∉ g.adjLookup u →
      (g.add_edge u v).1 = true ∧
      u ∈ ((g.add_edge u v).2).keyList ∧ v ∈ ((g.add_edge u v).2).keyList ∧
      v ∈ ((g.add_edge u v).2).adjLookup u ∧
      ((g.directed = true ∨ u ≠ v) →
        ((g.add_edge u v).2).adjLookup u = g.adjLookup u ++ [v])) := by
  have hwf := Graph.Built.wf g hg
  refine ⟨?_, ?_, ?_, ?_⟩
  · intro hsome
    exact add_node_of_isSome g n hsome
  · intro hnone
    unfold Graph.add_node
    rw [if_neg (by simp [hnone])]
    refine ⟨rfl, ?_⟩
    simp [Graph.keyList]
  · intro hmem
    have hu : (dget g.adjacency_list u).isSome = true := by
      unfold Graph.adjLookup at hmem
      cases hd : dget g.adjacency_list u with
      | none => rw [hd] at hmem; simp at hmem
      | some l => rfl
    have hvk : v ∈ g.keyList := hwf.closed_adj g u v hmem
    have hv : (dget g.adjacency_list v).isSome = true := by
      rw [dget_isSome_iff]
      simpa [Graph.keyList] using hvk
    unfold Graph.add_edge
    rw [add_node_of_isSome g u hu]
    simp only []
    rw [add_node_of_isSome g v hv]
    simp only []
    have hmem2 : v ∈ (dget g.adjacency_list u).getD [] := hmem
    rw [if_pos hmem2]
  · intro hmem
    have hadj2 : ∀ y, ((((g.add_node u).2).add_node v).2).adjLookup y = g.adjLookup y := by
      intro y
      rw [adjLookup_add_node, adjLookup_add_node]
    have hu2 : u ∈ ((((g.add_node u).2).add_node v).2).keyList := by
      rw [mem_keyList_add_node]
      exact Or.inl (self_mem_keyList_add_node g u)
    have hv2 : v ∈ ((((g.add_node u).2).add_node v).2).keyList :=
      self_mem_keyList_add_node _ v
    have hdir2 : ((((g.add_node u).2).add_node v).2).directed = g.directed := by
      rw [directed_add_node, directed_add_node]
    have hmem2 : v ∉ ((((g.add_node u).2).add_node v).2).adjLookup u := by
      rw [hadj2]; exact hmem
    obtain ⟨lu, hlu⟩ : ∃ l, dget (((g.add_node u).2.add_node v).2).adjacency_list u
        = some l := by
      apply Option.isSome_iff_exists.mp
      rw [dget_isSome_iff]
      simpa [Graph.keyList] using hu2
    have hlu2 : (((g.add_node u).2.add_node v).2).adjLookup u = lu :=
      adjLookup_eq_of_dget _ u lu hlu
    unfold Graph.add_edge
    simp only []
    rw [if_neg (by exact hmem2)]
    split
    · rename_i hdt
      refine ⟨rfl, ?_, ?_, ?_, ?_⟩
      · simpa [Graph.keyList] using hu2
      · simpa [Graph.keyList] using hv2
      · simp only [Graph.adjLookup, dget_dappend_self _ u v lu hlu]
        simp
      · intro hcase
        have hgu : g.adjLookup u = lu := by rw [← hadj2 u, hlu2]
        rw [hgu]
        simp only [Graph.adjLookup, dget_dappend_self _ u v lu hlu]
        simp
    · rename_i hdt
      by_cases huv : u = v
      · refine ⟨rfl, ?_, ?_, ?_, ?_⟩
        · simpa [Graph.keyList] using hu2
        · simpa [Graph.keyList] using hv2
        · have h3 := dget_dappend_self _ u v lu hlu
          rw [huv] at h3 ⊢
          have h4 := dget_dappend_self _ v v (lu ++ [v]) h3
          simp only [Graph.adjLookup, h4]
          simp
        · intro hcase
          rcases hcase with hcase | hcase
          · rw [hdir2] at hdt
            exact absurd hcase (by simpa using hdt)
          · exact absurd huv hcase
      · refine ⟨rfl, ?_, ?_, ?_, ?_⟩
        · simpa [Graph.keyList] using hu2
        · simpa [Graph.keyList] using hv2
        · have h3 := dget_dappend_self _ u v lu hlu
          have h4 : dget (dappend (dappend (((g.add_node u).2.add_node v).2).adjacency_list
              u v) v u) u = some (lu ++ [v]) := by
            rw [dget_dappend_ne _ v u u huv]
            exact h3
          simp only [Graph.adjLookup, h4]
          simp
        · intro hcase
          have h3 := dget_dappend_self _ u v lu hlu
          have h4 : dget (dappend (dappend (((g.add_node u).2.add_node v).2).adjacency_list
              u v) v u) u = some (lu ++ [v]) := by
            rw [dget_dappend_ne _ v u u huv]
            exact h3
          have hgu : g.adjLookup u = lu := by rw [← hadj2 u, hlu2]
          rw [hgu]
          simp only [Graph.adjLookup, h4]
          simp

theorem claim_c9_witness :
    ((⟨[(0, [1]), (1, [])], true⟩ : Graph Nat).add_node 0
        = (false, ⟨[(0, [1]), (1, [])], true⟩)) ∧
    ((⟨[(0, [1]), (1, [])], true⟩ : Graph Nat).add_edge 0 1
        = (false, ⟨[(0, [1]), (1, [])], true⟩)) ∧
    ((⟨[(0, [1]), (1, [])], true⟩ : Graph Nat).add_edge 1 2).1 = true := by
  have hb : Graph.Built (V := Nat) ⟨[(0, [1]), (1, [])], true⟩ := by
    have h1 := Graph.Built.add_edge (V := Nat) ⟨[], true⟩ 0 1 (Graph.Built.init true)
    have he : ((⟨[], true⟩ : Graph Nat).add_edge 0 1).2 = ⟨[(0, [1]), (1, [])], true⟩ := by
      decide
    rw [he] at h1
    exact h1
  refine ⟨?_, ?_, ?_⟩
  · exact (claim_c9_duplicate_insertion _ hb 0 0 1).1 (by decide)
  · exact (claim_c9_duplicate_insertion _ hb 0 0 1).2.2.1 (by decide)
  · exact ((claim_c9_duplicate_insertion _ hb 0 1 2).2.2.2 (by decide)).1

end Graph

/-! Traversal modules (bfs.py, dfs_recursive.py, dfs_iterative.py) operate
on plain dicts mapping a node to its neighbour list, read through
graph.get(node, []). -/

/-- graph.get(node, []) on a plain dict graph. -/
def adjGet (g : List (V × List V)) (x : V) : List V :=
  (dget g x).getD []

/-- One directed edge of a dict graph. -/
def edgeStep (g : List (V × List V)) (u v : V) : Prop :=
  v ∈ adjGet g u

instance (g : List (V × List V)) (u v : V) : Decidable (edgeStep g u v) := by
  unfold edgeStep; infer_instance

/-- Reachability along edges of a dict graph. -/
def Reach (g : List (V × List V)) (s t : V) : Prop :=
  Relation.ReflTransGen (edgeStep g) s t

/-- A duplicate-free list containing the start node and every node that
ever appears in a neighbour list: traversals never leave this set. -/
def nodeUniv (g : List (V × List V)) (s : V) : List V :=
  (s :: (g.map Prod.snd).flatten).dedup

theorem start_mem_nodeUniv (g : List (V × List V)) (s : V) : s ∈ nodeUniv g s := by
  simp [nodeUniv]

theorem nodeUniv_nodup (g : List (V × List V)) (s : V) : (nodeUniv g s).Nodup :=
  List.nodup_dedup _

theorem adjGet_subset_univ (g : List (V × List V)) (s y nb : V)
    (h : nb ∈ adjGet g y) : nb ∈ nodeUniv g s := by
  unfold adjGet at h
  cases hd : dget g y with
  | none => rw [hd] at h; simp at h
  | some l =>
    rw [hd] at h
    simp only [Option.getD_some] at h
    have hl : l ∈ g.map Prod.snd := List.mem_map.mpr ⟨(y, l), dget_mem _ _ _ hd, rfl⟩
    simp only [nodeUniv, List.mem_dedup, List.mem_cons]
    exact Or.inr (List.mem_flatten.mpr ⟨l, hl, h⟩)

theorem filter_not_mem_mono (U vis vis2 : List V) (hsub : ∀ z ∈ vis, z ∈ vis2) :
    ((U.filter (fun z => decide (z ∉ vis2))).length)
      ≤ (U.filter (fun z => decide (z ∉ vis))).length := by
  apply List.Sublist.length_le
  apply List.monotone_filter_right
  intro a ha
  simp only [decide_eq_true_eq] at ha ⊢
  intro hmem
  exact ha (hsub a hmem)

theorem filter_cons_lt (U : List V) (nb : V) (vis : List V)
    (hnbU : nb ∈ U) (hnb : nb ∉ vis) :
    ((U.filter (fun z => decide (z ∉ (nb :: vis)))).length)
      < (U.filter (fun z => decide (z ∉ vis))).length := by
  have hmem : nb ∈ U.filter (fun z => decide (z ∉ vis)) := by
    simp [List.mem_filter, hnbU, hnb]
  have hsub : (U.filter (fun z => decide (z ∉ (nb :: vis)))).Sublist
      ((U.filter (fun z => decide (z ∉ vis))).filter (fun z => decide (z ≠ nb))) := by
    rw [List.filter_filter]
    apply List.monotone_filter_right
    intro a ha
    simp only [decide_eq_true_eq, List.mem_cons, not_or] at ha
    simp [ha.1, ha.2, decide_eq_true_eq]
  apply Nat.lt_of_le_of_lt (hsub.length_le)
  rw [List.length_filter_lt_length_iff_exists]
  exact ⟨nb, hmem, by simp⟩

/-! simple_dfs_recursive from dfs_recursive.py: mark the node visited, then
recurse into each not-yet-visited neighbour, threading the visited set. -/

def dfsRecAux (g : List (V × List V)) : Nat → V → List V → List V
  | 0, _, visited => visited
  | fuel + 1, node, visited =>
    (adjGet g node).foldl
      (fun vis nb => if nb ∈ vis then vis else dfsRecAux g fuel nb vis)
      (node :: visited)

/-- simple_dfs_recursive(graph, node): the visited set it returns, with
enough fuel for the recursion depth. -/
def simple_dfs_recursive (g : List (V × List V)) (node : V) : List V :=
  dfsRecAux g ((nodeUniv g node).length + 1) node []

theorem dfsRecAux_spec (g : List (V × List V)) (U : List V)
    (hU : ∀ y nb, nb ∈ adjGet g y → nb ∈ U) :
    ∀ fuel x vis, x ∈ U →
      (U.filter (fun z => decide (z ∉ (x :: vis)))).length < fuel →
      (∀ z ∈ vis, z ∈ dfsRecAux g fuel x vis) ∧
      x ∈ dfsRecAux g fuel x vis ∧
      (∀ z ∈ dfsRecAux g fuel x vis, z ∈ vis ∨ Reach g x z) ∧
      (∀ z ∈ dfsRecAux g fuel x vis, z ∉ vis →
        ∀ nb ∈ adjGet g z, nb ∈ dfsRecAux g fuel x vis) := by
  intro fuel
  induction fuel with
  | zero => intro x vis hx hf; omega
  | succ f ih =>
    intro x vis hx hf
    have hf2 : (U.filter (fun z => decide (z ∉ (x :: vis)))).length ≤ f := by omega
    -- the inner fold over the neighbour list
    have hfold : ∀ (l : List V), (∀ nb ∈ l, nb ∈ U) →
        ∀ (vis0 : List V), (U.filter (fun z => decide (z ∉ vis0))).length ≤ f →
        (∀ z ∈ vis0, z ∈ l.foldl
            (fun vis nb => if nb ∈ vis then vis else dfsRecAux g f nb vis) vis0) ∧
        (∀ nb ∈ l, nb ∈ l.foldl
            (fun vis nb => if nb ∈ vis then vis else dfsRecAux g f nb vis) vis0) ∧
        (∀ z ∈ l.foldl
            (fun vis nb => if nb ∈ vis then vis else dfsRecAux g f nb vis) vis0,
          z ∈ vis0 ∨ ∃ nb ∈ l, Reach g nb z) ∧
        (∀ z ∈ l.foldl
            (fun vis nb => if nb ∈ vis then vis else dfsRecAux g f nb vis) vis0,
          z ∉ vis0 → ∀ nb2 ∈ adjGet g z, nb2 ∈ l.foldl
            (fun vis nb => if nb ∈ vis then vis else dfsRecAux g f nb vis) vis0) := by
      intro l
      induction l with
      | nil =>
        intro hl vis0 hcnt
        refine ⟨fun z hz => hz, by simp, fun z hz => Or.inl hz, ?_⟩
        intro z hz hzvis
        exact absurd hz (by simpa using hzvis)
      | cons nb l2 ihl =>
        intro hl vis0 hcnt
        have hnbU : nb ∈ U := hl nb (List.mem_cons_self _ _)
        have hl2 : ∀ q ∈ l2, q ∈ U := fun q hq => hl q (List.mem_cons_of_mem _ hq)
        by_cases hnb : nb ∈ vis0
        · -- neighbour already visited: skip
          simp only [List.foldl_cons, if_pos hnb]
          obtain ⟨c1, c2, c3, c4⟩ := ihl hl2 vis0 hcnt
          refine ⟨c1, ?_, ?_, c4⟩
          · intro q hq
            rcases List.mem_cons.mp hq with rfl | hq
            · exact c1 q hnb
            · exact c2 q hq
          · intro z hz
            rcases c3 z hz with hz2 | ⟨nb2, hnb2, hr⟩
            · exact Or.inl hz2
            · exact Or.inr ⟨nb2, List.mem_cons_of_mem _ hnb2, hr⟩
        · -- fresh neighbour: recursive call
          simp only [List.foldl_cons, if_neg hnb]
          have hcall := ih nb vis0 hnbU (by
            have := filter_cons_lt U nb vis0 hnbU hnb
            omega)
          obtain ⟨d1, d2, d3, d4⟩ := hcall
          have hcnt2 : (U.filter (fun z => decide (z ∉ dfsRecAux g f nb vis0))).length ≤ f := by
            have hmono := filter_not_mem_mono U (nb :: vis0) (dfsRecAux g f nb vis0) (by
              intro z hz
              rcases List.mem_cons.mp hz with rfl | hz
              · exact d2
              · exact d1 z hz)
            have := filter_cons_lt U nb vis0 hnbU hnb
            omega
          obtain ⟨c1, c2, c3, c4⟩ := ihl hl2 (dfsRecAux g f nb vis0) hcnt2
          refine ⟨?_, ?_, ?_, ?_⟩
          · intro z hz
            exact c1 z (d1 z hz)
          · intro q hq
            rcases List.mem_cons.mp hq with rfl | hq
            · exact c1 q d2
            · exact c2 q hq
          · intro z hz
            rcases c3 z hz with hz2 | ⟨nb2, hnb2, hr⟩
            · rcases d3 z hz2 with hz3 | hr
              · exact Or.inl hz3
              · exact Or.inr ⟨nb, List.mem_cons_self _ _, hr⟩
            · exact Or.inr ⟨nb2, List.mem_cons_of_mem _ hnb2, hr⟩
          · intro z hz hzvis nb2 hnb2
            by_cases hzin : z ∈ dfsRecAux g f nb vis0
            · exact c1 _ (d4 z hzin hzvis nb2 hnb2)
            · exact c4 z hz hzin nb2 hnb2
    have hspec := hfold (adjGet g x) (fun nb hnb => hU x nb hnb) (x :: vis) hf2
    obtain ⟨c1, c2, c3, c4⟩ := hspec
    simp only [dfsRecAux]
    refine ⟨?_, ?_, ?_, ?_⟩
    · intro z hz
      exact c1 z (List.mem_cons_of_mem _ hz)
    · exact c1 x (List.mem_cons_self _ _)
    · intro z hz
      rcases c3 z hz with hz2 | ⟨nb, hnb, hr⟩
      · rcases List.mem_cons.mp hz2 with rfl | hz3
        · exact Or.inr Relation.ReflTransGen.refl
        · exact Or.inl hz3
      · exact Or.inr (Relation.ReflTransGen.head hnb hr)
    · intro z hz hzvis nb hnb
      by_cases hzx : z = x
      · subst hzx
        exact c2 nb hnb
      · refine c4 z hz ?_ nb hnb
        intro hzc
        rcases List.mem_cons.mp hzc with rfl | hz3
        · exact hzx rfl
        · exact hzvis hz3

/-- The visited set of the recursive DFS is exactly the set of nodes
reachable from the start. -/
theorem simple_dfs_recursive_reach (g : List (V × List V)) (s x : V) :
    x ∈ simple_dfs_recursive g s ↔ Reach g s x := by
  have hspec := dfsRecAux_spec g (nodeUniv g s)
    (fun y nb h => adjGet_subset_univ g s y nb h)
    ((nodeUniv g s).length + 1) s [] (start_mem_nodeUniv g s)
    (by
      have := List.length_filter_le (fun z => decide (z ∉ ([s] : List V))) (nodeUniv g s)
      omega)
  obtain ⟨h1, h2, h3, h4⟩ := hspec
  constructor
  · intro hx
    rcases h3 x hx with hx2 | hr
    · simp at hx2
    · exact hr
  · intro hr
    unfold simple_dfs_recursive
    induction hr with
    | refl => exact h2
    | tail hstep hedge ihr =>
      rename_i b c
      exact h4 b ihr (by simp) c hedge

/-! simple_bfs from bfs.py: FIFO queue, nodes marked visited when they are
enqueued, dequeued nodes appended to the result. -/

def bfsLoop (g : List (V × List V)) : Nat → List V → List V → List V → List V
  | 0, _, _, result => result
  | fuel + 1, visited, queue, result =>
    match queue with
    | [] => result
    | x :: q =>
      let st := (adjGet g x).foldl
        (fun (p : List V × List V) nb =>
          if nb ∈ p.1 then p else (p.1 ++ [nb], p.2 ++ [nb])) (visited, q)
      bfsLoop g fuel st.1 st.2 (result ++ [x])

def simple_bfs (g : List (V × List V)) (start : V) : List V :=
  bfsLoop g ((nodeUniv g start).length + 2) [start] [start] []

theorem bfs_fold_spec (U : List V)
    (l : List V) (hl : ∀ nb ∈ l, nb ∈ U) :
    ∀ (vis q : List V) (st : List V × List V),
      st = l.foldl
        (fun (p : List V × List V) nb =>
          if nb ∈ p.1 then p else (p.1 ++ [nb], p.2 ++ [nb])) (vis, q) →
      (∀ z ∈ vis, z ∈ st.1) ∧
      (∀ z ∈ q, z ∈ st.2) ∧
      (∀ nb ∈ l, nb ∈ st.1) ∧
      (∀ z ∈ st.1, z ∈ vis ∨ z ∈ l) ∧
      (∀ z ∈ st.2, z ∈ q ∨ z ∈ st.1) ∧
      (∀ z ∈ st.1, z ∈ vis ∨ z ∈ st.2) ∧
      ((U.filter (fun z => decide (z ∉ st.1))).length + st.2.length ≤
        (U.filter (fun z => decide (z ∉ vis))).length + q.length) := by
  induction l with
  | nil =>
    intro vis q st hst
    simp only [List.foldl_nil] at hst
    subst hst
    exact ⟨fun z hz => hz, fun z hz => hz, by simp, fun z hz => Or.inl hz,
      fun z hz => Or.inl hz, fun z hz => Or.inl hz, le_refl _⟩
  | cons nb l2 ihl =>
    intro vis q st hst
    have hnbU : nb ∈ U := hl nb (List.mem_cons_self _ _)
    have hl2 : ∀ p ∈ l2, p ∈ U := fun p hp => hl p (List.mem_cons_of_mem _ hp)
    by_cases hnb : nb ∈ vis
    · rw [List.foldl_cons, if_pos hnb] at hst
      obtain ⟨c1, c2, c3, c4, c5, c6, c7⟩ := ihl hl2 vis q st hst
      refine ⟨c1, c2, ?_, ?_, c5, c6, c7⟩
      · intro p hp
        rcases List.mem_cons.mp hp with rfl | hp
        · exact c1 p hnb
        · exact c3 p hp
      · intro z hz
        rcases c4 z hz with hz2 | hz2
        · exact Or.inl hz2
        · exact Or.inr (List.mem_cons_of_mem _ hz2)
    · rw [List.foldl_cons, if_neg hnb] at hst
      obtain ⟨c1, c2, c3, c4, c5, c6, c7⟩ := ihl hl2 (vis ++ [nb]) (q ++ [nb]) st hst
      have hnbin : nb ∈ vis ++ [nb] := List.mem_append_right _ (by simp)
      refine ⟨?_, ?_, ?_, ?_, ?_, ?_, ?_⟩
      · intro z hz
        exact c1 z (List.mem_append_left _ hz)
      · intro z hz
        exact c2 z (List.mem_append_left _ hz)
      · intro p hp
        rcases List.mem_cons.mp hp with rfl | hp
        · exact c1 p hnbin
        · exact c3 p hp
      · intro z hz
        rcases c4 z hz with hz2 | hz2
        · rcases List.mem_append.mp hz2 with hz3 | hz3
          · exact Or.inl hz3
          · rw [List.mem_singleton] at hz3
            exact Or.inr (hz3 ▸ List.mem_cons_self _ _)
        · exact Or.inr (List.mem_cons_of_mem _ hz2)
      · intro z hz
        rcases c5 z hz with hz2 | hz2
        · rcases List.mem_append.mp hz2 with hz3 | hz3
          · exact Or.inl hz3
          · rw [List.mem_singleton] at hz3
            exact Or.inr (c1 z (hz3 ▸ hnbin))
        · exact Or.inr hz2
      · intro z hz
        rcases c6 z hz with hz2 | hz2
        · rcases List.mem_append.mp hz2 with hz3 | hz3
          · exact Or.inl hz3
          · rw [List.mem_singleton] at hz3
            exact Or.inr (c2 z (hz3 ▸ List.mem_append_right _ (by simp)))
        · exact Or.inr hz2
      · refine le_trans c7 ?_
        have hlt : (U.filter (fun z => decide (z ∉ vis ++ [nb]))).length
            < (U.filter (fun z => decide (z ∉ vis))).length := by
          have heq : (U.filter (fun z => decide (z ∉ vis ++ [nb]))).length
              = (U.filter (fun z => decide (z ∉ (nb :: vis)))).length := by
            congr 1
            apply List.filter_congr
            intro z hz
            simp only [decide_eq_decide, List.mem_append, List.mem_singleton,
              List.mem_cons]
            tauto
          rw [heq]
          exact filter_cons_lt U nb vis hnbU hnb
        simp only [List.length_append, List.length_singleton]
        omega

theorem bfsLoop_spec (g : List (V × List V)) (s : V) (U : List V)
    (hU : ∀ y nb, nb ∈ adjGet g y → nb ∈ U) :
    ∀ fuel visited queue result,
      (∀ z ∈ queue, z ∈ visited) →
      (∀ z ∈ visited, Reach g s z) →
      (∀ z ∈ result, z ∈ visited) →
      (∀ z ∈ visited, z ∈ result ∨ z ∈ queue) →
      (∀ z ∈ visited, z ∉ queue → ∀ nb ∈ adjGet g z, nb ∈ visited) →
      (U.filter (fun z => decide (z ∉ visited))).length + queue.length < fuel →
      (∀ z ∈ visited, z ∈ bfsLoop g fuel visited queue result) ∧
      (∀ z ∈ bfsLoop g fuel visited queue result, Reach g s z) ∧
      (∀ z ∈ bfsLoop g fuel visited queue result,
        ∀ nb ∈ adjGet g z, nb ∈ bfsLoop g fuel visited queue result) := by
  intro fuel
  induction fuel with
  | zero => intro visited queue result _ _ _ _ _ hM; omega
  | succ f ih =>
    intro visited queue result i1 i2 i6 i4 i3 hM
    match queue with
    | [] =>
      simp only [bfsLoop]
      refine ⟨?_, ?_, ?_⟩
      · intro z hz
        rcases i4 z hz with hz2 | hz2
        · exact i6 z hz2 |> fun _ => hz2
        · simp at hz2
      · intro z hz
        exact i2 z (i6 z hz)
      · intro z hz nb hnb
        have hzv := i6 z hz
        have hnv := i3 z hzv (by simp) nb hnb
        rcases i4 nb hnv with h2 | h2
        · exact h2
        · simp at h2
    | x :: q =>
      simp only [bfsLoop]
      have hxv : x ∈ visited := i1 x (List.mem_cons_self _ _)
      obtain ⟨c1, c2, c3, c4, c5, c6, c7⟩ :=
        bfs_fold_spec U (adjGet g x) (fun nb hnb => hU x nb hnb) visited q
          ((adjGet g x).foldl
            (fun (p : List V × List V) nb =>
              if nb ∈ p.1 then p else (p.1 ++ [nb], p.2 ++ [nb])) (visited, q)) rfl
      set st := (adjGet g x).foldl
        (fun (p : List V × List V) nb =>
          if nb ∈ p.1 then p else (p.1 ++ [nb], p.2 ++ [nb])) (visited, q) with hst
      apply And.intro
      case right =>
        have hrec := ih st.1 st.2 (result ++ [x]) ?_ ?_ ?_ ?_ ?_ ?_
        · exact ⟨hrec.2.1, hrec.2.2⟩
        · intro z hz
          rcases c5 z hz with hz2 | hz2
          · exact c1 z (i1 z (List.mem_cons_of_mem _ hz2))
          · exact hz2
        · intro z hz
          rcases c4 z hz with hz2 | hz2
          · exact i2 z hz2
          · exact Relation.ReflTransGen.tail (i2 x hxv) hz2
        · intro z hz
          rcases List.mem_append.mp hz with hz2 | hz2
          · exact c1 z (i6 z hz2)
          · rw [List.mem_singleton] at hz2
            exact c1 z (hz2 ▸ hxv)
        · intro z hz
          rcases c6 z hz with hz2 | hz2
          · rcases i4 z hz2 with hz3 | hz3
            · exact Or.inl (List.mem_append_left _ hz3)
            · rcases List.mem_cons.mp hz3 with rfl | hz4
              · exact Or.inl (List.mem_append_right _ (by simp))
              · exact Or.inr (c2 z hz4)
          · exact Or.inr hz2
        · intro z hz hznq nb hnb
          by_cases hzx : z = x
          · subst hzx
            exact c3 nb hnb
          · rcases c6 z hz with hz2 | hz2
            · have hznq2 : z ∉ x :: q := by
                intro hzq
                rcases List.mem_cons.mp hzq with rfl | hzq2
                · exact hzx rfl
                · exact hznq (c2 z hzq2)
              exact c1 nb (i3 z hz2 hznq2 nb hnb)
            · exact absurd hz2 hznq
        · simp only [List.length_cons] at hM
          omega
      case left =>
        intro z hz
        have hrec := ih st.1 st.2 (result ++ [x]) ?_ ?_ ?_ ?_ ?_ ?_
        · exact hrec.1 z (c1 z hz)
        · intro z hz
          rcases c5 z hz with hz2 | hz2
          · exact c1 z (i1 z (List.mem_cons_of_mem _ hz2))
          · exact hz2
        · intro z hz
          rcases c4 z hz with hz2 | hz2
          · exact i2 z hz2
          · exact Relation.ReflTransGen.tail (i2 x hxv) hz2
        · intro z hz
          rcases List.mem_append.mp hz with hz2 | hz2
          · exact c1 z (i6 z hz2)
          · rw [List.mem_singleton] at hz2
            exact c1 z (hz2 ▸ hxv)
        · intro z hz
          rcases c6 z hz with hz2 | hz2
          · rcases i4 z hz2 with hz3 | hz3
            · exact Or.inl (List.mem_append_left _ hz3)
            · rcases List.mem_cons.mp hz3 with rfl | hz4
              · exact Or.inl (List.mem_append_right _ (by simp))
              · exact Or.inr (c2 z hz4)
          · exact Or.inr hz2
        · intro z hz hznq nb hnb
          by_cases hzx : z = x
          · subst hzx
            exact c3 nb hnb
          · rcases c6 z hz with hz2 | hz2
            · have hznq2 : z ∉ x :: q := by
                intro hzq
                rcases List.mem_cons.mp hzq with rfl | hzq2
                · exact hzx rfl
                · exact hznq (c2 z hzq2)
              exact c1 nb (i3 z hz2 hznq2 nb hnb)
            · exact absurd hz2 hznq
        · simp only [List.length_cons] at hM
          omega

/-- The visited set of simple_bfs is exactly the set of reachable nodes. -/
theorem simple_bfs_reach (g : List (V × List V)) (s x : V) :
    x ∈ simple_bfs g s ↔ Reach g s x := by
  have hspec := bfsLoop_spec g s (nodeUniv g s)
    (fun y nb h => adjGet_subset_univ g s y nb h)
    ((nodeUniv g s).length + 2) [s] [s] []
    (by simp) (by
      intro z hz
      rw [List.mem_singleton] at hz
      exact hz ▸ Relation.ReflTransGen.refl)
    (by simp) (fun z hz => Or.inr hz)
    (by
      intro z hz hznq
      exact absurd hz hznq)
    (by
      have := List.length_filter_le (fun z => decide (z ∉ ([s] : List V))) (nodeUniv g s)
      simp only [List.length_singleton]
      omega)
  obtain ⟨h1, h2, h3⟩ := hspec
  constructor
  · intro hx
    exact h2 x hx
  · intro hr
    unfold simple_bfs
    induction hr with
    | refl => exact h1 s (by simp)
    | tail hstep hedge ihr =>
      rename_i b c
      exact h3 b ihr c hedge

/-! simple_dfs_iterative from dfs_iterative.py: explicit stack, nodes marked
visited at pop time, neighbours pushed in reverse order with duplicates
filtered at push against the current visited set. -/

def dfsILoop (g : List (V × List V)) : Nat → List V → List V → List V → List V
  | 0, _, _, result => result
  | fuel + 1, visited, stack, result =>
    match stack with
    | [] => result
    | x :: st =>
      if x ∈ visited then dfsILoop g fuel visited st result
      else
        let v2 := visited ++ [x]
        let st2 := (adjGet g x).reverse.foldl
          (fun s nb => if nb ∈ v2 then s else nb :: s) st
        dfsILoop g fuel v2 st2 (result ++ [x])

def simple_dfs_iterative (g : List (V × List V)) (start : V) : List V :=
  dfsILoop g
    ((nodeUniv g start).length * ((g.map Prod.snd).flatten.length + 2) + 2)
    [] [start] []

omit [DecidableEq V] in
theorem mem_length_le_flatten (L : List (List V)) (l : List V) (hl : l ∈ L) :
    l.length ≤ L.flatten.length := by
  induction L with
  | nil => simp at hl
  | cons m rest ih =>
    rcases List.mem_cons.mp hl with rfl | hl2
    · simp only [List.flatten_cons, List.length_append]
      omega
    · have := ih hl2
      simp only [List.flatten_cons, List.length_append]
      omega

theorem adjGet_length_le (g : List (V × List V)) (y : V) :
    (adjGet g y).length ≤ (g.map Prod.snd).flatten.length := by
  unfold adjGet
  cases hd : dget g y with
  | none => simp
  | some l =>
    simp only [Option.getD_some]
    exact mem_length_le_flatten _ l (List.mem_map.mpr ⟨(y, l), dget_mem _ _ _ hd, rfl⟩)

theorem dfsI_fold_spec (v2 : List V) (l : List V) :
    ∀ (st stack2 : List V),
      stack2 = l.foldl (fun s nb => if nb ∈ v2 then s else nb :: s) st →
      (∀ z ∈ st, z ∈ stack2) ∧
      (∀ nb ∈ l, nb ∈ v2 ∨ nb ∈ stack2) ∧
      (∀ z ∈ stack2, z ∈ st ∨ z ∈ l) ∧
      stack2.length ≤ st.length + l.length := by
  induction l with
  | nil =>
    intro st stack2 hs
    simp only [List.foldl_nil] at hs
    subst hs
    exact ⟨fun z hz => hz, by simp, fun z hz => Or.inl hz, by simp⟩
  | cons nb l2 ihl =>
    intro st stack2 hs
    rw [List.foldl_cons] at hs
    by_cases hnb : nb ∈ v2
    · rw [if_pos hnb] at hs
      obtain ⟨c1, c2, c3, c4⟩ := ihl st stack2 hs
      refine ⟨c1, ?_, ?_, by simp only [List.length_cons]; omega⟩
      · intro p hp
        rcases List.mem_cons.mp hp with rfl | hp
        · exact Or.inl hnb
        · exact c2 p hp
      · intro z hz
        rcases c3 z hz with hz2 | hz2
        · exact Or.inl hz2
        · exact Or.inr (List.mem_cons_of_mem _ hz2)
    · rw [if_neg hnb] at hs
      obtain ⟨c1, c2, c3, c4⟩ := ihl (nb :: st) stack2 hs
      refine ⟨?_, ?_, ?_, ?_⟩
      · intro z hz
        exact c1 z (List.mem_cons_of_mem _ hz)
      · intro p hp
        rcases List.mem_cons.mp hp with rfl | hp
        · exact Or.inr (c1 p (List.mem_cons_self _ _))
        · exact c2 p hp
      · intro z hz
        rcases c3 z hz with hz2 | hz2
        · rcases List.mem_cons.mp hz2 with rfl | hz3
          · exact Or.inr (List.mem_cons_self _ _)
          · exact Or.inl hz3
        · exact Or.inr (List.mem_cons_of_mem _ hz2)
      · simp only [List.length_cons] at c4 ⊢
        omega

theorem dfsILoop_spec (g : List (V × List V)) (s : V) (U : List V)
    (hU : ∀ y nb, nb ∈ adjGet g y → nb ∈ U) :
    ∀ fuel visited stack result,
      (∀ z ∈ stack, Reach g s z) →
      (∀ z ∈ visited, Reach g s z) →
      (∀ z ∈ visited, ∀ nb ∈ adjGet g z, nb ∈ visited ∨ nb ∈ stack) →
      (∀ z ∈ result, z ∈ visited) →
      (∀ z ∈ visited, z ∈ result) →
      (s ∈ visited ∨ s ∈ stack) →
      (∀ z ∈ stack, z ∈ U) →
      (U.filter (fun z => decide (z ∉ visited))).length *
        ((g.map Prod.snd).flatten.length + 2) + stack.length < fuel →
      (∀ z ∈ visited, z ∈ dfsILoop g fuel visited stack result) ∧
      (∀ z ∈ dfsILoop g fuel visited stack result, Reach g s z) ∧
      (∀ z ∈ dfsILoop g fuel visited stack result,
        ∀ nb ∈ adjGet g z, nb ∈ dfsILoop g fuel visited stack result) ∧
      s ∈ dfsILoop g fuel visited stack result := by
  intro fuel
  induction fuel with
  | zero => intro visited stack result _ _ _ _ _ _ _ hM; omega
  | succ f ih =>
    intro visited stack result j1 j2 j3 j4a j4b j5 j6 hM
    match stack with
    | [] =>
      simp only [dfsILoop]
      refine ⟨j4b, fun z hz => j2 z (j4a z hz), ?_, ?_⟩
      · intro z hz nb hnb
        rcases j3 z (j4a z hz) nb hnb with h2 | h2
        · exact j4b nb h2
        · simp at h2
      · rcases j5 with h2 | h2
        · exact j4b s h2
        · simp at h2
    | x :: st =>
      simp only [dfsILoop]
      by_cases hxv : x ∈ visited
      · rw [if_pos hxv]
        apply ih visited st result (fun z hz => j1 z (List.mem_cons_of_mem _ hz)) j2
          ?_ j4a j4b ?_ (fun z hz => j6 z (List.mem_cons_of_mem _ hz)) ?_
        · intro z hz nb hnb
          rcases j3 z hz nb hnb with h2 | h2
          · exact Or.inl h2
          · rcases List.mem_cons.mp h2 with rfl | h3
            · exact Or.inl hxv
            · exact Or.inr h3
        · rcases j5 with h2 | h2
          · exact Or.inl h2
          · rcases List.mem_cons.mp h2 with rfl | h3
            · exact Or.inl hxv
            · exact Or.inr h3
        · simp only [List.length_cons] at hM
          omega
      · rw [if_neg hxv]
        obtain ⟨c1, c2, c3, c4⟩ := dfsI_fold_spec (visited ++ [x]) (adjGet g x).reverse st
          ((adjGet g x).reverse.foldl
            (fun s nb => if nb ∈ visited ++ [x] then s else nb :: s) st) rfl
        have hreachx : Reach g s x := j1 x (List.mem_cons_self _ _)
        have hxU : x ∈ U := j6 x (List.mem_cons_self _ _)
        refine (fun hrec =>
          ⟨fun z hz => hrec.1 z (List.mem_append_left _ hz),
            hrec.2.1, hrec.2.2.1, hrec.2.2.2⟩)
          (ih (visited ++ [x])
            ((adjGet g x).reverse.foldl
              (fun s nb => if nb ∈ visited ++ [x] then s else nb :: s) st)
            (result ++ [x]) ?_ ?_ ?_ ?_ ?_ ?_ ?_ ?_)
        · intro z hz
          rcases c3 z hz with h2 | h2
          · exact j1 z (List.mem_cons_of_mem _ h2)
          · rw [List.mem_reverse] at h2
            exact Relation.ReflTransGen.tail hreachx h2
        · intro z hz
          rcases List.mem_append.mp hz with h2 | h2
          · exact j2 z h2
          · rw [List.mem_singleton] at h2
            exact h2 ▸ hreachx
        · intro z hz nb hnb
          rcases List.mem_append.mp hz with h2 | h2
          · rcases j3 z h2 nb hnb with h3 | h3
            · exact Or.inl (List.mem_append_left _ h3)
            · rcases List.mem_cons.mp h3 with rfl | h4
              · exact Or.inl (List.mem_append_right _ (by simp))
              · exact Or.inr (c1 nb h4)
          · rw [List.mem_singleton] at h2
            subst h2
            have := c2 nb (List.mem_reverse.mpr hnb)
            exact this
        · intro z hz
          rcases List.mem_append.mp hz with h2 | h2
          · exact List.mem_append_left _ (j4a z h2)
          · exact List.mem_append_right _ h2
        · intro z hz
          rcases List.mem_append.mp hz with h2 | h2
          · exact List.mem_append_left _ (j4b z h2)
          · exact List.mem_append_right _ h2
        · rcases j5 with h2 | h2
          · exact Or.inl (List.mem_append_left _ h2)
          · rcases List.mem_cons.mp h2 with rfl | h3
            · exact Or.inl (List.mem_append_right _ (by simp))
            · exact Or.inr (c1 s h3)
        · intro z hz
          rcases c3 z hz with h2 | h2
          · exact j6 z (List.mem_cons_of_mem _ h2)
          · rw [List.mem_reverse] at h2
            exact hU x z h2
        · -- fuel accounting
          have hlt : (U.filter (fun z => decide (z ∉ visited ++ [x]))).length + 1
              ≤ (U.filter (fun z => decide (z ∉ visited))).length := by
            have heq : (U.filter (fun z => decide (z ∉ visited ++ [x]))).length
                = (U.filter (fun z => decide (z ∉ (x :: visited)))).length := by
              congr 1
              apply List.filter_congr
              intro z hz
              simp only [decide_eq_decide, List.mem_append, List.mem_singleton,
                List.mem_cons]
              tauto
            rw [heq]
            have := filter_cons_lt U x visited hxU hxv
            omega
          have hpush : ((adjGet g x).reverse.foldl
              (fun s nb => if nb ∈ visited ++ [x] then s else nb :: s) st).length
                ≤ st.length + (g.map Prod.snd).flatten.length := by
            have hlen := adjGet_length_le g x
            have := c4
            rw [List.length_reverse] at this
            omega
          have main : ∀ A B J stl stl2 : Nat, A + 1 ≤ B →
              stl2 ≤ stl + J →
              B * (J + 2) + (stl + 1) < f + 1 →
              A * (J + 2) + stl2 < f := by
            intro A B J stl stl2 h1 h2 h3
            have hmul : A * (J + 2) + (J + 2) ≤ B * (J + 2) := by
              have : (A + 1) * (J + 2) ≤ B * (J + 2) :=
                Nat.mul_le_mul_right _ h1
              calc A * (J + 2) + (J + 2) = (A + 1) * (J + 2) := by ring
                _ ≤ B * (J + 2) := this
            omega
          simp only [List.length_cons] at hM
          exact main _ _ _ _ _ hlt hpush hM

/-- The visited set of the iterative DFS is exactly the set of reachable
nodes. -/
theorem simple_dfs_iterative_reach (g : List (V × List V)) (s x : V) :
    x ∈ simple_dfs_iterative g s ↔ Reach g s x := by
  have hspec := dfsILoop_spec g s (nodeUniv g s)
    (fun y nb h => adjGet_subset_univ g s y nb h)
    ((nodeUniv g s).length * ((g.map Prod.snd).flatten.length + 2) + 2)
    [] [s] []
    (by
      intro z hz
      rw [List.mem_singleton] at hz
      exact hz ▸ Relation.ReflTransGen.refl)
    (by simp) (by simp) (by simp) (by simp)
    (Or.inr (by simp))
    (by
      intro z hz
      rw [List.mem_singleton] at hz
      exact hz ▸ start_mem_nodeUniv g s)
    (by
      have hle : (List.filter (fun z => decide (z ∉ ([] : List V)))
          (nodeUniv g s)).length ≤ (nodeUniv g s).length :=
        List.length_filter_le _ _
      have hmul : (List.filter (fun z => decide (z ∉ ([] : List V)))
          (nodeUniv g s)).length * ((g.map Prod.snd).flatten.length + 2)
            ≤ (nodeUniv g s).length * ((g.map Prod.snd).flatten.length + 2) :=
        Nat.mul_le_mul_right _ hle
      simp only [List.length_singleton]
      omega)
  obtain ⟨k1, k2, k3, k4⟩ := hspec
  constructor
  · intro hx
    exact k2 x hx
  · intro hr
    unfold simple_dfs_iterative
    induction hr with
    | refl => exact k4
    | tail hstep hedge ihr =>
      rename_i b c
      exact k3 b ihr c hedge

/-- C3: recursive DFS, iterative (explicit-stack) DFS and BFS all compute
the same visited set, namely exactly the nodes reachable from the start. -/
theorem claim_c3_traversals_same_visited (g : List (V × List V)) (s x : V) :
    (x ∈ simple_dfs_recursive g s ↔ Reach g s x) ∧
    (x ∈ simple_dfs_iterative g s ↔ Reach g s x) ∧
    (x ∈ simple_bfs g s ↔ Reach g s x) :=
  ⟨simple_dfs_recursive_reach g s x, simple_dfs_iterative_reach g s x,
    simple_bfs_reach g s x⟩

/-! topological_sort.py: Kahn in-degree algorithm. In-degree values live in
Int, matching Python integers (a decrement below zero must not be confused
with reaching zero). -/

/-- in_degree[x] += 1 on a defaultdict(int). -/
def bumpIndeg (m : List (V × Int)) (x : V) : List (V × Int) :=
  match dget m x with
  | some c => dset m x (c + 1)
  | none => m ++ [(x, 1)]

/-- in_degree[x] -= 1 on a defaultdict(int). -/
def decIndeg (m : List (V × Int)) (x : V) : List (V × Int) :=
  match dget m x with
  | some c => dset m x (c - 1)
  | none => m ++ [(x, -1)]

/-- The in-degree table of topological_sort_simple: every key starts at
zero, then one bump per occurrence of a node in a neighbour list. -/
def indegInit (g : List (V × List V)) : List (V × Int) :=
  g.foldl (fun m p => p.2.foldl (fun m2 nb => bumpIndeg m2 nb) m)
    (g.map (fun p => (p.1, (0 : Int))))

/-- The while loop of topological_sort_simple: pop from the FIFO queue,
append to the result, decrement each successor, enqueue any successor whose
in-degree just reached zero. -/
def kahnLoop (g : List (V × List V)) :
    Nat → List (V × Int) → List V → List V → List V
  | 0, _, _, result => result
  | fuel + 1, indeg, queue, result =>
    match queue with
    | [] => result
    | x :: q =>
      let st := (adjGet g x).foldl
        (fun (p : List (V × Int) × List V) nb =>
          let m2 := decIndeg p.1 nb
          (m2, if dget m2 nb = some 0 then p.2 ++ [nb] else p.2)) (indeg, q)
      kahnLoop g fuel st.1 st.2 (result ++ [x])

/-- topological_sort_simple(graph): Kahn ordering, or None when fewer than
len(graph) nodes could be processed (a cycle). -/
def topological_sort_simple (g : List (V × List V)) : Option (List V) :=
  let indeg := indegInit g
  let queue0 := (indeg.filter (fun p => decide (p.2 = 0))).map Prod.fst
  let result := kahnLoop g (g.length + 1) indeg queue0 []
  if result.length = g.length then some result else none

/-- Paths with an explicit edge count. -/
inductive Npath (g : List (V × List V)) : Nat → V → V → Prop
  | refl (x : V) : Npath g 0 x x
  | step {x y z : V} {n : Nat} :
      edgeStep g x y → Npath g n y z → Npath g (n + 1) x z

/-- A directed graph is acyclic when no node lies on a nonempty cycle. -/
def AcyclicG (g : List (V × List V)) : Prop :=
  ¬ ∃ (z : V) (n : Nat), Npath g (n + 1) z z

theorem bumpIndeg_dget_self (m : List (V × Int)) (x : V) (c : Int)
    (h : dget m x = some c) : dget (bumpIndeg m x) x = some (c + 1) := by
  unfold bumpIndeg
  rw [h]
  exact dget_dset_self m x (c + 1)

theorem bumpIndeg_dget_ne (m : List (V × Int)) (x y : V) (hy : y ≠ x) :
    dget (bumpIndeg m x) y = dget m y := by
  unfold bumpIndeg
  cases h : dget m x with
  | some c => exact dget_dset_ne m x y (c + 1) hy
  | none =>
    rw [dget_append]
    cases hd : dget m y with
    | some v => simp
    | none => simp [dget_cons, Ne.symm hy]

theorem bumpIndeg_keys (m : List (V × Int)) (x : V) (c : Int)
    (h : dget m x = some c) : (bumpIndeg m x).map Prod.fst = m.map Prod.fst := by
  unfold bumpIndeg
  rw [h]
  apply dset_keys_of_mem
  rw [← dget_isSome_iff, h]
  rfl

theorem decIndeg_dget_self (m : List (V × Int)) (x : V) (c : Int)
    (h : dget m x = some c) : dget (decIndeg m x) x = some (c - 1) := by
  unfold decIndeg
  rw [h]
  exact dget_dset_self m x (c - 1)

theorem decIndeg_dget_ne (m : List (V × Int)) (x y : V) (hy : y ≠ x) :
    dget (decIndeg m x) y = dget m y := by
  unfold decIndeg
  cases h : dget m x with
  | some c => exact dget_dset_ne m x y (c - 1) hy
  | none =>
    rw [dget_append]
    cases hd : dget m y with
    | some v => simp
    | none => simp [dget_cons, Ne.symm hy]

theorem decIndeg_keys (m : List (V × Int)) (x : V) (c : Int)
    (h : dget m x = some c) : (decIndeg m x).map Prod.fst = m.map Prod.fst := by
  unfold decIndeg
  rw [h]
  apply dset_keys_of_mem
  rw [← dget_isSome_iff, h]
  rfl

/-- Inner bump fold of indegInit: adds the count of each node in the
neighbour list to its entry. -/
theorem bump_fold_spec (ns : List V) :
    ∀ (m : List (V × Int)),
      (∀ nb ∈ ns, nb ∈ m.map Prod.fst) →
      ((ns.foldl (fun m2 nb => bumpIndeg m2 nb) m).map Prod.fst = m.map Prod.fst ∧
        ∀ v, dget (ns.foldl (fun m2 nb => bumpIndeg m2 nb) m) v
          = (dget m v).map (fun c => c + (ns.count v : Int))) := by
  induction ns with
  | nil =>
    intro m hdom
    refine ⟨rfl, ?_⟩
    intro v
    cases hd : dget m v <;> simp [hd]
  | cons nb ns2 ih =>
    intro m hdom
    have hnb : nb ∈ m.map Prod.fst := hdom nb (List.mem_cons_self _ _)
    obtain ⟨c, hc⟩ := Option.isSome_iff_exists.mp ((dget_isSome_iff m nb).mpr hnb)
    have hkeys2 : (bumpIndeg m nb).map Prod.fst = m.map Prod.fst :=
      bumpIndeg_keys m nb c hc
    have hdom2 : ∀ p ∈ ns2, p ∈ (bumpIndeg m nb).map Prod.fst := by
      intro p hp
      rw [hkeys2]
      exact hdom p (List.mem_cons_of_mem _ hp)
    obtain ⟨ihk, ihv⟩ := ih (bumpIndeg m nb) hdom2
    simp only [List.foldl_cons]
    refine ⟨by rw [ihk, hkeys2], ?_⟩
    intro v
    rw [ihv v]
    by_cases hv : v = nb
    · subst hv
      rw [bumpIndeg_dget_self m v c hc, hc]
      simp only [Option.map_some', List.count_cons_self, Option.some.injEq]
      push_cast
      ring
    · rw [bumpIndeg_dget_ne m nb v hv]
      rw [List.count_cons_of_ne (by simpa using hv)]

/-- Total number of occurrences of v in the neighbour lists of the entries
of g whose key is not in done. -/
def outSum (g : List (V × List V)) (done : List V) (v : V) : Nat :=
  ((g.filter (fun p => decide (p.1 ∉ done))).map (fun p => p.2.count v)).sum

theorem outSum_nil_done (g : List (V × List V)) (v : V) :
    outSum g [] v = ((g.map (fun p => p.2.count v)).sum) := by
  unfold outSum
  congr 1
  congr 1
  apply List.filter_eq_self.mpr
  intro p hp
  simp

/-- The characterisation of the initial in-degree table: every key maps to
its total in-degree. -/
theorem indegInit_spec (g : List (V × List V))
    (hclosed : ∀ p ∈ g, ∀ nb ∈ p.2, nb ∈ g.map Prod.fst) :
    (indegInit g).map Prod.fst = g.map Prod.fst ∧
    ∀ v ∈ g.map Prod.fst, dget (indegInit g) v = some ((outSum g [] v : Int)) := by
  have hbase : ∀ v, dget (g.map (fun p => (p.1, (0 : Int)))) v
      = (dget g v).map (fun _ => (0 : Int)) := fun v =>
    dget_mapVal (fun _ => (0 : Int)) g v
  have hbasek : (g.map (fun p => (p.1, (0 : Int)))).map Prod.fst = g.map Prod.fst := by
    rw [List.map_map]; rfl
  -- outer fold over the entries of g
  have houter : ∀ (rest : List (V × List V)) (m : List (V × Int)),
      (∀ p ∈ rest, ∀ nb ∈ p.2, nb ∈ m.map Prod.fst) →
      ((rest.foldl (fun m p => p.2.foldl (fun m2 nb => bumpIndeg m2 nb) m) m).map
          Prod.fst = m.map Prod.fst ∧
        ∀ v, dget (rest.foldl (fun m p => p.2.foldl (fun m2 nb => bumpIndeg m2 nb) m) m) v
          = (dget m v).map (fun c => c + (((rest.map (fun p => p.2.count v)).sum : Nat) : Int))) := by
    intro rest
    induction rest with
    | nil =>
      intro m hdom
      refine ⟨rfl, ?_⟩
      intro v
      cases hd : dget m v <;> simp [hd]
    | cons p rest2 ih =>
      intro m hdom
      obtain ⟨hk1, hv1⟩ := bump_fold_spec p.2 m (hdom p (List.mem_cons_self _ _))
      have hdom2 : ∀ q ∈ rest2, ∀ nb ∈ q.2,
          nb ∈ (p.2.foldl (fun m2 nb => bumpIndeg m2 nb) m).map Prod.fst := by
        intro q hq nb hnb
        rw [hk1]
        exact hdom q (List.mem_cons_of_mem _ hq) nb hnb
      obtain ⟨hk2, hv2⟩ := ih (p.2.foldl (fun m2 nb => bumpIndeg m2 nb) m) hdom2
      simp only [List.foldl_cons]
      refine ⟨by rw [hk2, hk1], ?_⟩
      intro v
      rw [hv2 v, hv1 v]
      cases dget m v with
      | none => simp
      | some c =>
        simp only [Option.map_some', Option.some.injEq, List.map_cons, List.sum_cons]
        push_cast
        ring
  obtain ⟨hk, hv⟩ := houter g (g.map (fun p => (p.1, (0 : Int)))) (by
    intro p hp nb hnb
    rw [hbasek]
    exact hclosed p hp nb hnb)
  constructor
  · unfold indegInit
    rw [hk, hbasek]
  · intro v hvk
    unfold indegInit
    rw [hv v, hbase v]
    obtain ⟨l, hl⟩ := Option.isSome_iff_exists.mp ((dget_isSome_iff g v).mpr hvk)
    rw [hl]
    simp only [Option.map_some', Option.some.injEq]
    rw [outSum_nil_done]
    push_cast
    ring

theorem outSum_congr (g : List (V × List V)) (d1 d2 : List V) (v : V)
    (h : ∀ p ∈ g, (p.1 ∈ d1 ↔ p.1 ∈ d2)) : outSum g d1 v = outSum g d2 v := by
  unfold outSum
  congr 1
  congr 1
  apply List.filter_congr
  intro p hp
  simp only [decide_eq_decide]
  rw [h p hp]

theorem outSum_pop (g : List (V × List V)) (hnd : (g.map Prod.fst).Nodup)
    (result : List V) (x : V) (l : List V) (hx : (x, l) ∈ g) (hxr : x ∉ result)
    (v : V) :
    outSum g result v = outSum g (result ++ [x]) v + l.count v := by
  induction g with
  | nil => simp at hx
  | cons p rest ih =>
    simp only [List.map_cons, List.nodup_cons] at hnd
    rcases List.mem_cons.mp hx with rfl | hx2
    · -- the head is the x entry; the rest has no x key
      simp only at hnd
      have hrest : ∀ q ∈ rest, (q.1 ∈ result ↔ q.1 ∈ result ++ [x]) := by
        intro q hq
        have hqx : q.1 ≠ x := by
          intro hqx
          exact hnd.1 (hqx ▸ List.mem_map.mpr ⟨q, hq, rfl⟩)
        simp [hqx]
      unfold outSum
      rw [List.filter_cons_of_pos (by simpa using hxr),
        List.filter_cons_of_neg (by simp)]
      simp only [List.map_cons, List.sum_cons]
      have hco := outSum_congr rest result (result ++ [x]) v hrest
      unfold outSum at hco
      omega
    · have hxp : p.1 ≠ x := by
        intro hpx
        exact hnd.1 (hpx ▸ List.mem_map.mpr ⟨(x, l), hx2, rfl⟩)
      unfold outSum
      by_cases hpr : p.1 ∈ result
      · rw [List.filter_cons_of_neg (by simpa using hpr),
          List.filter_cons_of_neg (by simp [hpr])]
        have := ih hnd.2 hx2
        unfold outSum at this
        exact this
      · rw [List.filter_cons_of_pos (by simpa using hpr),
          List.filter_cons_of_pos (by simp [hpr, hxp])]
        simp only [List.map_cons, List.sum_cons]
        have := ih hnd.2 hx2
        unfold outSum at this
        omega

theorem outSum_eq_zero_iff (g : List (V × List V)) (done : List V) (v : V) :
    outSum g done v = 0 ↔ ∀ p ∈ g, p.1 ∉ done → v ∉ p.2 := by
  unfold outSum
  rw [List.sum_eq_zero_iff]
  constructor
  · intro h p hp hpd
    have hmem : p.2.count v ∈ (g.filter (fun p => decide (p.1 ∉ done))).map
        (fun p => p.2.count v) := by
      apply List.mem_map.mpr
      exact ⟨p, List.mem_filter.mpr ⟨hp, by simpa using hpd⟩, rfl⟩
    have := h _ hmem
    rw [← List.count_eq_zero]
    exact this
  · intro h c hc
    obtain ⟨p, hp, hpe⟩ := List.mem_map.mp hc
    obtain ⟨hpg, hpd⟩ := List.mem_filter.mp hp
    rw [← hpe, List.count_eq_zero]
    exact h p hpg (by simpa using hpd)

theorem kahn_fold_spec (g : List (V × List V)) (res2 : List V) :
    ∀ (suf : List V) (m : List (V × Int)) (q : List V)
      (st : List (V × Int) × List V),
      st = suf.foldl (fun (p : List (V × Int) × List V) nb =>
          let m2 := decIndeg p.1 nb
          (m2, if dget m2 nb = some 0 then p.2 ++ [nb] else p.2)) (m, q) →
      (∀ nb ∈ suf, nb ∈ g.map Prod.fst) →
      (∀ nb ∈ suf, nb ∉ res2) →
      m.map Prod.fst = g.map Prod.fst →
      (∀ v ∈ g.map Prod.fst, dget m v
        = some ((outSum g res2 v : Int) + (suf.count v : Int))) →
      (∀ v, v ∈ q ↔ (v ∈ g.map Prod.fst ∧ dget m v = some 0 ∧ v ∉ res2)) →
      (res2 ++ q).Nodup →
      (st.1.map Prod.fst = g.map Prod.fst ∧
        (∀ v ∈ g.map Prod.fst, dget st.1 v = some ((outSum g res2 v : Int))) ∧
        (∀ v, v ∈ st.2 ↔ (v ∈ g.map Prod.fst ∧ dget st.1 v = some 0 ∧ v ∉ res2)) ∧
        (res2 ++ st.2).Nodup ∧
        (∃ new, st.2 = q ++ new ∧ ∀ z ∈ new, z ∈ suf)) := by
  intro suf
  induction suf with
  | nil =>
    intro m q st hst hsk hsf hmk hvals hchar hndq
    simp only [List.foldl_nil] at hst
    subst hst
    refine ⟨hmk, ?_, hchar, hndq, [], by simp, by simp⟩
    intro v hv
    have := hvals v hv
    simpa using this
  | cons nb suf2 ihl =>
    intro m q st hst hsk hsf hmk hvals hchar hndq
    have hnbk : nb ∈ g.map Prod.fst := hsk nb (List.mem_cons_self _ _)
    have hnbf : nb ∉ res2 := hsf nb (List.mem_cons_self _ _)
    have hc : dget m nb
        = some ((outSum g res2 nb : Int) + ((nb :: suf2).count nb : Int)) :=
      hvals nb hnbk
    have hm2self : dget (decIndeg m nb) nb
        = some ((outSum g res2 nb : Int) + (suf2.count nb : Int)) := by
      rw [decIndeg_dget_self m nb _ hc]
      congr 1
      rw [List.count_cons_self]
      push_cast
      ring
    have hm2k : (decIndeg m nb).map Prod.fst = g.map Prod.fst := by
      rw [decIndeg_keys m nb _ hc, hmk]
    have hm2vals : ∀ v ∈ g.map Prod.fst, dget (decIndeg m nb) v
        = some ((outSum g res2 v : Int) + (suf2.count v : Int)) := by
      intro v hv
      by_cases hvnb : v = nb
      · subst hvnb
        exact hm2self
      · rw [decIndeg_dget_ne m nb v hvnb, hvals v hv]
        congr 1
        rw [List.count_cons_of_ne (by simpa using hvnb)]
    have hnb_notin_q : nb ∉ q := by
      intro hq
      have := (hchar nb).mp hq
      rw [hc] at this
      have h0 := this.2.1
      simp only [Option.some.injEq, List.count_cons_self] at h0
      push_cast at h0
      omega
    rw [List.foldl_cons] at hst
    simp only [] at hst
    by_cases hif : dget (decIndeg m nb) nb = some 0
    · rw [if_pos hif] at hst
      have h0 : outSum g res2 nb = 0 ∧ suf2.count nb = 0 := by
        rw [hm2self] at hif
        simp only [Option.some.injEq] at hif
        constructor <;> omega
      have hchar2 : ∀ v, v ∈ q ++ [nb] ↔
          (v ∈ g.map Prod.fst ∧ dget (decIndeg m nb) v = some 0 ∧ v ∉ res2) := by
        intro v
        constructor
        · intro hv
          rcases List.mem_append.mp hv with hv2 | hv2
          · obtain ⟨ha, hb, hc2⟩ := (hchar v).mp hv2
            have hvnb : v ≠ nb := fun hh => hnb_notin_q (hh ▸ hv2)
            exact ⟨ha, by rw [decIndeg_dget_ne m nb v hvnb]; exact hb, hc2⟩
          · rw [List.mem_singleton] at hv2
            subst hv2
            exact ⟨hnbk, hif, hnbf⟩
        · intro ⟨ha, hb, hc2⟩
          by_cases hvnb : v = nb
          · subst hvnb
            exact List.mem_append_right _ (by simp)
          · rw [decIndeg_dget_ne m nb v hvnb] at hb
            exact List.mem_append_left _ ((hchar v).mpr ⟨ha, hb, hc2⟩)
      have hnd2 : (res2 ++ (q ++ [nb])).Nodup := by
        rw [← List.append_assoc]
        apply List.Nodup.append hndq (List.nodup_singleton nb)
        intro z hz hz2
        rw [List.mem_singleton] at hz2
        subst hz2
        rcases List.mem_append.mp hz with hz3 | hz3
        · exact hnbf hz3
        · exact hnb_notin_q hz3
      obtain ⟨k1, k2, k3, k4, new2, hnew2, hnewsub⟩ := ihl (decIndeg m nb) (q ++ [nb]) st hst
        (fun z hz => hsk z (List.mem_cons_of_mem _ hz))
        (fun z hz => hsf z (List.mem_cons_of_mem _ hz))
        hm2k hm2vals hchar2 hnd2
      refine ⟨k1, k2, k3, k4, [nb] ++ new2, ?_, ?_⟩
      · rw [hnew2, List.append_assoc]
      · intro z hz
        rcases List.mem_append.mp hz with hz2 | hz2
        · rw [List.mem_singleton] at hz2
          exact hz2 ▸ List.mem_cons_self _ _
        · exact List.mem_cons_of_mem _ (hnewsub z hz2)
    · rw [if_neg hif] at hst
      have hchar2 : ∀ v, v ∈ q ↔
          (v ∈ g.map Prod.fst ∧ dget (decIndeg m nb) v = some 0 ∧ v ∉ res2) := by
        intro v
        constructor
        · intro hv
          obtain ⟨ha, hb, hc2⟩ := (hchar v).mp hv
          have hvnb : v ≠ nb := fun hh => hnb_notin_q (hh ▸ hv)
          exact ⟨ha, by rw [decIndeg_dget_ne m nb v hvnb]; exact hb, hc2⟩
        · intro ⟨ha, hb, hc2⟩
          by_cases hvnb : v = nb
          · subst hvnb
            exact absurd hb hif
          · rw [decIndeg_dget_ne m nb v hvnb] at hb
            exact (hchar v).mpr ⟨ha, hb, hc2⟩
      obtain ⟨k1, k2, k3, k4, new2, hnew2, hnewsub⟩ := ihl (decIndeg m nb) q st hst
        (fun z hz => hsk z (List.mem_cons_of_mem _ hz))
        (fun z hz => hsf z (List.mem_cons_of_mem _ hz))
        hm2k hm2vals hchar2 hndq
      exact ⟨k1, k2, k3, k4, new2, hnew2,
        fun z hz => List.mem_cons_of_mem _ (hnewsub z hz)⟩

theorem nodup_subset_length_le (l L : List V) (hnd : l.Nodup)
    (hsub : ∀ z ∈ l, z ∈ L) : l.length ≤ L.length := by
  rw [← List.toFinset_card_of_nodup hnd]
  refine le_trans (Finset.card_le_card ?_) L.toFinset_card_le
  intro z hz
  exact List.mem_toFinset.mpr (hsub z (List.mem_toFinset.mp hz))

theorem kahnLoop_spec (g : List (V × List V)) (hnd : (g.map Prod.fst).Nodup)
    (hclosed : ∀ p ∈ g, ∀ nb ∈ p.2, nb ∈ g.map Prod.fst) :
    ∀ fuel (m : List (V × Int)) (queue result : List V),
      m.map Prod.fst = g.map Prod.fst →
      (∀ v ∈ g.map Prod.fst, dget m v = some ((outSum g result v : Int))) →
      (∀ v, v ∈ queue ↔ (v ∈ g.map Prod.fst ∧ dget m v = some 0 ∧ v ∉ result)) →
      (result ++ queue).Nodup →
      (∀ z ∈ result, z ∈ g.map Prod.fst) →
      (∀ v ∈ result, ∀ p ∈ g, v ∈ p.2 → List.Sublist [p.1, v] result) →
      queue.length + (g.length - (result ++ queue).length) < fuel →
      ((kahnLoop g fuel m queue result).Nodup ∧
        (∀ z ∈ kahnLoop g fuel m queue result, z ∈ g.map Prod.fst) ∧
        (∀ v ∈ kahnLoop g fuel m queue result, ∀ p ∈ g, v ∈ p.2 →
          List.Sublist [p.1, v] (kahnLoop g fuel m queue result)) ∧
        (∀ v ∈ g.map Prod.fst, v ∉ kahnLoop g fuel m queue result →
          outSum g (kahnLoop g fuel m queue result) v ≠ 0)) := by
  intro fuel
  induction fuel with
  | zero => intro m queue result _ _ _ _ _ _ hM; omega
  | succ f ih =>
    intro m queue result hmk hvals hchar hndq hresk hord hM
    match queue with
    | [] =>
      simp only [kahnLoop]
      have hndres : result.Nodup := by simpa using hndq
      refine ⟨hndres, hresk, hord, ?_⟩
      intro v hv hvr
      have hnq : v ∉ ([] : List V) := by simp
      rw [hchar v] at hnq
      push_neg at hnq
      intro hout
      have hthis := hnq hv
      rw [hvals v hv] at hthis
      have h2 := hthis (by rw [hout]; rfl)
      exact hvr h2
    | x :: q =>
      simp only [kahnLoop]
      have hxchar := (hchar x).mp (List.mem_cons_self _ _)
      obtain ⟨hxk, hx0, hxr⟩ := hxchar
      obtain ⟨l, hl⟩ := Option.isSome_iff_exists.mp ((dget_isSome_iff g x).mpr hxk)
      have hadjx : adjGet g x = l := by simp [adjGet, hl]
      have hxg : (x, l) ∈ g := dget_mem _ _ _ hl
      have hout0 : outSum g result x = 0 := by
        have := hvals x hxk
        rw [hx0] at this
        simp only [Option.some.injEq] at this
        omega
      have hout0iff := (outSum_eq_zero_iff g result x).mp hout0
      have hxnl : x ∉ l := hout0iff (x, l) hxg hxr
      have hfresh : ∀ nb ∈ l, nb ∉ result ++ [x] := by
        intro nb hnb hmem
        rcases List.mem_append.mp hmem with h2 | h2
        · have := hord nb h2 (x, l) hxg hnb
          have hx_in : x ∈ result := by
            have hsub : [x, nb].Sublist result := this
            have : x ∈ [x, nb] := List.mem_cons_self _ _
            exact hsub.subset this
          exact hxr hx_in
        · rw [List.mem_singleton] at h2
          exact hxnl (h2 ▸ hnb)
      have hxq : x ∉ q := by
        have : (x :: q).Nodup := (List.nodup_append.mp hndq).2.1
        exact (List.nodup_cons.mp this).1
      have hvals2 : ∀ v ∈ g.map Prod.fst, dget m v
          = some ((outSum g (result ++ [x]) v : Int) + (l.count v : Int)) := by
        intro v hv
        rw [hvals v hv]
        congr 1
        rw [outSum_pop g hnd result x l hxg hxr v]
        push_cast
        ring
      have hchar2 : ∀ v, v ∈ q ↔
          (v ∈ g.map Prod.fst ∧ dget m v = some 0 ∧ v ∉ result ++ [x]) := by
        intro v
        constructor
        · intro hv
          obtain ⟨ha, hb, hc2⟩ := (hchar v).mp (List.mem_cons_of_mem _ hv)
          refine ⟨ha, hb, ?_⟩
          intro hmem
          rcases List.mem_append.mp hmem with h2 | h2
          · exact hc2 h2
          · rw [List.mem_singleton] at h2
            exact hxq (h2 ▸ hv)
        · intro ⟨ha, hb, hc2⟩
          have hvresult : v ∉ result := fun h2 => hc2 (List.mem_append_left _ h2)
          have hvx : v ≠ x := fun h2 => hc2 (List.mem_append_right _ (by simp [h2]))
          have := (hchar v).mpr ⟨ha, hb, hvresult⟩
          rcases List.mem_cons.mp this with h2 | h2
          · exact absurd h2 hvx
          · exact h2
      have hndq2 : ((result ++ [x]) ++ q).Nodup := by
        rw [List.append_assoc]
        exact hndq
      obtain ⟨k1, k2, k3, k4, new, hnew, hnewsub⟩ :=
        kahn_fold_spec g (result ++ [x]) l m q
          ((adjGet g x).foldl (fun (p : List (V × Int) × List V) nb =>
            let m2 := decIndeg p.1 nb
            (m2, if dget m2 nb = some 0 then p.2 ++ [nb] else p.2)) (m, q))
          (by rw [hadjx])
          (fun nb hnb => hclosed (x, l) hxg nb hnb)
          hfresh hmk hvals2 hchar2 hndq2
      have hresk2 : ∀ z ∈ result ++ [x], z ∈ g.map Prod.fst := by
        intro z hz
        rcases List.mem_append.mp hz with h2 | h2
        · exact hresk z h2
        · rw [List.mem_singleton] at h2
          exact h2 ▸ hxk
      have hord2 : ∀ v ∈ result ++ [x], ∀ p ∈ g, v ∈ p.2 →
          List.Sublist [p.1, v] (result ++ [x]) := by
        intro v hv p hp hvp
        rcases List.mem_append.mp hv with h2 | h2
        · exact (hord v h2 p hp hvp).trans (List.sublist_append_left _ _)
        · rw [List.mem_singleton] at h2
          subst h2
          have hp1 : p.1 ∈ result := by
            by_contra hp1
            exact (hout0iff p hp hp1) hvp
          have h3 : [p.1].Sublist result := List.singleton_sublist.mpr hp1
          exact List.Sublist.append h3 (List.Sublist.refl [v])
      have hMlen : ((result ++ [x]) ++
          ((adjGet g x).foldl (fun (p : List (V × Int) × List V) nb =>
            let m2 := decIndeg p.1 nb
            (m2, if dget m2 nb = some 0 then p.2 ++ [nb] else p.2)) (m, q)).2).length
            ≤ g.length := by
        have hn := k4
        have hs : ∀ z ∈ (result ++ [x]) ++
            ((adjGet g x).foldl (fun (p : List (V × Int) × List V) nb =>
              let m2 := decIndeg p.1 nb
              (m2, if dget m2 nb = some 0 then p.2 ++ [nb] else p.2)) (m, q)).2,
            z ∈ g.map Prod.fst := by
          intro z hz
          rcases List.mem_append.mp hz with h2 | h2
          · exact hresk2 z h2
          · exact ((k3 z).mp h2).1
        have := nodup_subset_length_le _ (g.map Prod.fst) hn hs
        simpa using this
      refine ih _ _ (result ++ [x]) k1 k2 k3 k4 hresk2 hord2 ?_
      rw [hnew]
      simp only [List.length_append, List.length_cons, List.length_singleton] at hM hMlen ⊢
      rw [hnew] at hMlen
      simp only [List.length_append, List.length_singleton] at hMlen
      omega

theorem sublist_pair_indexOf_lt (l : List V) (hnd : l.Nodup) :
    ∀ (u v : V), List.Sublist [u, v] l → l.indexOf u < l.indexOf v := by
  induction l with
  | nil =>
    intro u v h
    exact absurd (List.sublist_nil.mp h) (by simp)
  | cons a t ih =>
    intro u v h
    have hnd2 := List.nodup_cons.mp hnd
    cases h with
    | cons a2 h2 =>
      have hut : u ∈ t := h2.subset (by simp)
      have hvt : v ∈ t := h2.subset (by simp)
      have hua : u ≠ a := fun he => hnd2.1 (he ▸ hut)
      have hva : v ≠ a := fun he => hnd2.1 (he ▸ hvt)
      rw [List.indexOf_cons_ne t (Ne.symm hua), List.indexOf_cons_ne t (Ne.symm hva)]
      have := ih hnd2.2 u v h2
      omega
    | cons₂ a2 h2 =>
      have hvt : v ∈ t := h2.subset (by simp)
      have hva : v ≠ a := fun he => hnd2.1 (he ▸ hvt)
      rw [List.indexOf_cons_self, List.indexOf_cons_ne t (Ne.symm hva)]
      omega

theorem npath_last_edge (g : List (V × List V)) :
    ∀ (n : Nat) (x y : V), Npath g n x y → n ≠ 0 → ∃ w, edgeStep g w y := by
  intro n x y h
  induction h with
  | refl z => intro h0; exact absurd rfl h0
  | @step a b c m he hp ih =>
    intro _
    cases hp with
    | refl => exact ⟨a, he⟩
    | @step b2 c2 z2 m2 he2 hp2 =>
      exact ih (by omega)

theorem npath_indexOf_lt (g : List (V × List V)) (R : List V) (hnd : R.Nodup)
    (hedge : ∀ u v, edgeStep g u v → v ∈ R → List.Sublist [u, v] R) :
    ∀ (n : Nat) (x y : V), Npath g n x y → n ≠ 0 → y ∈ R →
      R.indexOf x < R.indexOf y := by
  intro n x y hp
  induction hp with
  | refl z => intro h0 _; exact absurd rfl h0
  | @step a b c m he hp2 ih =>
    intro _ hcR
    by_cases hm : m = 0
    · have hbc : b = c := by
        subst hm
        cases hp2
        rfl
      rw [hbc] at he
      exact sublist_pair_indexOf_lt R hnd a c (hedge a c he hcR)
    · have hlt := ih hm hcR
      have hbR : b ∈ R := by
        have h1 : R.indexOf b < R.length :=
          lt_of_lt_of_le hlt List.indexOf_le_length
        exact List.indexOf_lt_length.mp h1
      have h2 := sublist_pair_indexOf_lt R hnd a b (hedge a b he hbR)
      omega

theorem exists_cycle_of_all_pred (g : List (V × List V)) (S : List V)
    (hne : S ≠ []) (hS : ∀ v ∈ S, ∃ u, u ∈ S ∧ edgeStep g u v) :
    ∃ (z : V) (n : Nat), Npath g (n + 1) z z := by
  classical
  have hF : ∀ v : V, ∃ u : V, v ∈ S → (u ∈ S ∧ edgeStep g u v) := by
    intro v
    by_cases hv : v ∈ S
    · obtain ⟨u, hu⟩ := hS v hv
      exact ⟨u, fun _ => hu⟩
    · exact ⟨v, fun h => absurd h hv⟩
  choose F hFs using hF
  obtain ⟨v0, hv0⟩ : ∃ v0, v0 ∈ S := by
    cases S with
    | nil => exact absurd rfl hne
    | cons a t => exact ⟨a, List.mem_cons_self _ _⟩
  have hseq : ∀ k, F^[k] v0 ∈ S := by
    intro k
    induction k with
    | zero => simpa using hv0
    | succ k2 ihk =>
      rw [Function.iterate_succ_apply']
      exact (hFs _ ihk).1
  have hstep : ∀ k, edgeStep g (F^[k + 1] v0) (F^[k] v0) := by
    intro k
    rw [Function.iterate_succ_apply']
    exact (hFs _ (hseq k)).2
  have hpath : ∀ (d k : Nat), Npath g d (F^[k + d] v0) (F^[k] v0) := by
    intro d
    induction d with
    | zero => intro k; exact Npath.refl _
    | succ d2 ihd =>
      intro k
      have h1 : edgeStep g (F^[(k + d2) + 1] v0) (F^[k + d2] v0) := hstep (k + d2)
      have h2 : Npath g d2 (F^[k + d2] v0) (F^[k] v0) := ihd k
      have he : k + (d2 + 1) = (k + d2) + 1 := by omega
      rw [he]
      exact Npath.step h1 h2
  have hmap : ∀ i ∈ Finset.range (S.length + 1), F^[i] v0 ∈ S.toFinset := by
    intro i _
    exact List.mem_toFinset.mpr (hseq i)
  have hcard : S.toFinset.card < (Finset.range (S.length + 1)).card := by
    rw [Finset.card_range]
    exact Nat.lt_succ_of_le (List.toFinset_card_le S)
  obtain ⟨i, hi, j, hj, hij, hfeq⟩ :=
    Finset.exists_ne_map_eq_of_card_lt_of_maps_to hcard hmap
  have key : ∀ (a b : Nat), a < b → F^[a] v0 = F^[b] v0 →
      ∃ (z : V) (n : Nat), Npath g (n + 1) z z := by
    intro a b hab hfe
    refine ⟨F^[b] v0, b - a - 1, ?_⟩
    have hp := hpath (b - a) a
    have he : a + (b - a) = b := by omega
    rw [he] at hp
    rw [hfe] at hp
    have he2 : b - a = (b - a - 1) + 1 := by omega
    rw [he2] at hp
    exact hp
  rcases Nat.lt_or_ge i j with hlt | hge
  · exact key i j hlt hfeq
  · have hlt2 : j < i := by omega
    exact key j i hlt2 hfeq.symm

/-- The list produced by the Kahn loop of topological_sort_simple, starting
from the initial in-degree table and the initial zero-in-degree queue. -/
def kahnRun (g : List (V × List V)) : List V :=
  kahnLoop g (g.length + 1) (indegInit g)
    (((indegInit g).filter (fun p : V × Int => decide (p.2 = 0))).map Prod.fst) []

/-- C1: on a duplicate-free, closed adjacency mapping, topological_sort_simple
succeeds (returns some list) if and only if the graph is acyclic; a returned
list is duplicate-free, contains exactly the nodes of the graph, and places
u before v for every edge (u, v); on a cyclic graph the result is none. -/
theorem claim_c1_topological_sort (g : List (V × List V))
    (hnd : (g.map Prod.fst).Nodup)
    (hclosed : ∀ p ∈ g, ∀ nb ∈ p.2, nb ∈ g.map Prod.fst) :
    ((∃ l, topological_sort_simple g = some l) ↔ AcyclicG g) ∧
    (∀ l, topological_sort_simple g = some l →
      l.Nodup ∧ (∀ x, x ∈ l ↔ x ∈ g.map Prod.fst) ∧
      ∀ u v, edgeStep g u v → List.Sublist [u, v] l) ∧
    (¬ AcyclicG g → topological_sort_simple g = none) := by
  classical
  obtain ⟨hmk, hmv⟩ := indegInit_spec g hclosed
  have hmnd : ((indegInit g).map Prod.fst).Nodup := by rw [hmk]; exact hnd
  have hchar : ∀ v,
      v ∈ (((indegInit g).filter (fun p : V × Int => decide (p.2 = 0))).map Prod.fst) ↔
      (v ∈ g.map Prod.fst ∧ dget (indegInit g) v = some 0 ∧ v ∉ ([] : List V)) := by
    intro v
    constructor
    · intro hv
      obtain ⟨p, hp, hpe⟩ := List.mem_map.mp hv
      obtain ⟨hpg, hp0⟩ := List.mem_filter.mp hp
      have hp2 : p.2 = 0 := by simpa using hp0
      have hget : dget (indegInit g) v = some 0 := by
        rw [← hpe, ← hp2]
        exact dget_of_mem_of_nodup _ _ _ hpg hmnd
      refine ⟨?_, hget, by simp⟩
      rw [← hmk, ← hpe]
      exact List.mem_map.mpr ⟨p, hpg, rfl⟩
    · rintro ⟨hvk, hv0, -⟩
      apply List.mem_map.mpr
      refine ⟨(v, 0), ?_, rfl⟩
      apply List.mem_filter.mpr
      exact ⟨dget_mem _ _ _ hv0, by simp⟩
  have hq0nd :
      ((((indegInit g).filter (fun p : V × Int => decide (p.2 = 0)))).map Prod.fst).Nodup := by
    have hsub : List.Sublist
        (((indegInit g).filter (fun p : V × Int => decide (p.2 = 0))).map Prod.fst)
        ((indegInit g).map Prod.fst) :=
      List.Sublist.map Prod.fst (List.filter_sublist _)
    exact hmnd.sublist hsub
  have hq0sub : ∀ v ∈ (((indegInit g).filter (fun p : V × Int => decide (p.2 = 0))).map Prod.fst),
      v ∈ g.map Prod.fst := fun v hv => ((hchar v).mp hv).1
  have hq0len :
      ((((indegInit g).filter (fun p : V × Int => decide (p.2 = 0)))).map Prod.fst).length
        ≤ g.length := by
    have h1 := nodup_subset_length_le _ (g.map Prod.fst) hq0nd hq0sub
    simpa using h1
  obtain ⟨hK1, hK2, hK3, hK4⟩ :
      (kahnRun g).Nodup ∧
      (∀ z ∈ kahnRun g, z ∈ g.map Prod.fst) ∧
      (∀ v ∈ kahnRun g, ∀ p ∈ g, v ∈ p.2 → List.Sublist [p.1, v] (kahnRun g)) ∧
      (∀ v ∈ g.map Prod.fst, v ∉ kahnRun g → outSum g (kahnRun g) v ≠ 0) :=
    kahnLoop_spec g hnd hclosed (g.length + 1)
      (indegInit g) (((indegInit g).filter (fun p : V × Int => decide (p.2 = 0))).map Prod.fst) []
      hmk hmv hchar (by simpa using hq0nd) (by simp) (by simp)
      (by simp only [List.nil_append]; omega)
  have hunf : topological_sort_simple g =
      if (kahnRun g).length = g.length then some (kahnRun g) else none := rfl
  have hadjKeys : ∀ u v, edgeStep g u v → v ∈ g.map Prod.fst := by
    intro u v he
    unfold edgeStep at he
    cases hd : dget g u with
    | none =>
      have h0 : adjGet g u = [] := by simp [adjGet, hd]
      rw [h0] at he
      exact absurd he (List.not_mem_nil v)
    | some l0 =>
      have h0 : adjGet g u = l0 := by simp [adjGet, hd]
      rw [h0] at he
      exact hclosed (u, l0) (dget_mem _ _ _ hd) v he
  have hedgeR : ∀ u v, edgeStep g u v → v ∈ kahnRun g → List.Sublist [u, v] (kahnRun g) := by
    intro u v he hvR
    unfold edgeStep at he
    cases hd : dget g u with
    | none =>
      have h0 : adjGet g u = [] := by simp [adjGet, hd]
      rw [h0] at he
      exact absurd he (List.not_mem_nil v)
    | some l0 =>
      have h0 : adjGet g u = l0 := by simp [adjGet, hd]
      rw [h0] at he
      exact hK3 v hvR (u, l0) (dget_mem _ _ _ hd) he
  have hsucc : (kahnRun g).length = g.length →
      (∀ x, x ∈ kahnRun g ↔ x ∈ g.map Prod.fst) ∧ AcyclicG g := by
    intro hlen
    have hperm : (kahnRun g).Perm (g.map Prod.fst) := by
      have hsp := List.subperm_of_subset hK1 hK2
      exact List.Subperm.perm_of_length_le hsp (by simp [hlen])
    have hmem : ∀ x, x ∈ kahnRun g ↔ x ∈ g.map Prod.fst := fun x => hperm.mem_iff
    refine ⟨hmem, ?_⟩
    rintro ⟨z, n, hcyc⟩
    obtain ⟨w, hw⟩ := npath_last_edge g (n + 1) z z hcyc (by omega)
    have hzR : z ∈ kahnRun g := (hmem z).mpr (hadjKeys w z hw)
    have := npath_indexOf_lt g (kahnRun g) hK1 hedgeR (n + 1) z z hcyc (by omega) hzR
    omega
  have hfail : (kahnRun g).length ≠ g.length → ¬ AcyclicG g := by
    intro hlen
    have hRlen : (kahnRun g).length ≤ g.length := by
      have := nodup_subset_length_le (kahnRun g) (g.map Prod.fst) hK1 hK2
      simpa using this
    have hmiss : ∃ v ∈ g.map Prod.fst, v ∉ kahnRun g := by
      by_contra hall
      push_neg at hall
      have h1 := nodup_subset_length_le (g.map Prod.fst) (kahnRun g) hnd hall
      simp only [List.length_map] at h1
      omega
    obtain ⟨v1, hv1k, hv1r⟩ := hmiss
    have hSpred : ∀ v ∈ (g.map Prod.fst).filter (fun z => decide (z ∉ kahnRun g)),
        ∃ u, u ∈ (g.map Prod.fst).filter (fun z => decide (z ∉ kahnRun g)) ∧
          edgeStep g u v := by
      intro v hv
      obtain ⟨hvk, hvr⟩ := List.mem_filter.mp hv
      have hvr2 : v ∉ kahnRun g := by simpa using hvr
      have hout := hK4 v hvk hvr2
      have hex : ∃ p, p ∈ g ∧ p.1 ∉ kahnRun g ∧ v ∈ p.2 := by
        by_contra hno
        push_neg at hno
        exact hout ((outSum_eq_zero_iff g (kahnRun g) v).mpr
          (fun p hp hpr => hno p hp hpr))
      obtain ⟨p, hpg, hpr, hvp⟩ := hex
      refine ⟨p.1, ?_, ?_⟩
      · apply List.mem_filter.mpr
        exact ⟨List.mem_map.mpr ⟨p, hpg, rfl⟩, by simpa using hpr⟩
      · have hget : dget g p.1 = some p.2 := dget_of_mem_of_nodup _ _ _ hpg hnd
        unfold edgeStep
        have hadj : adjGet g p.1 = p.2 := by simp [adjGet, hget]
        rw [hadj]
        exact hvp
    have hSne : (g.map Prod.fst).filter (fun z => decide (z ∉ kahnRun g)) ≠ [] := by
      intro h0
      have hmem2 : v1 ∈ (g.map Prod.fst).filter (fun z => decide (z ∉ kahnRun g)) :=
        List.mem_filter.mpr ⟨hv1k, by simpa using hv1r⟩
      rw [h0] at hmem2
      exact absurd hmem2 (List.not_mem_nil v1)
    intro hac
    exact hac (exists_cycle_of_all_pred g _ hSne hSpred)
  refine ⟨?_, ?_, ?_⟩
  · constructor
    · rintro ⟨l, hl⟩
      rw [hunf] at hl
      by_cases hlen : (kahnRun g).length = g.length
      · exact (hsucc hlen).2
      · rw [if_neg hlen] at hl
        exact absurd hl (by simp)
    · intro hac
      by_cases hlen : (kahnRun g).length = g.length
      · exact ⟨kahnRun g, by rw [hunf, if_pos hlen]⟩
      · exact absurd hac (hfail hlen)
  · intro l hl
    rw [hunf] at hl
    by_cases hlen : (kahnRun g).length = g.length
    · rw [if_pos hlen] at hl
      have hlR : l = kahnRun g := by
        injection hl with h
        exact h.symm
      subst hlR
      obtain ⟨hmem, -⟩ := hsucc hlen
      refine ⟨hK1, hmem, ?_⟩
      intro u v he
      exact hedgeR u v he ((hmem v).mpr (hadjKeys u v he))
    · rw [if_neg hlen] at hl
      exact absurd hl (by simp)
  · intro hnac
    by_cases hlen : (kahnRun g).length = g.length
    · exact absurd (hsucc hlen).2 hnac
    · rw [hunf, if_neg hlen]

/-- Witness for C1: the chain 1 → 2 → 3 is acyclic and its topological
sort is [1, 2, 3]. -/
theorem claim_c1_witness :
    AcyclicG [(1, [2]), (2, [3]), (3, ([] : List Nat))] ∧
    topological_sort_simple [(1, [2]), (2, [3]), (3, ([] : List Nat))]
      = some [1, 2, 3] := by
  have h := claim_c1_topological_sort [(1, [2]), (2, [3]), (3, ([] : List Nat))]
    (by decide) (by decide)
  have hs : topological_sort_simple [(1, [2]), (2, [3]), (3, ([] : List Nat))]
      = some [1, 2, 3] := by decide
  exact ⟨h.1.mp ⟨[1, 2, 3], hs⟩, hs⟩

/-! bfs_shortest_path from bfs.py: BFS whose queue stores (node, path)
pairs, with an early return as soon as a scanned neighbour equals the
target, and None when the queue runs dry. -/

/-- The inner for-loop of bfs_shortest_path: scan the neighbour list of
the dequeued node; return path + [neighbor] when the neighbour is the
target, otherwise mark and enqueue each unvisited neighbour with its
extended path. -/
def bspScan (t : V) (path : List V) :
    List V → List V → List (V × List V) →
    Option (List V) × List V × List (V × List V)
  | [], visited, queue => (none, visited, queue)
  | nb :: rest, visited, queue =>
    if nb = t then (some (path ++ [nb]), visited, queue)
    else if nb ∈ visited then bspScan t path rest visited queue
    else bspScan t path rest (visited ++ [nb]) (queue ++ [(nb, path ++ [nb])])

/-- The while loop of bfs_shortest_path. -/
def bspLoop (g : List (V × List V)) (t : V) :
    Nat → List V → List (V × List V) → Option (List V)
  | 0, _, _ => none
  | fuel + 1, visited, queue =>
    match queue with
    | [] => none
    | (node, path) :: rest =>
      match bspScan t path (adjGet g node) visited rest with
      | (some ans, _, _) => some ans
      | (none, vis2, q2) => bspLoop g t fuel vis2 q2

/-- bfs_shortest_path(graph, start, target): [start] when start == target,
otherwise BFS with (node, path) queue entries and early target return;
None when no path exists. -/
def bfs_shortest_path (g : List (V × List V)) (s t : V) : Option (List V) :=
  if s = t then some [s]
  else bspLoop g t ((nodeUniv g s).length + 2) [s] [(s, [s])]

theorem npath_zero (g : List (V × List V)) (x y : V) (h : Npath g 0 x y) :
    x = y := by
  cases h
  rfl

theorem npath_snoc (g : List (V × List V)) :
    ∀ (n : Nat) (x y z : V), Npath g n x y → edgeStep g y z →
      Npath g (n + 1) x z := by
  intro n x y z hp
  induction hp with
  | refl w => intro he; exact Npath.step he (Npath.refl _)
  | @step a b c m he2 hp2 ih =>
    intro he
    exact Npath.step he2 (ih he)

theorem npath_snoc_inv (g : List (V × List V)) :
    ∀ (n : Nat) (x z : V), Npath g (n + 1) x z →
      ∃ y, Npath g n x y ∧ edgeStep g y z := by
  intro n
  induction n with
  | zero =>
    intro x z h
    cases h with
    | step he hp =>
      cases hp
      exact ⟨x, Npath.refl x, he⟩
  | succ k ih =>
    intro x z h
    cases h with
    | step he hp =>
      obtain ⟨y, hy, hyz⟩ := ih _ z hp
      exact ⟨y, Npath.step he hy, hyz⟩

theorem npath_reach (g : List (V × List V)) :
    ∀ (n : Nat) (x y : V), Npath g n x y → Reach g x y := by
  intro n x y hp
  induction hp with
  | refl w => exact Relation.ReflTransGen.refl
  | step he hp2 ih => exact Relation.ReflTransGen.head he ih

theorem reach_subset_visited (g : List (V × List V)) (s : V) (visited : List V)
    (hs : s ∈ visited)
    (hclosed : ∀ v ∈ visited, ∀ w, edgeStep g v w → w ∈ visited) :
    ∀ u, Reach g s u → u ∈ visited := by
  intro u hr
  induction hr with
  | refl => exact hs
  | tail hab hbc ih => exact hclosed _ ih _ hbc

/-- Characterisation of the neighbour scan: either it hits the target and
returns path + [target], or the target was not among the neighbours and a
duplicate-free block of fresh nodes is appended to both the visited list
and (paired with extended paths) the queue, after which every scanned
neighbour is visited. -/
theorem bspScan_spec (g : List (V × List V)) (t : V) (node : V) (path : List V) :
    ∀ (nbs visited : List V) (queue : List (V × List V)),
      (∀ nb ∈ nbs, edgeStep g node nb) →
      ((∃ vis2 q2, bspScan t path nbs visited queue = (some (path ++ [t]), vis2, q2)
          ∧ t ∈ nbs) ∨
        (∃ fresh : List V,
          bspScan t path nbs visited queue
            = (none, visited ++ fresh,
                queue ++ fresh.map (fun nb => (nb, path ++ [nb]))) ∧
          t ∉ nbs ∧ fresh.Nodup ∧
          (∀ x ∈ fresh, x ∈ nbs ∧ x ∉ visited ∧ edgeStep g node x) ∧
          (∀ nb ∈ nbs, nb ∈ visited ++ fresh))) := by
  intro nbs
  induction nbs with
  | nil =>
    intro visited queue hedge
    right
    exact ⟨[], by simp [bspScan], by simp, by simp, by simp, by simp⟩
  | cons nb rest ih =>
    intro visited queue hedge
    by_cases hnt : nb = t
    · left
      refine ⟨visited, queue, ?_, by simp [hnt]⟩
      rw [hnt]
      simp [bspScan]
    · by_cases hnv : nb ∈ visited
      · have hrec := ih visited queue (fun x hx => hedge x (List.mem_cons_of_mem _ hx))
        have hstep : bspScan t path (nb :: rest) visited queue
            = bspScan t path rest visited queue := by
          simp [bspScan, hnt, hnv]
        rcases hrec with ⟨vis2, q2, hres, htin⟩ | ⟨fresh, hres, htout, hnd, hmem, hcov⟩
        · left
          exact ⟨vis2, q2, by rw [hstep]; exact hres, List.mem_cons_of_mem _ htin⟩
        · right
          refine ⟨fresh, by rw [hstep]; exact hres, ?_, hnd, ?_, ?_⟩
          · simp only [List.mem_cons, not_or]
            exact ⟨fun h => hnt h.symm, htout⟩
          · intro x hx
            obtain ⟨h1, h2, h3⟩ := hmem x hx
            exact ⟨List.mem_cons_of_mem _ h1, h2, h3⟩
          · intro x hx
            rcases List.mem_cons.mp hx with rfl | hx2
            · exact List.mem_append_left _ hnv
            · exact hcov x hx2
      · have hrec := ih (visited ++ [nb]) (queue ++ [(nb, path ++ [nb])])
          (fun x hx => hedge x (List.mem_cons_of_mem _ hx))
        have hstep : bspScan t path (nb :: rest) visited queue
            = bspScan t path rest (visited ++ [nb]) (queue ++ [(nb, path ++ [nb])]) := by
          simp [bspScan, hnt, hnv]
        rcases hrec with ⟨vis2, q2, hres, htin⟩ | ⟨fresh, hres, htout, hnd, hmem, hcov⟩
        · left
          exact ⟨vis2, q2, by rw [hstep]; exact hres, List.mem_cons_of_mem _ htin⟩
        · right
          refine ⟨nb :: fresh, ?_, ?_, ?_, ?_, ?_⟩
          · rw [hstep, hres]
            rw [List.append_cons visited nb fresh,
              List.map_cons, List.append_cons queue (nb, path ++ [nb]) _]
            simp
          · simp only [List.mem_cons, not_or]
            exact ⟨fun h => hnt h.symm, htout⟩
          · refine List.nodup_cons.mpr ⟨?_, hnd⟩
            intro hmem2
            have := (hmem nb hmem2).2.1
            exact this (List.mem_append_right _ (List.mem_singleton.mpr rfl))
          · intro x hx
            rcases List.mem_cons.mp hx with rfl | hx2
            · exact ⟨List.mem_cons_self _ _, hnv, hedge x (List.mem_cons_self _ _)⟩
            · obtain ⟨h1, h2, h3⟩ := hmem x hx2
              refine ⟨List.mem_cons_of_mem _ h1, ?_, h3⟩
              intro hmem3
              exact h2 (List.mem_append_left _ hmem3)
          · intro x hx
            rcases List.mem_cons.mp hx with rfl | hx2
            · exact List.mem_append_right _ (List.mem_cons_self _ _)
            · have := hcov x hx2
              rcases List.mem_append.mp this with h2 | h2
              · rcases List.mem_append.mp h2 with h3 | h3
                · exact List.mem_append_left _ h3
                · rw [List.mem_singleton.mp h3]
                  exact List.mem_append_right _ (List.mem_cons_self _ _)
              · exact List.mem_append_right _ (List.mem_cons_of_mem _ h2)

/-- The BFS shortest-path loop invariant: the queue splits into a block of
entries whose paths have length L + 1 followed by a block at length L + 2;
entry paths are valid shortest paths from the start; every fully processed
visited node has all its neighbours visited and none equal to the target;
every node within distance L of the start is visited; the target lies at
distance at least L + 1. Under these the loop returns a valid path of
minimum length exactly when the target is reachable. -/
theorem bspLoop_spec (g : List (V × List V)) (s t : V) :
    ∀ (fuel : Nat) (L : Nat) (visited : List V) (A B : List (V × List V)),
      visited.Nodup →
      (∀ z ∈ visited, z ∈ nodeUniv g s) →
      t ∉ visited →
      s ∈ visited →
      (∀ e ∈ A ++ B, e.1 ∈ visited) →
      (((A ++ B).map Prod.fst)).Nodup →
      (∀ e ∈ A, e.2.length = L + 1) →
      (∀ e ∈ B, e.2.length = L + 2) →
      (A = [] → B = []) →
      (∀ e ∈ A ++ B, e.2.head? = some s ∧ e.2.getLast? = some e.1 ∧
        List.Chain' (edgeStep g) e.2 ∧ Npath g (e.2.length - 1) s e.1 ∧
        (∀ m, Npath g m s e.1 → e.2.length - 1 ≤ m)) →
      (∀ v ∈ visited, v ∉ (A ++ B).map Prod.fst →
        ∀ w, edgeStep g v w → w ≠ t ∧ w ∈ visited) →
      (∀ u m, Npath g m s u → m ≤ L → u ∈ visited) →
      (∀ m, Npath g m s t → L + 1 ≤ m) →
      (A ++ B).length + ((nodeUniv g s).length - visited.length) < fuel →
      ((∀ p, bspLoop g t fuel visited (A ++ B) = some p →
          p.head? = some s ∧ p.getLast? = some t ∧ List.Chain' (edgeStep g) p ∧
          (∃ n, Npath g n s t) ∧ (∀ n, Npath g n s t → p.length ≤ n + 1)) ∧
        (bspLoop g t fuel visited (A ++ B) = none → ¬ Reach g s t)) := by
  intro fuel
  induction fuel with
  | zero =>
    intro L visited A B _ _ _ _ _ _ _ _ _ _ _ _ _ hM
    omega
  | succ f ih =>
    intro L visited A B hvnd hvU htv hsv hqv hqnd hA hB hAB hent hproc hE3 hE4 hM
    cases A with
    | nil =>
      have hBnil := hAB rfl
      subst hBnil
      refine ⟨?_, ?_⟩
      · intro p hp
        rw [show bspLoop g t (f + 1) visited (([] : List (V × List V)) ++ [])
            = none from rfl] at hp
        exact absurd hp (by simp)
      · intro _ hr
        have hclosed : ∀ v ∈ visited, ∀ w, edgeStep g v w → w ∈ visited := by
          intro v hv w hw
          exact (hproc v hv (by simp) w hw).2
        exact htv (reach_subset_visited g s visited hsv hclosed t hr)
    | cons e A2 =>
      obtain ⟨node, path⟩ := e
      have hehead := hent (node, path) (by rw [List.cons_append]; exact List.mem_cons_self _ _)
      obtain ⟨hph, hpl, hpc, hpn, hpmin⟩ := hehead
      have hplen : path.length = L + 1 := hA (node, path) (List.mem_cons_self _ _)
      have hpne : path ≠ [] := List.ne_nil_of_length_pos (by omega)
      have hn0 : Npath g L s node := by
        have hx : path.length - 1 = L := by omega
        rw [hx] at hpn
        exact hpn
      rcases bspScan_spec g t node path (adjGet g node) visited (A2 ++ B)
          (fun nb h => h) with
        ⟨vis2, q2, hscan, htin⟩ | ⟨fresh, hscan, htout, hfnd, hfmem, hfcov⟩
      · -- the scan found the target: return path ++ [t]
        have hres : bspLoop g t (f + 1) visited (((node, path) :: A2) ++ B)
            = some (path ++ [t]) := by
          rw [List.cons_append]
          simp only [bspLoop]
          rw [hscan]
        have hedget : edgeStep g node t := htin
        have hNt : Npath g (L + 1) s t := npath_snoc g L s node t hn0 hedget
        refine ⟨?_, ?_⟩
        · intro p hp
          rw [hres] at hp
          have hpe : p = path ++ [t] := by
            injection hp with h
            exact h.symm
          subst hpe
          refine ⟨?_, List.getLast?_concat path, ?_, ⟨L + 1, hNt⟩, ?_⟩
          · rw [List.head?_append, hph]
            rfl
          · rw [List.chain'_append]
            refine ⟨hpc, List.chain'_singleton t, ?_⟩
            intro x hx y hy
            have hx2 : node = x := by rw [hpl] at hx; simpa using hx
            have hy2 : t = y := by simpa using hy
            rw [← hx2, ← hy2]
            exact hedget
          · intro n hn
            have := hE4 n hn
            simp only [List.length_append, List.length_singleton]
            omega
        · intro hnone
          rw [hres] at hnone
          exact absurd hnone (by simp)
      · -- no target among the neighbours: continue with the grown state
        have hres : bspLoop g t (f + 1) visited (((node, path) :: A2) ++ B)
            = bspLoop g t f (visited ++ fresh)
                ((A2 ++ B) ++ fresh.map (fun nb => (nb, path ++ [nb]))) := by
          rw [List.cons_append]
          simp only [bspLoop]
          rw [hscan]
        have hfreshU : ∀ x ∈ fresh, x ∈ nodeUniv g s := by
          intro x hx
          exact adjGet_subset_univ g s node x (hfmem x hx).2.2
        have hfresht : t ∉ fresh := fun h => htout ((hfmem t h).1)
        have hfreshvis : ∀ x ∈ fresh, x ∉ visited := fun x hx => (hfmem x hx).2.1
        have hvnd2 : (visited ++ fresh).Nodup :=
          List.Nodup.append hvnd hfnd (fun a ha hb => hfreshvis a hb ha)
        have hvU2 : ∀ z ∈ visited ++ fresh, z ∈ nodeUniv g s := by
          intro z hz
          rcases List.mem_append.mp hz with h | h
          · exact hvU z h
          · exact hfreshU z h
        have htv2 : t ∉ visited ++ fresh := by
          intro h
          rcases List.mem_append.mp h with h2 | h2
          · exact htv h2
          · exact hfresht h2
        have hsv2 : s ∈ visited ++ fresh := List.mem_append_left _ hsv
        have hmemQ : ∀ e, e ∈ A2 ++ B → e ∈ ((node, path) :: A2) ++ B := by
          intro e he
          rw [List.cons_append]
          exact List.mem_cons_of_mem _ he
        have hFmfst : (fresh.map (fun nb => (nb, path ++ [nb]))).map Prod.fst
            = fresh := by
          rw [List.map_map]
          have hcomp : (Prod.fst ∘ fun nb : V => (nb, path ++ [nb])) = id := rfl
          rw [hcomp, List.map_id]
        have hN5 : ∀ e ∈ (A2 ++ B) ++ fresh.map (fun nb => (nb, path ++ [nb])),
            e.1 ∈ visited ++ fresh := by
          intro e he
          rcases List.mem_append.mp he with h | h
          · exact List.mem_append_left _ (hqv e (hmemQ e h))
          · obtain ⟨nb, hnb, rfl⟩ := List.mem_map.mp h
            exact List.mem_append_right _ hnb
        have hfstq : ((A2 ++ B).map Prod.fst).Nodup ∧
            node ∉ (A2 ++ B).map Prod.fst := by
          have h := hqnd
          rw [List.cons_append, List.map_cons] at h
          have h2 := List.nodup_cons.mp h
          exact ⟨h2.2, h2.1⟩
        have hqvis : ∀ a ∈ (A2 ++ B).map Prod.fst, a ∈ visited := by
          intro a ha
          obtain ⟨e, he, rfl⟩ := List.mem_map.mp ha
          exact hqv e (hmemQ e he)
        have hN6 : (((A2 ++ B) ++ fresh.map
            (fun nb => (nb, path ++ [nb]))).map Prod.fst).Nodup := by
          rw [List.map_append, hFmfst]
          exact List.Nodup.append hfstq.1 hfnd
            (fun a ha hb => hfreshvis a hb (hqvis a ha))
        have hlenF : ∀ e ∈ fresh.map (fun nb => (nb, path ++ [nb])),
            e.2.length = L + 2 := by
          intro e he
          obtain ⟨nb, hnb, rfl⟩ := List.mem_map.mp he
          simp only [List.length_append, List.length_singleton]
          omega
        have hentF : ∀ e ∈ fresh.map (fun nb => (nb, path ++ [nb])),
            e.2.head? = some s ∧ e.2.getLast? = some e.1 ∧
            List.Chain' (edgeStep g) e.2 ∧ Npath g (e.2.length - 1) s e.1 ∧
            (∀ m, Npath g m s e.1 → e.2.length - 1 ≤ m) := by
          intro e he
          obtain ⟨nb, hnb, rfl⟩ := List.mem_map.mp he
          obtain ⟨hnb1, hnb2, hnb3⟩ := hfmem nb hnb
          have hlen2 : (path ++ [nb]).length - 1 = L + 1 := by
            simp only [List.length_append, List.length_singleton]
            omega
          refine ⟨?_, List.getLast?_concat path, ?_, ?_, ?_⟩
          · rw [List.head?_append, hph]
            rfl
          · rw [List.chain'_append]
            refine ⟨hpc, List.chain'_singleton nb, ?_⟩
            intro x hx y hy
            have hx2 : node = x := by rw [hpl] at hx; simpa using hx
            have hy2 : nb = y := by simpa using hy
            rw [← hx2, ← hy2]
            exact hnb3
          · rw [hlen2]
            exact npath_snoc g L s node nb hn0 hnb3
          · intro m hm
            rw [hlen2]
            by_contra hcon
            push_neg at hcon
            exact hnb2 (hE3 nb m hm (by omega))
        have hN9 : ∀ e ∈ (A2 ++ B) ++ fresh.map (fun nb => (nb, path ++ [nb])),
            e.2.head? = some s ∧ e.2.getLast? = some e.1 ∧
            List.Chain' (edgeStep g) e.2 ∧ Npath g (e.2.length - 1) s e.1 ∧
            (∀ m, Npath g m s e.1 → e.2.length - 1 ≤ m) := by
          intro e he
          rcases List.mem_append.mp he with h | h
          · exact hent e (hmemQ e h)
          · exact hentF e h
        have hscanclose : ∀ w, edgeStep g node w → w ≠ t ∧ w ∈ visited ++ fresh := by
          intro w hw
          have hwnb : w ∈ adjGet g node := hw
          exact ⟨fun he => htout (he ▸ hwnb), hfcov w hwnb⟩
        have hN10 : ∀ v ∈ visited ++ fresh,
            v ∉ ((A2 ++ B) ++ fresh.map (fun nb => (nb, path ++ [nb]))).map Prod.fst →
            ∀ w, edgeStep g v w → w ≠ t ∧ w ∈ visited ++ fresh := by
          intro v hv hnin w hw
          have hnin1 : v ∉ (A2 ++ B).map Prod.fst := by
            intro h
            exact hnin (by rw [List.map_append]; exact List.mem_append_left _ h)
          have hnin2 : v ∉ fresh := by
            intro h
            refine hnin ?_
            rw [List.map_append, hFmfst]
            exact List.mem_append_right _ h
          rcases List.mem_append.mp hv with hvv | hvf
          · by_cases hvn : v = node
            · subst hvn
              exact hscanclose w hw
            · have hvnot : v ∉ (((node, path) :: A2) ++ B).map Prod.fst := by
                rw [List.cons_append, List.map_cons]
                simp only [List.mem_cons, not_or]
                exact ⟨hvn, hnin1⟩
              have hold := hproc v hvv hvnot w hw
              exact ⟨hold.1, List.mem_append_left _ hold.2⟩
          · exact absurd hvf hnin2
        have hbound : (visited ++ fresh).length ≤ (nodeUniv g s).length :=
          nodup_subset_length_le _ _ hvnd2 hvU2
        cases A2 with
        | cons e2 rest2 =>
          have b7 : ∀ e ∈ e2 :: rest2, e.2.length = L + 1 :=
            fun e he => hA e (List.mem_cons_of_mem _ he)
          have b8 : ∀ e ∈ B ++ fresh.map (fun nb => (nb, path ++ [nb])),
              e.2.length = L + 2 := by
            intro e he
            rcases List.mem_append.mp he with h | h
            · exact hB e h
            · exact hlenF e h
          have ihres := ih L (visited ++ fresh) (e2 :: rest2)
            (B ++ fresh.map (fun nb => (nb, path ++ [nb])))
            hvnd2 hvU2 htv2 hsv2
            (by intro e he; exact hN5 e (by rw [List.append_assoc]; exact he))
            (by rw [← List.append_assoc]; exact hN6)
            b7 b8
            (by intro h; exact absurd h (List.cons_ne_nil _ _))
            (by intro e he; exact hN9 e (by rw [List.append_assoc]; exact he))
            (by
              intro v hv hnin w hw
              exact hN10 v hv
                (fun hmem => hnin (by rw [← List.append_assoc]; exact hmem)) w hw)
            (fun u m h hle => List.mem_append_left _ (hE3 u m h hle))
            hE4
            (by
              simp only [List.length_append, List.length_cons, List.length_map,
                List.length_nil] at hM hbound ⊢
              omega)
          rw [List.append_assoc] at hres
          rw [hres]
          exact ihres
        | nil =>
          have hprocnew : ∀ u2, Npath g L s u2 → ∀ w, edgeStep g u2 w →
              w ≠ t ∧ w ∈ visited ++ fresh := by
            intro u2 hnp w hw
            have hu2v : u2 ∈ visited := hE3 u2 L hnp (le_refl L)
            refine hN10 u2 (List.mem_append_left _ hu2v) ?_ w hw
            intro hmem
            rw [List.map_append, hFmfst] at hmem
            rcases List.mem_append.mp hmem with h | h
            · have h2 : u2 ∈ B.map Prod.fst := by simpa using h
              obtain ⟨e, heB, hefst⟩ := List.mem_map.mp h2
              have hbund := hent e (hmemQ e (by simpa using heB))
              have hlenB := hB e heB
              have hnp2 : Npath g L s e.1 := by rw [hefst]; exact hnp
              have := hbund.2.2.2.2 L hnp2
              omega
            · exact hfreshvis u2 h hu2v
          have hE3n : ∀ u m, Npath g m s u → m ≤ L + 1 → u ∈ visited ++ fresh := by
            intro u m hnp hle
            by_cases hm : m ≤ L
            · exact List.mem_append_left _ (hE3 u m hnp hm)
            · have hm2 : m = L + 1 := by omega
              subst hm2
              obtain ⟨u2, hu2, hedge2⟩ := npath_snoc_inv g L s u hnp
              exact (hprocnew u2 hu2 u hedge2).2
          have hE4n : ∀ m, Npath g m s t → (L + 1) + 1 ≤ m := by
            intro m hnp
            have h1 := hE4 m hnp
            by_cases hm : m = L + 1
            · subst hm
              obtain ⟨u2, hu2, hedge2⟩ := npath_snoc_inv g L s t hnp
              exact absurd rfl (hprocnew u2 hu2 t hedge2).1
            · omega
          have b7 : ∀ e ∈ B ++ fresh.map (fun nb => (nb, path ++ [nb])),
              e.2.length = (L + 1) + 1 := by
            intro e he
            rcases List.mem_append.mp he with h | h
            · have := hB e h
              omega
            · have := hlenF e h
              omega
          have ihres := ih (L + 1) (visited ++ fresh)
            (B ++ fresh.map (fun nb => (nb, path ++ [nb]))) []
            hvnd2 hvU2 htv2 hsv2
            (by intro e he; exact hN5 e (by simpa using he))
            (by simpa using hN6)
            b7
            (by simp)
            (fun _ => rfl)
            (by intro e he; exact hN9 e (by simpa using he))
            (by
              intro v hv hnin w hw
              exact hN10 v hv (fun hmem => hnin (by simpa using hmem)) w hw)
            hE3n
            hE4n
            (by
              simp only [List.length_append, List.length_cons, List.length_map,
                List.length_nil] at hM hbound ⊢
              omega)
          rw [List.append_nil] at ihres
          rw [List.nil_append] at hres
          rw [hres]
          exact ihres

/-- C2: bfs_shortest_path returns the single-element path [start] when
start = target; every returned path starts at start, ends at target,
follows graph edges, and has the minimum possible number of edges among
all paths from start to target; and it returns none exactly when
start ≠ target and target is unreachable from start. -/
theorem claim_c2_bfs_shortest_path (g : List (V × List V)) (s t : V) :
    (s = t → bfs_shortest_path g s t = some [s]) ∧
    (∀ p, bfs_shortest_path g s t = some p →
      p.head? = some s ∧ p.getLast? = some t ∧ List.Chain' (edgeStep g) p ∧
      (∀ n, Npath g n s t → p.length ≤ n + 1)) ∧
    (bfs_shortest_path g s t = none ↔ (s ≠ t ∧ ¬ Reach g s t)) := by
  by_cases hst : s = t
  · subst hst
    refine ⟨fun _ => by simp [bfs_shortest_path], ?_, ?_⟩
    · intro p hp
      have hp2 : [s] = p := by simpa [bfs_shortest_path] using hp
      subst hp2
      refine ⟨rfl, rfl, List.chain'_singleton s, ?_⟩
      intro n hn
      simp only [List.length_singleton]
      omega
    · constructor
      · intro h
        simp [bfs_shortest_path] at h
      · rintro ⟨h1, -⟩
        exact absurd rfl h1
  · have hspec := bspLoop_spec g s t ((nodeUniv g s).length + 2) 0 [s] [(s, [s])] []
      (by simp)
      (by
        intro z hz
        rw [List.mem_singleton.mp hz]
        exact start_mem_nodeUniv g s)
      (by
        intro h
        exact hst (List.mem_singleton.mp h).symm)
      (List.mem_singleton.mpr rfl)
      (by
        intro e he
        simp only [List.append_nil, List.mem_singleton] at he
        subst he
        simp)
      (by simp)
      (by
        intro e he
        simp only [List.mem_singleton] at he
        subst he
        rfl)
      (by simp)
      (fun _ => rfl)
      (by
        intro e he
        simp only [List.append_nil, List.mem_singleton] at he
        subst he
        refine ⟨rfl, rfl, List.chain'_singleton s, Npath.refl s, ?_⟩
        intro m hm
        simp)
      (by
        intro v hv hnin w hw
        exfalso
        apply hnin
        simp only [List.mem_singleton] at hv
        subst hv
        simp)
      (by
        intro u m hnp hle
        have hm : m = 0 := by omega
        subst hm
        have hz := npath_zero g s u hnp
        rw [← hz]
        exact List.mem_singleton.mpr rfl)
      (by
        intro m hnp
        by_cases hm : m = 0
        · subst hm
          exact absurd (npath_zero g s t hnp) hst
        · omega)
      (by
        simp only [List.length_append, List.length_cons, List.length_nil]
        omega)
    simp only [List.append_nil] at hspec
    obtain ⟨hsome, hnone⟩ := hspec
    have hunf : bfs_shortest_path g s t
        = bspLoop g t ((nodeUniv g s).length + 2) [s] [(s, [s])] := by
      simp [bfs_shortest_path, hst]
    refine ⟨fun h => absurd h hst, ?_, ?_⟩
    · intro p hp
      rw [hunf] at hp
      obtain ⟨h1, h2, h3, h4, h5⟩ := hsome p hp
      exact ⟨h1, h2, h3, h5⟩
    · constructor
      · intro hnone2
        rw [hunf] at hnone2
        exact ⟨hst, hnone hnone2⟩
      · rintro ⟨-, hnr⟩
        rw [hunf]
        cases hcase : bspLoop g t ((nodeUniv g s).length + 2) [s] [(s, [s])] with
        | none => rfl
        | some p =>
          exfalso
          obtain ⟨-, -, -, ⟨n, hn⟩, -⟩ := hsome p hcase
          exact hnr (npath_reach g n s t hn)

/-! The UnionFind class nested in union_find_components
(connected_components.py): parent and rank dicts, a component counter,
find with path compression, union by rank. find is fuel-indexed (the
Python recursion) and returns the rewritten parent map together with the
root; a missing key (Python KeyError) or exhausted fuel yields none. -/

def ufFind : Nat → List (V × V) → V → Option (List (V × V) × V)
  | 0, _, _ => none
  | fuel + 1, parent, node =>
    match dget parent node with
    | none => none
    | some p =>
      if p = node then some (parent, node)
      else
        match ufFind fuel parent p with
        | none => none
        | some (par2, root) => some (dset par2 node root, root)

structure UF (V : Type) where
  parent : List (V × V)
  rank : List (V × Nat)
  components : Nat
deriving DecidableEq

/-- UnionFind.__init__(nodes): every node is its own parent, rank zero,
one component per node. -/
def UF.init (nodes : List V) : UF V :=
  ⟨nodes.map (fun n => (n, n)), nodes.map (fun n => (n, 0)), nodes.length⟩

/-- UnionFind.union(node1, node2): find both roots (with path
compression); if they differ, link by rank and decrement the component
count, returning True; otherwise return False. -/
def UF.union (fuel : Nat) (uf : UF V) (a b : V) : Option (UF V × Bool) :=
  match ufFind fuel uf.parent a with
  | none => none
  | some (p1, root1) =>
    match ufFind fuel p1 b with
    | none => none
    | some (p2, root2) =>
      if root1 ≠ root2 then
        match dget uf.rank root1, dget uf.rank root2 with
        | some r1, some r2 =>
          if r1 < r2 then
            some (⟨dset p2 root1 root2, uf.rank, uf.components - 1⟩, true)
          else if r2 < r1 then
            some (⟨dset p2 root2 root1, uf.rank, uf.components - 1⟩, true)
          else
            some (⟨dset p2 root2 root1, dset uf.rank root1 (r1 + 1),
              uf.components - 1⟩, true)
        | _, _ => none
      else some (⟨p2, uf.rank, uf.components⟩, false)

/-- C7 counterexample: after union(0,1), union(2,3), union(1,3) on nodes
\x7b0, 1, 2, 3\x7d, the call union(3, 1) meets two nodes that already share a
root: it returns False, but the path compression inside find rewrites
parent[3] from 2 to 0, so the parent map is not left unchanged. -/
theorem claim_c7_counterexample :
    ((UF.union 10 (UF.init [0, 1, 2, 3]) 0 1).bind (fun r =>
      (UF.union 10 r.1 2 3).bind (fun r2 => UF.union 10 r2.1 1 3)))
      = some (⟨[(0, 0), (1, 0), (2, 0), (3, 2)],
          [(0, 2), (1, 0), (2, 1), (3, 0)], 1⟩, true) ∧
    UF.union 10 (⟨[(0, 0), (1, 0), (2, 0), (3, 2)],
        [(0, 2), (1, 0), (2, 1), (3, 0)], 1⟩ : UF Nat) 3 1
      = some (⟨[(0, 0), (1, 0), (2, 0), (3, 0)],
          [(0, 2), (1, 0), (2, 1), (3, 0)], 1⟩, false) ∧
    ([(0, 0), (1, 0), (2, 0), (3, 2)] : List (Nat × Nat))
      ≠ [(0, 0), (1, 0), (2, 0), (3, 0)] := by
  refine ⟨?_, ?_, ?_⟩ <;> decide

/-- C7 (amended): a fresh UnionFind over a node list starts with one
component per node; union returning False leaves the rank map and the
component count unchanged (though path compression may rewrite parent
links); union returning True decrements the component count by one. -/
theorem claim_c7_union (nodes : List V) (uf uf2 : UF V) (fuel : Nat)
    (a b : V) (succ : Bool)
    (h : UF.union fuel uf a b = some (uf2, succ)) :
    (UF.init nodes).components = nodes.length ∧
    (succ = false → uf2.rank = uf.rank ∧ uf2.components = uf.components) ∧
    (succ = true → uf2.components = uf.components - 1) := by
  refine ⟨rfl, ?_⟩
  unfold UF.union at h
  cases h1 : ufFind fuel uf.parent a with
  | none => rw [h1] at h; simp at h
  | some r1 =>
    obtain ⟨p1, root1⟩ := r1
    rw [h1] at h
    simp only [] at h
    cases h2 : ufFind fuel p1 b with
    | none => rw [h2] at h; simp at h
    | some r2 =>
      obtain ⟨p2, root2⟩ := r2
      rw [h2] at h
      simp only [] at h
      by_cases hr : root1 ≠ root2
      · rw [if_pos hr] at h
        cases h3 : dget uf.rank root1 with
        | none =>
          rw [h3] at h
          cases h4 : dget uf.rank root2 with
          | none => rw [h4] at h; simp at h
          | some r4 => rw [h4] at h; simp at h
        | some r3 =>
          rw [h3] at h
          cases h4 : dget uf.rank root2 with
          | none => rw [h4] at h; simp at h
          | some r4 =>
            rw [h4] at h
            simp only [] at h
            by_cases h5 : r3 < r4
            · rw [if_pos h5] at h
              simp only [Option.some.injEq, Prod.mk.injEq] at h
              obtain ⟨huf, hsucc⟩ := h
              constructor
              · intro hfalse
                rw [hfalse] at hsucc
                exact absurd hsucc (by simp)
              · intro _
                rw [← huf]
            · rw [if_neg h5] at h
              by_cases h6 : r4 < r3
              · rw [if_pos h6] at h
                simp only [Option.some.injEq, Prod.mk.injEq] at h
                obtain ⟨huf, hsucc⟩ := h
                constructor
                · intro hfalse
                  rw [hfalse] at hsucc
                  exact absurd hsucc (by simp)
                · intro _
                  rw [← huf]
              · rw [if_neg h6] at h
                simp only [Option.some.injEq, Prod.mk.injEq] at h
                obtain ⟨huf, hsucc⟩ := h
                constructor
                · intro hfalse
                  rw [hfalse] at hsucc
                  exact absurd hsucc (by simp)
                · intro _
                  rw [← huf]
      · rw [if_neg hr] at h
        simp only [Option.some.injEq, Prod.mk.injEq] at h
        obtain ⟨huf, hsucc⟩ := h
        constructor
        · intro _
          rw [← huf]
          exact ⟨rfl, rfl⟩
        · intro htrue
          rw [htrue] at hsucc
          exact absurd hsucc (by simp)

/-- Witness for C7: a successful union on a fresh two-node structure
drops the component count from 2 to 1. -/
theorem claim_c7_witness :
    (UF.init [0, 1]).components = ([0, 1] : List Nat).length ∧
    (true = false →
      (⟨[(0, 0), (1, 0)], [(0, 1), (1, 0)], 1⟩ : UF Nat).rank
          = (UF.init [0, 1]).rank ∧
        (⟨[(0, 0), (1, 0)], [(0, 1), (1, 0)], 1⟩ : UF Nat).components
          = (UF.init [0, 1]).components) ∧
    (true = true →
      (⟨[(0, 0), (1, 0)], [(0, 1), (1, 0)], 1⟩ : UF Nat).components
        = (UF.init [0, 1]).components - 1) := by
  exact claim_c7_union [0, 1] (UF.init [0, 1])
    ⟨[(0, 0), (1, 0)], [(0, 1), (1, 0)], 1⟩ 10 0 1 true (by decide)

/-! dijkstra_algorithm and dijkstra_single_target from dijkstra.py.
Weighted graphs are dicts mapping a node to a list of (neighbour, weight)
pairs; distances is a dict whose values model float numbers-or-infinity as
Option ℕ (none = float("inf")); the heapq priority queue is a list of
(distance, node) pairs popped at the lexicographic minimum (heapq orders
tuples lexicographically, so V carries a linear order); a Python KeyError
(distances[neighbor] for an unknown key) or exhausted fuel makes the
embedded function return none. -/

def wadjGet (g : List (V × List (V × Nat))) (x : V) : List (V × Nat) :=
  (dget g x).getD []

def pairLt [LinearOrder V] (x y : Nat × V) : Prop :=
  x.1 < y.1 ∨ (x.1 = y.1 ∧ x.2 < y.2)

instance [LinearOrder V] (x y : Nat × V) : Decidable (pairLt x y) := by
  unfold pairLt
  infer_instance

/-- The entry heapq.heappop would return: the lexicographically least
(distance, node) pair of the queue. -/
def pqMinEntry [LinearOrder V] : List (Nat × V) → Option (Nat × V)
  | [] => none
  | e :: rest =>
    match pqMinEntry rest with
    | none => some e
    | some m => if pairLt m e then some m else some e

/-- heapq.heappop as a multiset operation: remove and return the least
(distance, node) pair. -/
def popMin [LinearOrder V] (pq : List (Nat × V)) :
    Option ((Nat × V) × List (Nat × V)) :=
  match pqMinEntry pq with
  | none => none
  | some m => some (m, pq.erase m)

/-- new_distance < distances[neighbor], where the stored value may be
float("inf") (modelled none). -/
def oltb (nd : Nat) (cur : Option Nat) : Bool :=
  match cur with
  | none => true
  | some c => decide (nd < c)

/-- The for-loop over the neighbours of the freshly visited node: skip
visited neighbours, look the neighbour up in distances (KeyError = none),
and on strict improvement store the new distance, record the predecessor
and push the neighbour. -/
def relaxAll (node : V) (visited : List V) (du : Nat) :
    List (V × Nat) → List (V × Option Nat) → List (Nat × V) → List (V × V) →
    Option (List (V × Option Nat) × List (Nat × V) × List (V × V))
  | [], dist, pq, prev => some (dist, pq, prev)
  | (nb, w) :: rest, dist, pq, prev =>
    if nb ∈ visited then relaxAll node visited du rest dist pq prev
    else
      match dget dist nb with
      | none => none
      | some cur =>
        if oltb (du + w) cur then
          relaxAll node visited du rest (dset dist nb (some (du + w)))
            (pq ++ [(du + w, nb)]) (dset prev nb node)
        else relaxAll node visited du rest dist pq prev

/-- The while loop of dijkstra_algorithm: pop the closest entry, skip it
when already visited, otherwise mark visited and relax its neighbours. -/
def dijkstraLoop [LinearOrder V] (g : List (V × List (V × Nat))) :
    Nat → List (Nat × V) → List V → List (V × Option Nat) → List (V × V) →
    Option (List (V × Option Nat) × List (V × V))
  | 0, _, _, _, _ => none
  | fuel + 1, pq, visited, dist, prev =>
    match popMin pq with
    | none => some (dist, prev)
    | some ((d, u), pq2) =>
      if u ∈ visited then dijkstraLoop g fuel pq2 visited dist prev
      else
        match relaxAll u (visited ++ [u]) d (wadjGet g u) dist pq2 prev with
        | none => none
        | some (dist2, pq3, prev2) =>
          dijkstraLoop g fuel pq3 (visited ++ [u]) dist2 prev2

/-- Total number of adjacency entries of nodes not yet visited: the loop
measure. -/
def sumDeg (g : List (V × List (V × Nat))) (visited : List V) : Nat :=
  ((g.filter (fun p => decide (p.1 ∉ visited))).map (fun p => p.2.length)).sum

/-- dijkstra_algorithm(graph, start): distances set to infinity on every
key, 0 at start, queue seeded with (0, start). -/
def dijkstra_algorithm [LinearOrder V] (g : List (V × List (V × Nat))) (s : V) :
    Option (List (V × Option Nat) × List (V × V)) :=
  dijkstraLoop g (sumDeg g [] + 2) [(0, s)] []
    (dset (g.map (fun p => (p.1, (none : Option Nat)))) s (some 0)) []

/-- The while loop of reconstruct_path: follow previous links, appending
each node, until previous.get returns None. -/
def reconLoop (prev : List (V × V)) : Nat → V → List V → Option (List V)
  | 0, _, _ => none
  | fuel + 1, cur, acc =>
    match dget prev cur with
    | none => some (acc ++ [cur])
    | some nxt => reconLoop prev fuel nxt (acc ++ [cur])

/-- reconstruct_path(previous, start, target). -/
def reconstruct_path (fuel : Nat) (prev : List (V × V)) (s t : V) :
    Option (List V) :=
  if dget prev t = none ∧ t ≠ s then none
  else
    match reconLoop prev fuel t [] with
    | none => none
    | some pth =>
      match pth.reverse.head? with
      | none => none
      | some h => if h = s then some pth.reverse else none

/-- The while loop of dijkstra_single_target: as dijkstraLoop, except that
popping the target returns (distances[target], reconstructed path), and an
exhausted queue returns (float("inf"), None). -/
def dijkstraSingleLoop [LinearOrder V] (g : List (V × List (V × Nat)))
    (s t : V) :
    Nat → List (Nat × V) → List V → List (V × Option Nat) → List (V × V) →
    Option (Option Nat × Option (List V))
  | 0, _, _, _, _ => none
  | fuel + 1, pq, visited, dist, prev =>
    match popMin pq with
    | none => some (none, none)
    | some ((d, u), pq2) =>
      if u ∈ visited then dijkstraSingleLoop g s t fuel pq2 visited dist prev
      else if u = t then
        match dget dist t with
        | none => none
        | some dt => some (dt, reconstruct_path (prev.length + 2) prev s t)
      else
        match relaxAll u (visited ++ [u]) d (wadjGet g u) dist pq2 prev with
        | none => none
        | some (dist2, pq3, prev2) =>
          dijkstraSingleLoop g s t fuel pq3 (visited ++ [u]) dist2 prev2

/-- dijkstra_single_target(graph, start, target). -/
def dijkstra_single_target [LinearOrder V] (g : List (V × List (V × Nat)))
    (s t : V) : Option (Option Nat × Option (List V)) :=
  dijkstraSingleLoop g s t (sumDeg g [] + 2) [(0, s)] []
    (dset (g.map (fun p => (p.1, (none : Option Nat)))) s (some 0)) []

theorem dset_keys_superset (m : List (V × α)) (x : V) (v : α) :
    ∀ k, k ∈ m.map Prod.fst → k ∈ (dset m x v).map Prod.fst := by
  induction m with
  | nil =>
    intro k hk
    simp at hk
  | cons p rest ih =>
    obtain ⟨k0, v0⟩ := p
    intro k hk
    simp only [dset]
    by_cases hp : k0 = x
    · rw [if_pos hp]
      simpa using hk
    · rw [if_neg hp]
      simp only [List.map_cons, List.mem_cons] at hk ⊢
      rcases hk with h | h
      · exact Or.inl h
      · exact Or.inr (ih k h)

theorem self_mem_dset_keys (m : List (V × α)) (x : V) (v : α) :
    x ∈ (dset m x v).map Prod.fst := by
  induction m with
  | nil => simp [dset]
  | cons p rest ih =>
    obtain ⟨k0, v0⟩ := p
    simp only [dset]
    by_cases hp : k0 = x
    · rw [if_pos hp]
      simp [hp]
    · rw [if_neg hp]
      simp only [List.map_cons, List.mem_cons]
      exact Or.inr ih

omit [DecidableEq V] in
theorem pqMinEntry_none [LinearOrder V] (pq : List (Nat × V)) :
    pqMinEntry pq = none ↔ pq = [] := by
  cases pq with
  | nil => simp [pqMinEntry]
  | cons e rest =>
    simp only [pqMinEntry]
    cases pqMinEntry rest with
    | none => simp
    | some m =>
      by_cases h : pairLt m e <;> simp [h]

omit [DecidableEq V] in
theorem pqMinEntry_spec [LinearOrder V] :
    ∀ (pq : List (Nat × V)) (m : Nat × V), pqMinEntry pq = some m →
      m ∈ pq ∧ ∀ e ∈ pq, m.1 ≤ e.1 := by
  intro pq
  induction pq with
  | nil => intro m hm; simp [pqMinEntry] at hm
  | cons e rest ih =>
    intro m hm
    simp only [pqMinEntry] at hm
    cases hrec : pqMinEntry rest with
    | none =>
      rw [hrec] at hm
      simp only [] at hm
      simp only [Option.some.injEq] at hm
      have hrest : rest = [] := (pqMinEntry_none rest).mp hrec
      subst hrest
      subst hm
      refine ⟨List.mem_cons_self _ _, ?_⟩
      intro e2 he2
      simp only [List.mem_singleton] at he2
      subst he2
      exact le_refl _
    | some m2 =>
      rw [hrec] at hm
      simp only [] at hm
      obtain ⟨hmem, hle⟩ := ih m2 hrec
      by_cases h : pairLt m2 e
      · rw [if_pos h] at hm
        simp only [Option.some.injEq] at hm
        subst hm
        refine ⟨List.mem_cons_of_mem _ hmem, ?_⟩
        intro e2 he2
        rcases List.mem_cons.mp he2 with rfl | h2
        · rcases h with h | h
          · exact le_of_lt h
          · exact le_of_eq h.1
        · exact hle e2 h2
      · rw [if_neg h] at hm
        simp only [Option.some.injEq] at hm
        subst hm
        refine ⟨List.mem_cons_self _ _, ?_⟩
        intro e2 he2
        rcases List.mem_cons.mp he2 with rfl | h2
        · exact le_refl _
        · have h2le := hle e2 h2
          unfold pairLt at h
          push_neg at h
          obtain ⟨h1, -⟩ := h
          omega

theorem popMin_none [LinearOrder V] (pq : List (Nat × V)) :
    popMin pq = none ↔ pq = [] := by
  constructor
  · intro h
    unfold popMin at h
    cases hq : pqMinEntry pq with
    | none => exact (pqMinEntry_none pq).mp hq
    | some m => rw [hq] at h; simp at h
  · intro h
    subst h
    rfl

theorem popMin_some [LinearOrder V] (pq pq2 : List (Nat × V)) (m : Nat × V)
    (h : popMin pq = some (m, pq2)) :
    m ∈ pq ∧ pq2.length + 1 = pq.length ∧ (∀ e ∈ pq, m.1 ≤ e.1) ∧
    (∀ e ∈ pq2, e ∈ pq) ∧ (∀ e ∈ pq, e ≠ m → e ∈ pq2) := by
  unfold popMin at h
  cases hq : pqMinEntry pq with
  | none => rw [hq] at h; simp at h
  | some m2 =>
    rw [hq] at h
    simp only [Option.some.injEq, Prod.mk.injEq] at h
    obtain ⟨hm, hpq2⟩ := h
    subst hm
    subst hpq2
    obtain ⟨hmem, hle⟩ := pqMinEntry_spec pq m2 hq
    have hlen := List.length_erase_of_mem hmem
    have hpos : 0 < pq.length := List.length_pos_of_mem hmem
    refine ⟨hmem, by omega, hle, ?_, ?_⟩
    · intro e he
      exact List.mem_of_mem_erase he
    · intro e he hne
      exact (List.mem_erase_of_ne hne).mpr he

theorem sumDeg_mono (g : List (V × List (V × Nat))) (vis : List V) (u : V) :
    sumDeg g (vis ++ [u]) ≤ sumDeg g vis := by
  induction g with
  | nil => simp [sumDeg]
  | cons p rest ih =>
    unfold sumDeg at ih ⊢
    by_cases hp : p.1 ∈ vis
    · rw [List.filter_cons_of_neg (by simp [hp]),
        List.filter_cons_of_neg (by simp [hp])]
      exact ih
    · by_cases hpu : p.1 = u
      · rw [List.filter_cons_of_neg (by simp [hpu]),
          List.filter_cons_of_pos (by simp [hp])]
        simp only [List.map_cons, List.sum_cons]
        omega
      · rw [List.filter_cons_of_pos (by simp [hp, hpu]),
          List.filter_cons_of_pos (by simp [hp])]
        simp only [List.map_cons, List.sum_cons]
        omega

theorem sumDeg_visit (g : List (V × List (V × Nat))) (vis : List V) (u : V)
    (hu : u ∉ vis) :
    sumDeg g (vis ++ [u]) + (wadjGet g u).length ≤ sumDeg g vis := by
  induction g with
  | nil => simp [sumDeg, wadjGet, dget]
  | cons p rest ih =>
    obtain ⟨k0, l0⟩ := p
    by_cases hpu : k0 = u
    · subst hpu
      have hw : wadjGet ((k0, l0) :: rest) k0 = l0 := by simp [wadjGet, dget]
      rw [hw]
      unfold sumDeg
      rw [List.filter_cons_of_neg (by simp),
        List.filter_cons_of_pos (by simp [hu])]
      simp only [List.map_cons, List.sum_cons]
      have hmono := sumDeg_mono rest vis k0
      unfold sumDeg at hmono
      omega
    · have hne : ¬(u = k0) := fun h => hpu h.symm
      have hw : wadjGet ((k0, l0) :: rest) u = wadjGet rest u := by
        simp [wadjGet, dget, hne, hpu]
      rw [hw]
      unfold sumDeg
      have h2 := ih
      unfold sumDeg at h2
      by_cases hkv : k0 ∈ vis
      · rw [List.filter_cons_of_neg (by simp [hkv]),
          List.filter_cons_of_neg (by simp [hkv])]
        exact h2
      · rw [List.filter_cons_of_pos (by simp [hkv, hpu]),
          List.filter_cons_of_pos (by simp [hkv])]
        simp only [List.map_cons, List.sum_cons]
        omega

theorem relaxAll_sound (node : V) (visited : List V) (du : Nat) :
    ∀ (nbs : List (V × Nat)) (dist : List (V × Option Nat))
      (pq : List (Nat × V)) (prev : List (V × V)) (dist2 pq2 prev2),
      relaxAll node visited du nbs dist pq prev = some (dist2, pq2, prev2) →
      dist2.map Prod.fst = dist.map Prod.fst ∧
      (∀ v ∈ visited, dget dist2 v = dget dist v) ∧
      (∀ e ∈ pq, e ∈ pq2) ∧
      (∀ e ∈ pq2, e ∈ pq ∨ e.2 ∈ nbs.map Prod.fst) ∧
      pq2.length ≤ pq.length + nbs.length ∧
      (∀ x, (∀ d0, dget dist x = some (some d0) → ∃ e, e ∈ pq ∧ e.2 = x) →
        ∀ d0, dget dist2 x = some (some d0) → ∃ e, e ∈ pq2 ∧ e.2 = x) := by
  intro nbs
  induction nbs with
  | nil =>
    intro dist pq prev dist2 pq2 prev2 h
    simp only [relaxAll, Option.some.injEq, Prod.mk.injEq] at h
    obtain ⟨h1, h2, h3⟩ := h
    subst h1
    subst h2
    subst h3
    exact ⟨rfl, fun v _ => rfl, fun e he => he, fun e he => Or.inl he,
      by omega, fun x hx => hx⟩
  | cons q rest ih =>
    obtain ⟨nb, w⟩ := q
    intro dist pq prev dist2 pq2 prev2 h
    simp only [relaxAll] at h
    by_cases hv : nb ∈ visited
    · rw [if_pos hv] at h
      obtain ⟨H1, H2, H3, H4, H5, H6⟩ := ih dist pq prev dist2 pq2 prev2 h
      refine ⟨H1, H2, H3, ?_, ?_, H6⟩
      · intro e he
        rcases H4 e he with h2 | h2
        · exact Or.inl h2
        · right
          simp only [List.map_cons, List.mem_cons]
          exact Or.inr h2
      · simp only [List.length_cons]
        omega
    · rw [if_neg hv] at h
      cases hd : dget dist nb with
      | none =>
        rw [hd] at h
        simp at h
      | some cur =>
        rw [hd] at h
        simp only [] at h
        have hnbk : nb ∈ dist.map Prod.fst := by
          rw [← dget_isSome_iff, hd]
          rfl
        by_cases himp : oltb (du + w) cur = true
        · rw [if_pos himp] at h
          obtain ⟨H1, H2, H3, H4, H5, H6⟩ := ih _ _ _ _ _ _ h
          refine ⟨?_, ?_, ?_, ?_, ?_, ?_⟩
          · rw [H1]
            exact dset_keys_of_mem dist nb (some (du + w)) hnbk
          · intro v hvv
            rw [H2 v hvv]
            exact dget_dset_ne dist nb v _ (fun he => hv (he ▸ hvv))
          · intro e he
            exact H3 e (List.mem_append_left _ he)
          · intro e he
            rcases H4 e he with h2 | h2
            · rcases List.mem_append.mp h2 with h3 | h3
              · exact Or.inl h3
              · right
                rw [List.mem_singleton.mp h3]
                simp
            · right
              simp only [List.map_cons, List.mem_cons]
              exact Or.inr h2
          · simp only [List.length_append, List.length_singleton,
              List.length_cons, List.length_nil] at H5 ⊢
            omega
          · intro x hx
            apply H6 x
            intro d0 hd0
            by_cases hxnb : x = nb
            · subst hxnb
              exact ⟨(du + w, x),
                List.mem_append_right _ (List.mem_singleton.mpr rfl), rfl⟩
            · rw [dget_dset_ne dist nb x _ hxnb] at hd0
              obtain ⟨e, he, he2⟩ := hx d0 hd0
              exact ⟨e, List.mem_append_left _ he, he2⟩
        · rw [if_neg himp] at h
          obtain ⟨H1, H2, H3, H4, H5, H6⟩ := ih dist pq prev dist2 pq2 prev2 h
          refine ⟨H1, H2, H3, ?_, ?_, H6⟩
          · intro e he
            rcases H4 e he with h2 | h2
            · exact Or.inl h2
            · right
              simp only [List.map_cons, List.mem_cons]
              exact Or.inr h2
          · simp only [List.length_cons]
            omega

theorem relaxAll_total (node : V) (visited : List V) (du : Nat) :
    ∀ (nbs : List (V × Nat)) (dist : List (V × Option Nat))
      (pq : List (Nat × V)) (prev : List (V × V)),
      (∀ q ∈ nbs, q.1 ∈ dist.map Prod.fst) →
      ∃ out, relaxAll node visited du nbs dist pq prev = some out := by
  intro nbs
  induction nbs with
  | nil =>
    intro dist pq prev hk
    exact ⟨(dist, pq, prev), rfl⟩
  | cons q rest ih =>
    obtain ⟨nb, w⟩ := q
    intro dist pq prev hk
    simp only [relaxAll]
    by_cases hv : nb ∈ visited
    · rw [if_pos hv]
      exact ih dist pq prev (fun q hq => hk q (List.mem_cons_of_mem _ hq))
    · rw [if_neg hv]
      cases hd : dget dist nb with
      | none =>
        exfalso
        have hmem := hk (nb, w) (List.mem_cons_self _ _)
        rw [← dget_isSome_iff] at hmem
        rw [hd] at hmem
        simp at hmem
      | some cur =>
        simp only []
        by_cases himp : oltb (du + w) cur = true
        · rw [if_pos himp]
          apply ih
          intro q hq
          rw [dset_keys_of_mem dist nb (some (du + w)) (by rw [← dget_isSome_iff, hd]; rfl)]
          exact hk q (List.mem_cons_of_mem _ hq)
        · rw [if_neg himp]
          exact ih dist pq prev (fun q hq => hk q (List.mem_cons_of_mem _ hq))

theorem dijkstraLoop_total [LinearOrder V] (g : List (V × List (V × Nat)))
    (hclosed : ∀ p ∈ g, ∀ q ∈ p.2, q.1 ∈ g.map Prod.fst) :
    ∀ (fuel : Nat) (pq : List (Nat × V)) (visited : List V)
      (dist : List (V × Option Nat)) (prev : List (V × V)),
      (∀ k ∈ g.map Prod.fst, k ∈ dist.map Prod.fst) →
      (∀ e ∈ pq, e.2 ∈ dist.map Prod.fst) →
      pq.length + sumDeg g visited < fuel →
      ∃ res, dijkstraLoop g fuel pq visited dist prev = some res := by
  intro fuel
  induction fuel with
  | zero =>
    intro pq visited dist prev _ _ hM
    omega
  | succ f ih =>
    intro pq visited dist prev hkeys hpq hM
    simp only [dijkstraLoop]
    cases hpop : popMin pq with
    | none => exact ⟨(dist, prev), rfl⟩
    | some pr =>
      obtain ⟨⟨d, u⟩, pq2⟩ := pr
      obtain ⟨hmem, hlen, hmin, hsub, hkeep⟩ := popMin_some pq pq2 (d, u) hpop
      simp only []
      by_cases hv : u ∈ visited
      · rw [if_pos hv]
        apply ih pq2 visited dist prev hkeys (fun e he => hpq e (hsub e he))
        omega
      · rw [if_neg hv]
        have hnbk : ∀ q ∈ wadjGet g u, q.1 ∈ dist.map Prod.fst := by
          intro q hq
          unfold wadjGet at hq
          cases hdg : dget g u with
          | none => rw [hdg] at hq; simp at hq
          | some l =>
            rw [hdg] at hq
            simp only [Option.getD_some] at hq
            exact hkeys q.1 (hclosed (u, l) (dget_mem _ _ _ hdg) q hq)
        obtain ⟨⟨dist2, pq3, prev2⟩, hrel⟩ := relaxAll_total u (visited ++ [u]) d
          (wadjGet g u) dist pq2 prev hnbk
        rw [hrel]
        obtain ⟨H1, H2, H3, H4, H5, H6⟩ := relaxAll_sound u (visited ++ [u]) d
          (wadjGet g u) dist pq2 prev dist2 pq3 prev2 hrel
        apply ih pq3 (visited ++ [u]) dist2 prev2
        · intro k hk
          rw [H1]
          exact hkeys k hk
        · intro e he
          rw [H1]
          rcases H4 e he with h2 | h2
          · exact hpq e (hsub e h2)
          · obtain ⟨q, hq, hq2⟩ := List.mem_map.mp h2
            rw [← hq2]
            exact hnbk q hq
        · have hvst := sumDeg_visit g visited u hv
          omega

theorem dijkstraLoop_frozen [LinearOrder V] (g : List (V × List (V × Nat))) :
    ∀ (fuel : Nat) (pq : List (Nat × V)) (visited : List V)
      (dist : List (V × Option Nat)) (prev : List (V × V)) (x : V) res,
      x ∈ visited →
      dijkstraLoop g fuel pq visited dist prev = some res →
      dget res.1 x = dget dist x := by
  intro fuel
  induction fuel with
  | zero =>
    intro pq visited dist prev x res _ h
    simp [dijkstraLoop] at h
  | succ f ih =>
    intro pq visited dist prev x res hx h
    simp only [dijkstraLoop] at h
    cases hpop : popMin pq with
    | none =>
      rw [hpop] at h
      simp only [Option.some.injEq] at h
      rw [← h]
    | some pr =>
      obtain ⟨⟨d, u⟩, pq2⟩ := pr
      rw [hpop] at h
      simp only [] at h
      by_cases hv : u ∈ visited
      · rw [if_pos hv] at h
        exact ih pq2 visited dist prev x res hx h
      · rw [if_neg hv] at h
        cases hrel : relaxAll u (visited ++ [u]) d (wadjGet g u) dist pq2 prev with
        | none => rw [hrel] at h; simp at h
        | some out =>
          obtain ⟨dist2, pq3, prev2⟩ := out
          rw [hrel] at h
          simp only [] at h
          have hfr := ih pq3 (visited ++ [u]) dist2 prev2 x res
            (List.mem_append_left _ hx) h
          obtain ⟨-, H2, -, -, -, -⟩ := relaxAll_sound u (visited ++ [u]) d
            (wadjGet g u) dist pq2 prev dist2 pq3 prev2 hrel
          rw [hfr]
          exact H2 x (List.mem_append_left _ hx)

/-- Lockstep simulation of dijkstra_single_target against
dijkstra_algorithm: both loops evolve identically until the target is
popped; from that moment the full loop never rewrites the target's
distance, so the early-exit value agrees with the full run, and an
exhausted queue leaves the target at infinity in both. -/
theorem dijkstra_sim [LinearOrder V] (g : List (V × List (V × Nat))) (s t : V)
    (hclosed : ∀ p ∈ g, ∀ q ∈ p.2, q.1 ∈ g.map Prod.fst) :
    ∀ (fuel : Nat) (pq : List (Nat × V)) (visited : List V)
      (dist : List (V × Option Nat)) (prev : List (V × V)),
      (∀ k ∈ g.map Prod.fst, k ∈ dist.map Prod.fst) →
      (∀ e ∈ pq, e.2 ∈ dist.map Prod.fst) →
      t ∉ visited →
      t ∈ dist.map Prod.fst →
      (∀ d0, dget dist t = some (some d0) → ∃ e, e ∈ pq ∧ e.2 = t) →
      pq.length + sumDeg g visited < fuel →
      ∃ dp r, dijkstraLoop g fuel pq visited dist prev = some dp ∧
        dijkstraSingleLoop g s t fuel pq visited dist prev = some r ∧
        dget dp.1 t = some r.1 := by
  intro fuel
  induction fuel with
  | zero =>
    intro pq visited dist prev _ _ _ _ _ hM
    omega
  | succ f ih =>
    intro pq visited dist prev hkeys hpq htv htk htinv hM
    cases hpop : popMin pq with
    | none =>
      have hres1 : dijkstraLoop g (f + 1) pq visited dist prev
          = some (dist, prev) := by
        simp only [dijkstraLoop]
        rw [hpop]
      have hres2 : dijkstraSingleLoop g s t (f + 1) pq visited dist prev
          = some (none, none) := by
        simp only [dijkstraSingleLoop]
        rw [hpop]
      refine ⟨(dist, prev), (none, none), hres1, hres2, ?_⟩
      obtain ⟨v, hval⟩ := Option.isSome_iff_exists.mp ((dget_isSome_iff _ _).mpr htk)
      cases v with
      | none => rw [hval]
      | some d0 =>
        obtain ⟨e, he, -⟩ := htinv d0 hval
        rw [(popMin_none pq).mp hpop] at he
        simp at he
    | some pr =>
      obtain ⟨⟨d, u⟩, pq2⟩ := pr
      obtain ⟨hmem, hlen, hmin, hsub, hkeep⟩ := popMin_some pq pq2 (d, u) hpop
      by_cases hv : u ∈ visited
      · have hstep1 : dijkstraLoop g (f + 1) pq visited dist prev
            = dijkstraLoop g f pq2 visited dist prev := by
          simp only [dijkstraLoop]
          rw [hpop]
          simp only []
          rw [if_pos hv]
        have hstep2 : dijkstraSingleLoop g s t (f + 1) pq visited dist prev
            = dijkstraSingleLoop g s t f pq2 visited dist prev := by
          simp only [dijkstraSingleLoop]
          rw [hpop]
          simp only []
          rw [if_pos hv]
        rw [hstep1, hstep2]
        refine ih pq2 visited dist prev hkeys
          (fun e he => hpq e (hsub e he)) htv htk ?_ (by omega)
        intro d0 hd0
        obtain ⟨e, he, he2⟩ := htinv d0 hd0
        refine ⟨e, hkeep e he ?_, he2⟩
        intro hem
        rw [hem] at he2
        exact htv (he2 ▸ hv)
      · have hnbk : ∀ q ∈ wadjGet g u, q.1 ∈ dist.map Prod.fst := by
          intro q hq
          unfold wadjGet at hq
          cases hdg : dget g u with
          | none => rw [hdg] at hq; simp at hq
          | some l =>
            rw [hdg] at hq
            simp only [Option.getD_some] at hq
            exact hkeys q.1 (hclosed (u, l) (dget_mem _ _ _ hdg) q hq)
        obtain ⟨⟨dist2, pq3, prev2⟩, hrel⟩ := relaxAll_total u (visited ++ [u]) d
          (wadjGet g u) dist pq2 prev hnbk
        obtain ⟨H1, H2, H3, H4, H5, H6⟩ := relaxAll_sound u (visited ++ [u]) d
          (wadjGet g u) dist pq2 prev dist2 pq3 prev2 hrel
        by_cases hut : u = t
        · obtain ⟨v, hval⟩ := Option.isSome_iff_exists.mp
            ((dget_isSome_iff _ _).mpr htk)
          have hres2 : dijkstraSingleLoop g s t (f + 1) pq visited dist prev
              = some (v, reconstruct_path (prev.length + 2) prev s t) := by
            simp only [dijkstraSingleLoop]
            rw [hpop]
            simp only []
            rw [if_neg hv, if_pos hut, hval]
          obtain ⟨res, hres1⟩ := dijkstraLoop_total g hclosed f pq3
            (visited ++ [u]) dist2 prev2
            (fun k hk => by rw [H1]; exact hkeys k hk)
            (fun e he => by
              rw [H1]
              rcases H4 e he with h2 | h2
              · exact hpq e (hsub e h2)
              · obtain ⟨q, hq, hq2⟩ := List.mem_map.mp h2
                rw [← hq2]
                exact hnbk q hq)
            (by
              have hvst := sumDeg_visit g visited u hv
              omega)
          have hstep1 : dijkstraLoop g (f + 1) pq visited dist prev
              = dijkstraLoop g f pq3 (visited ++ [u]) dist2 prev2 := by
            simp only [dijkstraLoop]
            rw [hpop]
            simp only []
            rw [if_neg hv, hrel]
          refine ⟨res, (v, reconstruct_path (prev.length + 2) prev s t),
            ?_, hres2, ?_⟩
          · rw [hstep1]
            exact hres1
          · have htm : t ∈ visited ++ [u] :=
              List.mem_append_right _ (List.mem_singleton.mpr hut.symm)
            have hfr := dijkstraLoop_frozen g f pq3 (visited ++ [u]) dist2 prev2
              t res htm hres1
            rw [hfr, H2 t htm, hval]
        · have hstep1 : dijkstraLoop g (f + 1) pq visited dist prev
              = dijkstraLoop g f pq3 (visited ++ [u]) dist2 prev2 := by
            simp only [dijkstraLoop]
            rw [hpop]
            simp only []
            rw [if_neg hv, hrel]
          have hstep2 : dijkstraSingleLoop g s t (f + 1) pq visited dist prev
              = dijkstraSingleLoop g s t f pq3 (visited ++ [u]) dist2 prev2 := by
            simp only [dijkstraSingleLoop]
            rw [hpop]
            simp only []
            rw [if_neg hv, if_neg hut, hrel]
          rw [hstep1, hstep2]
          refine ih pq3 (visited ++ [u]) dist2 prev2 ?_ ?_ ?_ ?_ ?_ ?_
          · intro k hk
            rw [H1]
            exact hkeys k hk
          · intro e he
            rw [H1]
            rcases H4 e he with h2 | h2
            · exact hpq e (hsub e h2)
            · obtain ⟨q, hq, hq2⟩ := List.mem_map.mp h2
              rw [← hq2]
              exact hnbk q hq
          · intro hmem2
            rcases List.mem_append.mp hmem2 with h2 | h2
            · exact htv h2
            · exact hut (List.mem_singleton.mp h2).symm
          · rw [H1]
            exact htk
          · apply H6 t
            intro d0 hd0
            obtain ⟨e, he, he2⟩ := htinv d0 hd0
            refine ⟨e, hkeep e he ?_, he2⟩
            intro hem
            rw [hem] at he2
            exact hut he2
          · have hvst := sumDeg_visit g visited u hv
            omega

/-- C5: on a weighted graph whose adjacency lists mention only nodes of the
graph, for any start node and any target node of the graph, the early-exit
single-target Dijkstra reports exactly the distance value the all-nodes
Dijkstra stores for the target, infinity (none) included. -/
theorem claim_c5_dijkstra_single_target [LinearOrder V]
    (g : List (V × List (V × Nat))) (s t : V)
    (hclosed : ∀ p ∈ g, ∀ q ∈ p.2, q.1 ∈ g.map Prod.fst)
    (ht : t ∈ g.map Prod.fst) :
    ∃ dp r, dijkstra_algorithm g s = some dp ∧
      dijkstra_single_target g s t = some r ∧
      dget dp.1 t = some r.1 := by
  have hbasek : (g.map (fun p => (p.1, (none : Option Nat)))).map Prod.fst
      = g.map Prod.fst := by
    rw [List.map_map]
    rfl
  have hkeys : ∀ k ∈ g.map Prod.fst,
      k ∈ (dset (g.map (fun p => (p.1, (none : Option Nat)))) s
        (some 0)).map Prod.fst := by
    intro k hk
    apply dset_keys_superset
    rw [hbasek]
    exact hk
  exact dijkstra_sim g s t hclosed (sumDeg g [] + 2) [(0, s)] []
    (dset (g.map (fun p => (p.1, (none : Option Nat)))) s (some 0)) []
    hkeys
    (by
      intro e he
      rw [List.mem_singleton.mp he]
      exact self_mem_dset_keys _ _ _)
    (by simp)
    (hkeys t ht)
    (by
      intro d0 hd0
      by_cases hts : t = s
      · exact ⟨(0, s), List.mem_singleton.mpr rfl, hts.symm⟩
      · exfalso
        rw [dget_dset_ne _ _ _ _ hts] at hd0
        rw [dget_mapVal (fun _ => (none : Option Nat)) g t] at hd0
        cases hdg : dget g t with
        | none => rw [hdg] at hd0; simp at hd0
        | some l => rw [hdg] at hd0; simp at hd0)
    (by
      simp only [List.length_singleton]
      omega)

/-- Witness for C5: on the triangle 0 → 1 → 2 with a direct heavier edge
0 → 2, both Dijkstra modes report distance 3 for node 2. -/
theorem claim_c5_witness :
    ∃ dp r, dijkstra_algorithm
        [(0, [(1, 2), (2, 5)]), (1, [(2, 1)]), (2, ([] : List (Nat × Nat)))] 0
        = some dp ∧
      dijkstra_single_target
        [(0, [(1, 2), (2, 5)]), (1, [(2, 1)]), (2, ([] : List (Nat × Nat)))] 0 2
        = some r ∧
      dget dp.1 2 = some r.1 :=
  claim_c5_dijkstra_single_target
    [(0, [(1, 2), (2, 5)]), (1, [(2, 1)]), (2, ([] : List (Nat × Nat)))] 0 2
    (by decide) (by decide)

/-- Weighted paths through a weighted adjacency dict, built by appending
edges at the end; the index is the total weight. -/
inductive WPath (g : List (V × List (V × Nat))) : Nat → V → V → Prop
  | refl (x : V) : WPath g 0 x x
  | snoc {x y z : V} {n w : Nat} :
      WPath g n x y → (z, w) ∈ wadjGet g y → WPath g (n + w) x z

theorem wpath_cons (g : List (V × List (V × Nat))) :
    ∀ (n w : Nat) (x y z : V), WPath g n y z → (y, w) ∈ wadjGet g x →
      WPath g (w + n) x z := by
  intro n w x y z hp
  induction hp with
  | refl a =>
    intro he
    simpa using WPath.snoc (WPath.refl x) he
  | @snoc a b c m w2 hp2 he2 ih =>
    intro he
    have h2 := WPath.snoc (ih he) he2
    have harith : w + (m + w2) = (w + m) + w2 := by omega
    rw [harith]
    exact h2

theorem adjGet_unitview (g : List (V × List (V × Nat))) (y : V) :
    adjGet (g.map (fun p => (p.1, p.2.map Prod.fst))) y
      = (wadjGet g y).map Prod.fst := by
  unfold adjGet wadjGet
  rw [dget_mapVal (fun l => l.map Prod.fst) g y]
  cases dget g y with
  | none => rfl
  | some l => rfl

theorem wadjGet_weight (g : List (V × List (V × Nat)))
    (hunit : ∀ p ∈ g, ∀ q ∈ p.2, q.2 = 1) (a : V) (q : V × Nat)
    (hq : q ∈ wadjGet g a) : q.2 = 1 := by
  unfold wadjGet at hq
  cases hd : dget g a with
  | none => rw [hd] at hq; simp at hq
  | some l =>
    rw [hd] at hq
    simp only [Option.getD_some] at hq
    exact hunit (a, l) (dget_mem _ _ _ hd) q hq

theorem wpath_of_npath_unit (g : List (V × List (V × Nat)))
    (hunit : ∀ p ∈ g, ∀ q ∈ p.2, q.2 = 1) :
    ∀ (n : Nat) (x y : V),
      Npath (g.map (fun p => (p.1, p.2.map Prod.fst))) n x y →
      WPath g n x y := by
  intro n x y hp
  induction hp with
  | refl a => exact WPath.refl a
  | @step a b c m he hp2 ih =>
    have he2 : b ∈ (wadjGet g a).map Prod.fst := by
      rw [← adjGet_unitview g a]
      exact he
    obtain ⟨q, hq, hq2⟩ := List.mem_map.mp he2
    have hw : q.2 = 1 := wadjGet_weight g hunit a q hq
    have hedge : (b, q.2) ∈ wadjGet g a := by
      rw [← hq2]
      exact hq
    have hcons := wpath_cons g m q.2 a b c ih hedge
    rw [hw] at hcons
    have harith : m + 1 = 1 + m := by omega
    rw [harith]
    exact hcons

theorem npath_of_wpath_unit (g : List (V × List (V × Nat)))
    (hunit : ∀ p ∈ g, ∀ q ∈ p.2, q.2 = 1) :
    ∀ (n : Nat) (x y : V), WPath g n x y →
      Npath (g.map (fun p => (p.1, p.2.map Prod.fst))) n x y := by
  intro n x y hp
  induction hp with
  | refl a => exact Npath.refl a
  | @snoc a b c m w hp2 he ih =>
    have hw : w = 1 := wadjGet_weight g hunit b (c, w) he
    have hedge : edgeStep (g.map (fun p => (p.1, p.2.map Prod.fst))) b c := by
      unfold edgeStep
      rw [adjGet_unitview g b]
      exact List.mem_map.mpr ⟨(c, w), he, rfl⟩
    have h2 := npath_snoc (g.map (fun p => (p.1, p.2.map Prod.fst))) m a b c ih hedge
    rw [hw]
    exact h2

theorem reach_npath (g : List (V × List V)) (s t : V) (h : Reach g s t) :
    ∃ n, Npath g n s t := by
  induction h with
  | refl => exact ⟨0, Npath.refl s⟩
  | tail hab hbc ih =>
    obtain ⟨n, hn⟩ := ih
    exact ⟨n + 1, npath_snoc g n s _ _ hn hbc⟩

theorem relaxAll_mono (node : V) (visited : List V) (du : Nat) :
    ∀ (nbs : List (V × Nat)) (dist : List (V × Option Nat))
      (pq : List (Nat × V)) (prev : List (V × V)) (dist2 pq2 prev2),
      relaxAll node visited du nbs dist pq prev = some (dist2, pq2, prev2) →
      ∀ v dv, dget dist v = some (some dv) →
        ∃ dv2, dget dist2 v = some (some dv2) ∧ dv2 ≤ dv := by
  intro nbs
  induction nbs with
  | nil =>
    intro dist pq prev dist2 pq2 prev2 h v dv hv
    simp only [relaxAll, Option.some.injEq, Prod.mk.injEq] at h
    obtain ⟨h1, -, -⟩ := h
    subst h1
    exact ⟨dv, hv, le_refl dv⟩
  | cons q rest ih =>
    obtain ⟨nb, w⟩ := q
    intro dist pq prev dist2 pq2 prev2 h v dv hv
    simp only [relaxAll] at h
    by_cases hvis : nb ∈ visited
    · rw [if_pos hvis] at h
      exact ih dist pq prev dist2 pq2 prev2 h v dv hv
    · rw [if_neg hvis] at h
      cases hd : dget dist nb with
      | none => rw [hd] at h; simp at h
      | some cur =>
        rw [hd] at h
        simp only [] at h
        by_cases himp : oltb (du + w) cur = true
        · rw [if_pos himp] at h
          by_cases hvnb : v = nb
          · subst hvnb
            have hcur : cur = some dv := by
              rw [hv] at hd
              exact (Option.some.injEq _ _).mp hd.symm
            have hlt : du + w < dv := by
              rw [hcur] at himp
              simpa [oltb] using himp
            have hmid : dget (dset dist v (some (du + w))) v = some (some (du + w)) :=
              dget_dset_self dist v (some (du + w))
            obtain ⟨dv2, hdv2, hle⟩ := ih _ _ _ _ _ _ h v (du + w) hmid
            exact ⟨dv2, hdv2, by omega⟩
          · have hmid : dget (dset dist nb (some (du + w))) v = some (some dv) := by
              rw [dget_dset_ne dist nb v _ hvnb]
              exact hv
            exact ih _ _ _ _ _ _ h v dv hmid
        · rw [if_neg himp] at h
          exact ih dist pq prev dist2 pq2 prev2 h v dv hv

theorem relaxAll_values (node : V) (visited : List V) (du : Nat) :
    ∀ (nbs : List (V × Nat)) (dist : List (V × Option Nat))
      (pq : List (Nat × V)) (prev : List (V × V)) (dist2 pq2 prev2),
      relaxAll node visited du nbs dist pq prev = some (dist2, pq2, prev2) →
      ∀ v d0, dget dist2 v = some (some d0) →
        dget dist v = some (some d0) ∨ ∃ q ∈ nbs, q.1 = v ∧ d0 = du + q.2 := by
  intro nbs
  induction nbs with
  | nil =>
    intro dist pq prev dist2 pq2 prev2 h v d0 hv
    simp only [relaxAll, Option.some.injEq, Prod.mk.injEq] at h
    obtain ⟨h1, -, -⟩ := h
    subst h1
    exact Or.inl hv
  | cons q rest ih =>
    obtain ⟨nb, w⟩ := q
    intro dist pq prev dist2 pq2 prev2 h v d0 hv
    simp only [relaxAll] at h
    by_cases hvis : nb ∈ visited
    · rw [if_pos hvis] at h
      rcases ih dist pq prev dist2 pq2 prev2 h v d0 hv with h2 | ⟨q2, hq2, hq3⟩
      · exact Or.inl h2
      · exact Or.inr ⟨q2, List.mem_cons_of_mem _ hq2, hq3⟩
    · rw [if_neg hvis] at h
      cases hd : dget dist nb with
      | none => rw [hd] at h; simp at h
      | some cur =>
        rw [hd] at h
        simp only [] at h
        by_cases himp : oltb (du + w) cur = true
        · rw [if_pos himp] at h
          rcases ih _ _ _ _ _ _ h v d0 hv with h2 | ⟨q2, hq2, hq3⟩
          · by_cases hvnb : v = nb
            · subst hvnb
              rw [dget_dset_self] at h2
              right
              refine ⟨(v, w), List.mem_cons_self _ _, rfl, ?_⟩
              have := (Option.some.injEq _ _).mp h2
              exact ((Option.some.injEq _ _).mp this).symm
            · rw [dget_dset_ne dist nb v _ hvnb] at h2
              exact Or.inl h2
          · exact Or.inr ⟨q2, List.mem_cons_of_mem _ hq2, hq3⟩
        · rw [if_neg himp] at h
          rcases ih dist pq prev dist2 pq2 prev2 h v d0 hv with h2 | ⟨q2, hq2, hq3⟩
          · exact Or.inl h2
          · exact Or.inr ⟨q2, List.mem_cons_of_mem _ hq2, hq3⟩

theorem relaxAll_entries (node : V) (visited : List V) (du : Nat) :
    ∀ (nbs : List (V × Nat)) (dist : List (V × Option Nat))
      (pq : List (Nat × V)) (prev : List (V × V)) (dist2 pq2 prev2),
      relaxAll node visited du nbs dist pq prev = some (dist2, pq2, prev2) →
      (∀ e ∈ pq, ∃ dv, dget dist e.2 = some (some dv) ∧ dv ≤ e.1) →
      ∀ e ∈ pq2, ∃ dv, dget dist2 e.2 = some (some dv) ∧ dv ≤ e.1 := by
  intro nbs
  induction nbs with
  | nil =>
    intro dist pq prev dist2 pq2 prev2 h hbase e he
    simp only [relaxAll, Option.some.injEq, Prod.mk.injEq] at h
    obtain ⟨h1, h2, -⟩ := h
    subst h1
    subst h2
    exact hbase e he
  | cons q rest ih =>
    obtain ⟨nb, w⟩ := q
    intro dist pq prev dist2 pq2 prev2 h hbase e he
    simp only [relaxAll] at h
    by_cases hvis : nb ∈ visited
    · rw [if_pos hvis] at h
      exact ih dist pq prev dist2 pq2 prev2 h hbase e he
    · rw [if_neg hvis] at h
      cases hd : dget dist nb with
      | none => rw [hd] at h; simp at h
      | some cur =>
        rw [hd] at h
        simp only [] at h
        by_cases himp : oltb (du + w) cur = true
        · rw [if_pos himp] at h
          refine ih _ _ _ _ _ _ h ?_ e he
          intro e2 he2
          rcases List.mem_append.mp he2 with h2 | h2
          · obtain ⟨dv, hdv, hle⟩ := hbase e2 h2
            by_cases henb : e2.2 = nb
            · rw [henb, dget_dset_self]
              refine ⟨du + w, rfl, ?_⟩
              have hcur : cur = some dv := by
                rw [henb] at hdv
                rw [hdv] at hd
                exact (Option.some.injEq _ _).mp hd.symm
              have hlt : du + w < dv := by
                rw [hcur] at himp
                simpa [oltb] using himp
              omega
            · rw [dget_dset_ne dist nb e2.2 _ henb]
              exact ⟨dv, hdv, hle⟩
          · rw [List.mem_singleton.mp h2]
            refine ⟨du + w, ?_, le_refl _⟩
            exact dget_dset_self dist nb (some (du + w))
        · rw [if_neg himp] at h
          exact ih dist pq prev dist2 pq2 prev2 h hbase e he

theorem relaxAll_current (node : V) (visited : List V) (du : Nat) :
    ∀ (nbs : List (V × Nat)) (dist : List (V × Option Nat))
      (pq : List (Nat × V)) (prev : List (V × V)) (dist2 pq2 prev2),
      relaxAll node visited du nbs dist pq prev = some (dist2, pq2, prev2) →
      (∀ v, v ∉ visited → ∀ d0, dget dist v = some (some d0) → (d0, v) ∈ pq) →
      ∀ v, v ∉ visited → ∀ d0, dget dist2 v = some (some d0) → (d0, v) ∈ pq2 := by
  intro nbs
  induction nbs with
  | nil =>
    intro dist pq prev dist2 pq2 prev2 h hbase v hv d0 hd0
    simp only [relaxAll, Option.some.injEq, Prod.mk.injEq] at h
    obtain ⟨h1, h2, -⟩ := h
    subst h1
    subst h2
    exact hbase v hv d0 hd0
  | cons q rest ih =>
    obtain ⟨nb, w⟩ := q
    intro dist pq prev dist2 pq2 prev2 h hbase v hv d0 hd0
    simp only [relaxAll] at h
    by_cases hvis : nb ∈ visited
    · rw [if_pos hvis] at h
      exact ih dist pq prev dist2 pq2 prev2 h hbase v hv d0 hd0
    · rw [if_neg hvis] at h
      cases hd : dget dist nb with
      | none => rw [hd] at h; simp at h
      | some cur =>
        rw [hd] at h
        simp only [] at h
        by_cases himp : oltb (du + w) cur = true
        · rw [if_pos himp] at h
          refine ih _ _ _ _ _ _ h ?_ v hv d0 hd0
          intro v2 hv2 d2 hd2
          by_cases hvnb : v2 = nb
          · subst hvnb
            rw [dget_dset_self] at hd2
            have : d2 = du + w := by
              have h3 := (Option.some.injEq _ _).mp hd2
              exact ((Option.some.injEq _ _).mp h3).symm
            rw [this]
            exact List.mem_append_right _ (List.mem_singleton.mpr rfl)
          · rw [dget_dset_ne dist nb v2 _ hvnb] at hd2
            exact List.mem_append_left _ (hbase v2 hv2 d2 hd2)
        · rw [if_neg himp] at h
          exact ih dist pq prev dist2 pq2 prev2 h hbase v hv d0 hd0

theorem relaxAll_relaxed (node : V) (visited : List V) (du : Nat) :
    ∀ (nbs : List (V × Nat)) (dist : List (V × Option Nat))
      (pq : List (Nat × V)) (prev : List (V × V)) (dist2 pq2 prev2),
      relaxAll node visited du nbs dist pq prev = some (dist2, pq2, prev2) →
      ∀ q ∈ nbs, q.1 ∉ visited →
        ∃ dn, dget dist2 q.1 = some (some dn) ∧ dn ≤ du + q.2 := by
  intro nbs
  induction nbs with
  | nil =>
    intro dist pq prev dist2 pq2 prev2 h q hq
    simp at hq
  | cons q0 rest ih =>
    obtain ⟨nb, w⟩ := q0
    intro dist pq prev dist2 pq2 prev2 h q hq hqv
    simp only [relaxAll] at h
    by_cases hvis : nb ∈ visited
    · rw [if_pos hvis] at h
      rcases List.mem_cons.mp hq with rfl | h2
      · exact absurd hvis hqv
      · exact ih dist pq prev dist2 pq2 prev2 h q h2 hqv
    · rw [if_neg hvis] at h
      cases hd : dget dist nb with
      | none => rw [hd] at h; simp at h
      | some cur =>
        rw [hd] at h
        simp only [] at h
        by_cases himp : oltb (du + w) cur = true
        · rw [if_pos himp] at h
          rcases List.mem_cons.mp hq with rfl | h2
          · have hmid : dget (dset dist nb (some (du + w))) nb
                = some (some (du + w)) := dget_dset_self _ _ _
            obtain ⟨dv2, hdv2, hle⟩ :=
              relaxAll_mono node visited du rest _ _ _ _ _ _ h nb (du + w) hmid
            exact ⟨dv2, hdv2, by omega⟩
          · exact ih _ _ _ _ _ _ h q h2 hqv
        · rw [if_neg himp] at h
          rcases List.mem_cons.mp hq with rfl | h2
          · cases hcur : cur with
            | none =>
              rw [hcur] at himp
              simp [oltb] at himp
            | some c =>
              have hle : c ≤ du + w := by
                rw [hcur] at himp
                simp only [oltb, decide_eq_true_eq] at himp
                omega
              have hq1 : dget dist nb = some (some c) := by
                rw [hd, hcur]
              obtain ⟨dv2, hdv2, hle2⟩ :=
                relaxAll_mono node visited du rest _ _ _ _ _ _ h nb c hq1
              exact ⟨dv2, hdv2, by omega⟩
          · exact ih dist pq prev dist2 pq2 prev2 h q h2 hqv

theorem wpath_all_visited (g : List (V × List (V × Nat))) (s : V)
    (visited : List V) (dist : List (V × Option Nat))
    (hs : dget dist s = some (some 0))
    (hnone : ∀ v, v ∉ visited → ∀ d0, dget dist v = some (some d0) → False)
    (hrelax : ∀ u ∈ visited, ∀ q ∈ wadjGet g u, q.1 ∉ visited →
      ∃ du dn, dget dist u = some (some du) ∧
        dget dist q.1 = some (some dn) ∧ dn ≤ du + q.2) :
    ∀ (n : Nat) (x v : V), WPath g n x v → x = s → v ∈ visited := by
  intro n x v hp
  induction hp with
  | refl a =>
    intro hxs
    rw [hxs]
    by_contra hv
    exact hnone s hv 0 hs
  | @snoc a b c m w hp2 he ih =>
    intro hxs
    have hb : b ∈ visited := ih hxs
    by_contra hcv
    obtain ⟨du, dn, hdu, hdn, hle⟩ := hrelax b hb (c, w) he hcv
    exact hnone c hcv dn hdn

theorem dijkstra_cut (g : List (V × List (V × Nat))) (s : V)
    (visited : List V) (dist : List (V × Option Nat)) (pq : List (Nat × V))
    (d : Nat)
    (hs : dget dist s = some (some 0))
    (hvis : ∀ v ∈ visited, ∃ dv, dget dist v = some (some dv) ∧
      ∀ m, WPath g m s v → dv ≤ m)
    (hcur : ∀ v, v ∉ visited → ∀ d0, dget dist v = some (some d0) → (d0, v) ∈ pq)
    (hrelax : ∀ u ∈ visited, ∀ q ∈ wadjGet g u, q.1 ∉ visited →
      ∃ du dn, dget dist u = some (some du) ∧
        dget dist q.1 = some (some dn) ∧ dn ≤ du + q.2)
    (hmin : ∀ e ∈ pq, d ≤ e.1) :
    ∀ (n : Nat) (x v : V), WPath g n x v → x = s → v ∉ visited → d ≤ n := by
  intro n x v hp
  induction hp with
  | refl a =>
    intro hxs hv
    rw [hxs] at hv
    have hmem := hcur s hv 0 hs
    exact hmin (0, s) hmem
  | @snoc a b c m w hp2 he ih =>
    intro hxs hcv
    by_cases hb : b ∈ visited
    · obtain ⟨db, hdb, hdbmin⟩ := hvis b hb
      obtain ⟨du, dn, hdu, hdn, hle⟩ := hrelax b hb (c, w) he hcv
      have hdud : du = db := by
        rw [hdu] at hdb
        have h1 := (Option.some.injEq _ _).mp hdb
        exact (Option.some.injEq _ _).mp h1
      have hpm : WPath g m s b := by
        rw [← hxs]
        exact hp2
      have hdbm := hdbmin m hpm
      have hmem := hcur c hcv dn hdn
      have hd := hmin (dn, c) hmem
      omega
    · have := ih hxs hb
      omega

/-- Full correctness of the Dijkstra loop: under the loop invariants —
visited nodes carry minimal distances, stored distances are realizable,
queue entries dominate the stored value of their node, unvisited nodes
with a finite stored value have a matching queue entry, visited nodes have
relaxed all their out-edges, and the start is pinned at distance 0 — the
loop terminates and the final table assigns every node reachable by a
weighted path its exact shortest-path weight. -/
theorem dijkstraLoop_correct [LinearOrder V] (g : List (V × List (V × Nat)))
    (s : V) (hclosed : ∀ p ∈ g, ∀ q ∈ p.2, q.1 ∈ g.map Prod.fst) :
    ∀ (fuel : Nat) (pq : List (Nat × V)) (visited : List V)
      (dist : List (V × Option Nat)) (prev : List (V × V)),
      (∀ k ∈ g.map Prod.fst, k ∈ dist.map Prod.fst) →
      (∀ e ∈ pq, e.2 ∈ dist.map Prod.fst) →
      (∀ v ∈ visited, ∃ dv, dget dist v = some (some dv) ∧
        ∀ m, WPath g m s v → dv ≤ m) →
      (∀ v d0, dget dist v = some (some d0) → WPath g d0 s v) →
      (∀ e ∈ pq, ∃ dv, dget dist e.2 = some (some dv) ∧ dv ≤ e.1) →
      (∀ v, v ∉ visited → ∀ d0, dget dist v = some (some d0) → (d0, v) ∈ pq) →
      (∀ u ∈ visited, ∀ q ∈ wadjGet g u, q.1 ∉ visited →
        ∃ du dn, dget dist u = some (some du) ∧
          dget dist q.1 = some (some dn) ∧ dn ≤ du + q.2) →
      dget dist s = some (some 0) →
      pq.length + sumDeg g visited < fuel →
      ∃ res, dijkstraLoop g fuel pq visited dist prev = some res ∧
        ∀ (v : V) (n : Nat), WPath g n s v →
          ∃ dv, dget res.1 v = some (some dv) ∧ WPath g dv s v ∧
            ∀ m, WPath g m s v → dv ≤ m := by
  intro fuel
  induction fuel with
  | zero =>
    intro pq visited dist prev _ _ _ _ _ _ _ _ hM
    omega
  | succ f ih =>
    intro pq visited dist prev hkeys hpqk hvis hreal hdom hcur hrelax hs hM
    cases hpop : popMin pq with
    | none =>
      have hres : dijkstraLoop g (f + 1) pq visited dist prev
          = some (dist, prev) := by
        simp only [dijkstraLoop]
        rw [hpop]
      refine ⟨(dist, prev), hres, ?_⟩
      have hpqnil := (popMin_none pq).mp hpop
      subst hpqnil
      have hnone : ∀ v, v ∉ visited → ∀ d0,
          dget dist v = some (some d0) → False := by
        intro v hv d0 hd0
        have := hcur v hv d0 hd0
        simp at this
      have hall := wpath_all_visited g s visited dist hs hnone hrelax
      intro v n hp
      have hvmem := hall n s v hp rfl
      obtain ⟨dv, hdv, hdvmin⟩ := hvis v hvmem
      exact ⟨dv, hdv, hreal v dv hdv, hdvmin⟩
    | some pr =>
      obtain ⟨⟨d, u⟩, pq2⟩ := pr
      obtain ⟨hmem, hlen, hmin, hsub, hkeep⟩ := popMin_some pq pq2 (d, u) hpop
      by_cases hv : u ∈ visited
      · have hstep : dijkstraLoop g (f + 1) pq visited dist prev
            = dijkstraLoop g f pq2 visited dist prev := by
          simp only [dijkstraLoop]
          rw [hpop]
          simp only []
          rw [if_pos hv]
        rw [hstep]
        refine ih pq2 visited dist prev hkeys
          (fun e he => hpqk e (hsub e he)) hvis hreal
          (fun e he => hdom e (hsub e he)) ?_ hrelax hs (by omega)
        intro v hvv d0 hd0
        refine hkeep (d0, v) (hcur v hvv d0 hd0) ?_
        intro he
        have : v = u := congrArg Prod.snd he
        exact hvv (this ▸ hv)
      · -- pop-exact: the stored value of u equals d
        obtain ⟨du0, hdu0, hdu0le⟩ := hdom (d, u) hmem
        have hentry := hcur u hv du0 hdu0
        have hge := hmin (du0, u) hentry
        have hdu : du0 = d := by omega
        subst hdu
        -- minimality of d for u via the cut argument
        have hcut := dijkstra_cut g s visited dist pq du0 hs hvis hcur hrelax hmin
        have humin : ∀ m, WPath g m s u → du0 ≤ m := by
          intro m hm
          exact hcut m s u hm rfl hv
        -- relax the neighbours
        have hnbk : ∀ q ∈ wadjGet g u, q.1 ∈ dist.map Prod.fst := by
          intro q hq
          unfold wadjGet at hq
          cases hdg : dget g u with
          | none => rw [hdg] at hq; simp at hq
          | some l =>
            rw [hdg] at hq
            simp only [Option.getD_some] at hq
            exact hkeys q.1 (hclosed (u, l) (dget_mem _ _ _ hdg) q hq)
        obtain ⟨⟨dist2, pq3, prev2⟩, hrel⟩ := relaxAll_total u (visited ++ [u])
          du0 (wadjGet g u) dist pq2 prev hnbk
        obtain ⟨H1, H2, H3, H4, H5, H6⟩ := relaxAll_sound u (visited ++ [u])
          du0 (wadjGet g u) dist pq2 prev dist2 pq3 prev2 hrel
        have hstep : dijkstraLoop g (f + 1) pq visited dist prev
            = dijkstraLoop g f pq3 (visited ++ [u]) dist2 prev2 := by
          simp only [dijkstraLoop]
          rw [hpop]
          simp only []
          rw [if_neg hv, hrel]
        rw [hstep]
        have hvalu : dget dist2 u = some (some du0) := by
          rw [H2 u (List.mem_append_right _ (List.mem_singleton.mpr rfl))]
          exact hdu0
        refine ih pq3 (visited ++ [u]) dist2 prev2 ?_ ?_ ?_ ?_ ?_ ?_ ?_ ?_ ?_
        · intro k hk
          rw [H1]
          exact hkeys k hk
        · intro e he
          rw [H1]
          rcases H4 e he with h2 | h2
          · exact hpqk e (hsub e h2)
          · obtain ⟨q, hq, hq2⟩ := List.mem_map.mp h2
            rw [← hq2]
            exact hnbk q hq
        · intro v hvv
          rcases List.mem_append.mp hvv with h2 | h2
          · obtain ⟨dv, hdv, hdvmin⟩ := hvis v h2
            refine ⟨dv, ?_, hdvmin⟩
            rw [H2 v (List.mem_append_left _ h2)]
            exact hdv
          · rw [List.mem_singleton.mp h2]
            exact ⟨du0, hvalu, humin⟩
        · intro v d0 hd0
          rcases relaxAll_values u (visited ++ [u]) du0 (wadjGet g u) dist pq2
              prev dist2 pq3 prev2 hrel v d0 hd0 with h2 | ⟨q, hq, hq1, hq2⟩
          · exact hreal v d0 h2
          · rw [hq2, ← hq1]
            exact WPath.snoc (hreal u du0 hdu0) hq
        · refine relaxAll_entries u (visited ++ [u]) du0 (wadjGet g u) dist pq2
            prev dist2 pq3 prev2 hrel ?_
          intro e he
          exact hdom e (hsub e he)
        · intro v hvv d0 hd0
          have hvv2 : v ∉ visited ++ [u] := hvv
          refine relaxAll_current u (visited ++ [u]) du0 (wadjGet g u) dist pq2
            prev dist2 pq3 prev2 hrel ?_ v hvv2 d0 hd0
          intro v2 hv2 d2 hd2
          have hv2vis : v2 ∉ visited := by
            intro h2
            exact hv2 (List.mem_append_left _ h2)
          have hv2u : v2 ≠ u := by
            intro h2
            exact hv2 (List.mem_append_right _ (List.mem_singleton.mpr h2))
          refine hkeep (d2, v2) (hcur v2 hv2vis d2 hd2) ?_
          intro he2
          exact hv2u (congrArg Prod.snd he2)
        · intro x hx q hq hq1
          rcases List.mem_append.mp hx with h2 | h2
          · have hq1old : q.1 ∉ visited := by
              intro h3
              exact hq1 (List.mem_append_left _ h3)
            obtain ⟨dux, dn, hdux, hdn, hle⟩ := hrelax x h2 q hq hq1old
            obtain ⟨dn2, hdn2, hdn2le⟩ := relaxAll_mono u (visited ++ [u]) du0
              (wadjGet g u) dist pq2 prev dist2 pq3 prev2 hrel q.1 dn hdn
            refine ⟨dux, dn2, ?_, hdn2, by omega⟩
            rw [H2 x (List.mem_append_left _ h2)]
            exact hdux
          · rw [List.mem_singleton.mp h2] at hq ⊢
            obtain ⟨dn, hdn, hdnle⟩ := relaxAll_relaxed u (visited ++ [u]) du0
              (wadjGet g u) dist pq2 prev dist2 pq3 prev2 hrel q hq hq1
            exact ⟨du0, dn, hvalu, hdn, hdnle⟩
        · obtain ⟨dv2, hdv2, hdv2le⟩ := relaxAll_mono u (visited ++ [u]) du0
            (wadjGet g u) dist pq2 prev dist2 pq3 prev2 hrel s 0 hs
          have : dv2 = 0 := by omega
          rw [← this]
          exact hdv2
        · have hvst := sumDeg_visit g visited u hv
          omega

/-! bfs_all_shortest_paths from bfs.py: a distances dict that doubles as
the visited set, and a FIFO queue of nodes; each dequeued node assigns
distance current + 1 to every neighbour not yet in the dict. -/

def bfsAllLoop (g : List (V × List V)) :
    Nat → List (V × Nat) → List V → List (V × Nat)
  | 0, dist, _ => dist
  | fuel + 1, dist, queue =>
    match queue with
    | [] => dist
    | node :: rest =>
      match dget dist node with
      | none => dist
      | some d =>
        let st := (adjGet g node).foldl
          (fun (p : List (V × Nat) × List V) nb =>
            if (dget p.1 nb).isSome then p
            else (dset p.1 nb (d + 1), p.2 ++ [nb]))
          (dist, rest)
        bfsAllLoop g fuel st.1 st.2

/-- bfs_all_shortest_paths(graph, start): distances = \x7bstart: 0\x7d, queue
seeded with start. -/
def bfs_all_shortest_paths (g : List (V × List V)) (s : V) : List (V × Nat) :=
  bfsAllLoop g ((nodeUniv g s).length + 2) [(s, 0)] [s]

theorem dset_keys_of_not_mem (m : List (V × α)) (x : V) (v : α)
    (hx : x ∉ m.map Prod.fst) :
    (dset m x v).map Prod.fst = m.map Prod.fst ++ [x] := by
  induction m with
  | nil => simp [dset]
  | cons p rest ih =>
    obtain ⟨k0, v0⟩ := p
    simp only [List.map_cons, List.mem_cons] at hx
    push_neg at hx
    simp only [dset]
    rw [if_neg (fun h => hx.1 h.symm)]
    simp only [List.map_cons, List.cons_append, List.cons.injEq]
    exact ⟨trivial, ih hx.2⟩

/-- Characterisation of the neighbour scan of bfs_all_shortest_paths: a
duplicate-free block of previously unknown neighbours is assigned
distance d + 1 and appended to the queue; afterwards every scanned
neighbour is in the dict. -/
theorem bfsAll_scan_spec (d : Nat) :
    ∀ (nbs : List V) (dist : List (V × Nat)) (rest : List V),
      ∃ (dist2 : List (V × Nat)) (fresh : List V),
        (nbs.foldl (fun (p : List (V × Nat) × List V) nb =>
          if (dget p.1 nb).isSome then p
          else (dset p.1 nb (d + 1), p.2 ++ [nb])) (dist, rest))
          = (dist2, rest ++ fresh) ∧
        fresh.Nodup ∧
        (∀ x ∈ fresh, x ∈ nbs ∧ dget dist x = none) ∧
        (∀ nb ∈ nbs, (dget dist2 nb).isSome) ∧
        (∀ x, dget dist2 x = if x ∈ fresh then some (d + 1) else dget dist x) ∧
        dist2.map Prod.fst = dist.map Prod.fst ++ fresh := by
  intro nbs
  induction nbs with
  | nil =>
    intro dist rest
    refine ⟨dist, [], ?_, ?_, ?_, ?_, ?_, ?_⟩ <;> simp
  | cons nb rest2 ih =>
    intro dist rest
    simp only [List.foldl_cons]
    cases hd : dget dist nb with
    | some c =>
      rw [if_pos (show (some c : Option Nat).isSome = true from rfl)]
      obtain ⟨dist2, fresh, heq, hnd, hmem, hcov, hval, hkeys⟩ := ih dist rest
      refine ⟨dist2, fresh, heq, hnd, ?_, ?_, hval, hkeys⟩
      · intro x hx
        obtain ⟨h1, h2⟩ := hmem x hx
        exact ⟨List.mem_cons_of_mem _ h1, h2⟩
      · intro nb2 hnb2
        rcases List.mem_cons.mp hnb2 with rfl | h2
        · rw [hval nb2]
          by_cases hf : nb2 ∈ fresh
          · rw [if_pos hf]
            rfl
          · rw [if_neg hf, hd]
            rfl
        · exact hcov nb2 h2
    | none =>
      rw [if_neg (show ¬(none : Option Nat).isSome = true by simp)]
      obtain ⟨dist2, fresh2, heq, hnd, hmem, hcov, hval, hkeys⟩ :=
        ih (dset dist nb (d + 1)) (rest ++ [nb])
      have hnbf : nb ∉ fresh2 := by
        intro hx
        have h2 := (hmem nb hx).2
        rw [dget_dset_self] at h2
        exact Option.noConfusion h2
      refine ⟨dist2, nb :: fresh2, ?_, ?_, ?_, ?_, ?_, ?_⟩
      · rw [heq, List.append_cons rest nb fresh2]
      · exact List.nodup_cons.mpr ⟨hnbf, hnd⟩
      · intro x hx
        rcases List.mem_cons.mp hx with rfl | h2
        · exact ⟨List.mem_cons_self _ _, hd⟩
        · obtain ⟨h3, h4⟩ := hmem x h2
          have hxnb : x ≠ nb := by
            intro he
            rw [he, dget_dset_self] at h4
            exact Option.noConfusion h4
          rw [dget_dset_ne dist nb x _ hxnb] at h4
          exact ⟨List.mem_cons_of_mem _ h3, h4⟩
      · intro nb2 hnb2
        rcases List.mem_cons.mp hnb2 with rfl | h2
        · rw [hval nb2]
          by_cases hf : nb2 ∈ fresh2
          · rw [if_pos hf]
            rfl
          · rw [if_neg hf, dget_dset_self]
            rfl
        · exact hcov nb2 h2
      · intro x
        rw [hval x]
        by_cases hf : x ∈ fresh2
        · rw [if_pos hf, if_pos (List.mem_cons_of_mem _ hf)]
        · rw [if_neg hf]
          by_cases hxnb : x = nb
          · subst hxnb
            rw [dget_dset_self, if_pos (List.mem_cons_self _ _)]
          · rw [dget_dset_ne dist nb x _ hxnb,
              if_neg (by
                intro hc
                rcases List.mem_cons.mp hc with h3 | h3
                · exact hxnb h3
                · exact hf h3)]
      · have hnbk : nb ∉ dist.map Prod.fst := (dget_eq_none_iff dist nb).mp hd
        rw [hkeys, dset_keys_of_not_mem dist nb (d + 1) hnbk,
          List.append_assoc]
        rfl

/-- The bfs_all_shortest_paths loop invariant: the queue splits into a
block whose stored distance is L followed by a block at L + 1, every
stored distance is the exact shortest edge count from the start, every
node of the dict that has left the queue has all its neighbours in the
dict, and every node within distance L is in the dict. The final dict
then assigns every reachable node its exact distance. -/
theorem bfsAllLoop_spec (g : List (V × List V)) (s : V) :
    ∀ (fuel L : Nat) (dist : List (V × Nat)) (A B : List V),
      (dist.map Prod.fst).Nodup →
      (∀ k ∈ dist.map Prod.fst, k ∈ nodeUniv g s) →
      (∀ z ∈ A ++ B, z ∈ dist.map Prod.fst) →
      (∀ z ∈ A, dget dist z = some L) →
      (∀ z ∈ B, dget dist z = some (L + 1)) →
      (A = [] → B = []) →
      (∀ z d0, dget dist z = some d0 →
        Npath g d0 s z ∧ ∀ m, Npath g m s z → d0 ≤ m) →
      (∀ z ∈ dist.map Prod.fst, z ∉ A ++ B →
        ∀ nb ∈ adjGet g z, nb ∈ dist.map Prod.fst) →
      (∀ u m, Npath g m s u → m ≤ L → u ∈ dist.map Prod.fst) →
      (A ++ B).length + ((nodeUniv g s).length - (dist.map Prod.fst).length)
        < fuel →
      ∀ (v : V) (n : Nat), Npath g n s v →
        ∃ dv, dget (bfsAllLoop g fuel dist (A ++ B)) v = some dv ∧
          Npath g dv s v ∧ ∀ m, Npath g m s v → dv ≤ m := by
  intro fuel
  induction fuel with
  | zero =>
    intro L dist A B _ _ _ _ _ _ _ _ _ hM
    omega
  | succ f ih =>
    intro L dist A B hnd hkU hqk hA hB hAB hexact hproc hE3 hM v n hp
    cases A with
    | nil =>
      have hBnil := hAB rfl
      subst hBnil
      rw [show bfsAllLoop g (f + 1) dist (([] : List V) ++ []) = dist from rfl]
      have hall : ∀ (m : Nat) (u : V), Npath g m s u → u ∈ dist.map Prod.fst := by
        intro m
        induction m with
        | zero =>
          intro u hp2
          have hz := npath_zero g s u hp2
          rw [← hz]
          exact hE3 s 0 (Npath.refl s) (Nat.zero_le L)
        | succ m2 ih2 =>
          intro u hp2
          obtain ⟨y, hy, hedge⟩ := npath_snoc_inv g m2 s u hp2
          exact hproc y (ih2 y hy) (by simp) u hedge
      have hvk := hall n v hp
      obtain ⟨d0, hd0⟩ := Option.isSome_iff_exists.mp ((dget_isSome_iff _ _).mpr hvk)
      obtain ⟨hreal2, hmin2⟩ := hexact v d0 hd0
      exact ⟨d0, hd0, hreal2, hmin2⟩
    | cons x A2 =>
      have hdx : dget dist x = some L := hA x (List.mem_cons_self _ _)
      obtain ⟨dist2, fresh, heq, hfnd, hfmem, hfcov, hfval, hfkeys⟩ :=
        bfsAll_scan_spec L (adjGet g x) dist (A2 ++ B)
      have hstep : bfsAllLoop g (f + 1) dist ((x :: A2) ++ B)
          = bfsAllLoop g f dist2 ((A2 ++ B) ++ fresh) := by
        rw [List.cons_append]
        simp only [bfsAllLoop]
        rw [hdx]
        simp only []
        rw [heq]
      rw [hstep]
      have hxk : x ∈ dist.map Prod.fst :=
        hqk x (by rw [List.cons_append]; exact List.mem_cons_self _ _)
      have hfreshkeys : ∀ z ∈ fresh, z ∉ dist.map Prod.fst := by
        intro z hz
        rw [← dget_eq_none_iff]
        exact (hfmem z hz).2
      have hnd2 : (dist2.map Prod.fst).Nodup := by
        rw [hfkeys]
        exact List.Nodup.append hnd hfnd (fun a ha hb => hfreshkeys a hb ha)
      have hkU2 : ∀ k ∈ dist2.map Prod.fst, k ∈ nodeUniv g s := by
        intro k hk
        rw [hfkeys] at hk
        rcases List.mem_append.mp hk with h2 | h2
        · exact hkU k h2
        · exact adjGet_subset_univ g s x k (hfmem k h2).1
      have hqk2 : ∀ z ∈ (A2 ++ B) ++ fresh, z ∈ dist2.map Prod.fst := by
        intro z hz
        rw [hfkeys]
        rcases List.mem_append.mp hz with h2 | h2
        · refine List.mem_append_left _ (hqk z ?_)
          rw [List.cons_append]
          exact List.mem_cons_of_mem _ h2
        · exact List.mem_append_right _ h2
      have hold : ∀ z, z ∈ dist.map Prod.fst → dget dist2 z = dget dist z := by
        intro z hzk
        rw [hfval z, if_neg (fun hc => hfreshkeys z hc hzk)]
      have hA2val : ∀ z ∈ A2, dget dist2 z = some L := by
        intro z hz
        rw [hold z (hqk z (by
          rw [List.cons_append]
          exact List.mem_cons_of_mem _ (List.mem_append_left _ hz)))]
        exact hA z (List.mem_cons_of_mem _ hz)
      have hBval : ∀ z ∈ B, dget dist2 z = some (L + 1) := by
        intro z hz
        rw [hold z (hqk z (by
          rw [List.cons_append]
          exact List.mem_cons_of_mem _ (List.mem_append_right _ hz)))]
        exact hB z hz
      have hfval2 : ∀ z ∈ fresh, dget dist2 z = some (L + 1) := by
        intro z hz
        rw [hfval z, if_pos hz]
      have hexact2 : ∀ z d0, dget dist2 z = some d0 →
          Npath g d0 s z ∧ ∀ m, Npath g m s z → d0 ≤ m := by
        intro z d0 hd0
        rw [hfval z] at hd0
        by_cases hzf : z ∈ fresh
        · rw [if_pos hzf] at hd0
          have hd0e : d0 = L + 1 := ((Option.some.injEq _ _).mp hd0).symm
          subst hd0e
          obtain ⟨hxreal, hxmin⟩ := hexact x L hdx
          refine ⟨npath_snoc g L s x z hxreal ((hfmem z hzf).1), ?_⟩
          intro m hm
          by_contra hcon
          push_neg at hcon
          have hmL : m ≤ L := by omega
          exact hfreshkeys z hzf (hE3 z m hm hmL)
        · rw [if_neg hzf] at hd0
          exact hexact z d0 hd0
      have hproc2 : ∀ z ∈ dist2.map Prod.fst, z ∉ (A2 ++ B) ++ fresh →
          ∀ nb ∈ adjGet g z, nb ∈ dist2.map Prod.fst := by
        intro z hz hznq nb hnb
        rw [hfkeys] at hz
        rcases List.mem_append.mp hz with h2 | h2
        · by_cases hzx : z = x
          · subst hzx
            have h3 := (dget_isSome_iff dist2 nb).mp (hfcov nb hnb)
            exact h3
          · have hznq0 : z ∉ (x :: A2) ++ B := by
              rw [List.cons_append]
              intro hc
              rcases List.mem_cons.mp hc with h3 | h3
              · exact hzx h3
              · exact hznq (List.mem_append_left _ h3)
            have h4 := hproc z h2 hznq0 nb hnb
            rw [hfkeys]
            exact List.mem_append_left _ h4
        · exact absurd (List.mem_append_right _ h2) hznq
      have hklen : (dist2.map Prod.fst).length
          = (dist.map Prod.fst).length + fresh.length := by
        rw [hfkeys, List.length_append]
      have hkbound : (dist2.map Prod.fst).length ≤ (nodeUniv g s).length :=
        nodup_subset_length_le _ _ hnd2 hkU2
      cases A2 with
      | cons x2 A3 =>
        rw [List.append_assoc]
        refine ih L dist2 (x2 :: A3) (B ++ fresh) hnd2 hkU2
          (fun z hz => hqk2 z (by rw [List.append_assoc]; exact hz))
          hA2val
          (fun z hz => by
            rcases List.mem_append.mp hz with h2 | h2
            · exact hBval z h2
            · exact hfval2 z h2)
          (fun h => absurd h (List.cons_ne_nil _ _))
          hexact2
          (fun z hz hznq nb hnb => hproc2 z hz
            (fun hc => hznq (by rw [← List.append_assoc]; exact hc)) nb hnb)
          (fun u m hm hle => by
            rw [hfkeys]
            exact List.mem_append_left _ (hE3 u m hm hle))
          ?_ v n hp
        simp only [List.length_append, List.length_cons] at hM hkbound ⊢
        omega
      | nil =>
        have hE3n : ∀ u m, Npath g m s u → m ≤ L + 1 →
            u ∈ dist2.map Prod.fst := by
          intro u m hm hle
          by_cases hmL : m ≤ L
          · rw [hfkeys]
            exact List.mem_append_left _ (hE3 u m hm hmL)
          · have hmeq : m = L + 1 := by omega
            subst hmeq
            obtain ⟨y, hy, hedge⟩ := npath_snoc_inv g L s u hm
            have hyk : y ∈ dist.map Prod.fst := hE3 y L hy (le_refl L)
            obtain ⟨dy, hdy⟩ := Option.isSome_iff_exists.mp
              ((dget_isSome_iff _ _).mpr hyk)
            obtain ⟨hyreal, hymin⟩ := hexact y dy hdy
            have hdyL : dy ≤ L := hymin L hy
            have hynq : y ∉ (([] : List V) ++ B) ++ fresh := by
              intro hc
              rcases List.mem_append.mp hc with h2 | h2
              · have h3 : y ∈ B := by simpa using h2
                have h4 := hBval y h3
                rw [hold y hyk, hdy] at h4
                have h5 := (Option.some.injEq _ _).mp h4
                omega
              · exact hfreshkeys y h2 hyk
            have hy2 : y ∈ dist2.map Prod.fst := by
              rw [hfkeys]
              exact List.mem_append_left _ hyk
            exact hproc2 y hy2 hynq u hedge
        rw [List.nil_append,
          show B ++ fresh = (B ++ fresh) ++ [] from (List.append_nil _).symm]
        refine ih (L + 1) dist2 (B ++ fresh) [] hnd2 hkU2
          (fun z hz => hqk2 z (by simpa using hz))
          (fun z hz => by
            rcases List.mem_append.mp hz with h2 | h2
            · exact hBval z h2
            · exact hfval2 z h2)
          (by simp)
          (fun _ => rfl)
          hexact2
          (fun z hz hznq nb hnb => hproc2 z hz
            (fun hc => hznq (by simpa using hc)) nb hnb)
          hE3n
          ?_ v n hp
        simp only [List.length_append, List.length_cons, List.length_nil]
          at hM hkbound ⊢
        omega

/-- C4: on a weighted graph all of whose edges weigh exactly 1, whose
adjacency lists mention only graph nodes, and for any target reachable
from the start in the unweighted view of the graph, dijkstra_algorithm
computes a finite distance that equals the edge-count distance computed
by bfs_all_shortest_paths on the unweighted view. -/
theorem claim_c4_unit_weights [LinearOrder V]
    (g : List (V × List (V × Nat))) (s t : V)
    (hclosed : ∀ p ∈ g, ∀ q ∈ p.2, q.1 ∈ g.map Prod.fst)
    (hunit : ∀ p ∈ g, ∀ q ∈ p.2, q.2 = 1)
    (hreach : Reach (g.map (fun p => (p.1, p.2.map Prod.fst))) s t) :
    ∃ res d, dijkstra_algorithm g s = some res ∧
      dget res.1 t = some (some d) ∧
      dget (bfs_all_shortest_paths
        (g.map (fun p => (p.1, p.2.map Prod.fst))) s) t = some d := by
  obtain ⟨n, hn⟩ := reach_npath _ s t hreach
  have hw : WPath g n s t := wpath_of_npath_unit g hunit n s t hn
  -- the Dijkstra run
  have hbasek : (g.map (fun p => (p.1, (none : Option Nat)))).map Prod.fst
      = g.map Prod.fst := by
    rw [List.map_map]
    rfl
  have hs0 : dget (dset (g.map (fun p => (p.1, (none : Option Nat)))) s
      (some 0)) s = some (some 0) := dget_dset_self _ _ _
  have honly : ∀ (z : V) (d0 : Nat),
      dget (dset (g.map (fun p => (p.1, (none : Option Nat)))) s (some 0)) z
        = some (some d0) → z = s ∧ d0 = 0 := by
    intro z d0 hd0
    by_cases hzs : z = s
    · subst hzs
      rw [hs0] at hd0
      have h1 := (Option.some.injEq _ _).mp hd0
      exact ⟨rfl, ((Option.some.injEq _ _).mp h1).symm⟩
    · exfalso
      rw [dget_dset_ne _ _ _ _ hzs,
        dget_mapVal (fun _ => (none : Option Nat)) g z] at hd0
      cases hdg : dget g z with
      | none => rw [hdg] at hd0; simp at hd0
      | some l => rw [hdg] at hd0; simp at hd0
  obtain ⟨res, hres, hcor⟩ := dijkstraLoop_correct g s hclosed (sumDeg g [] + 2)
    [(0, s)] []
    (dset (g.map (fun p => (p.1, (none : Option Nat)))) s (some 0)) []
    (by
      intro k hk
      apply dset_keys_superset
      rw [hbasek]
      exact hk)
    (by
      intro e he
      rw [List.mem_singleton.mp he]
      exact self_mem_dset_keys _ _ _)
    (by simp)
    (by
      intro z d0 hd0
      obtain ⟨hz, hd⟩ := honly z d0 hd0
      subst hz
      subst hd
      exact WPath.refl z)
    (by
      intro e he
      rw [List.mem_singleton.mp he]
      exact ⟨0, hs0, le_refl 0⟩)
    (by
      intro z hz d0 hd0
      obtain ⟨hzs, hd⟩ := honly z d0 hd0
      subst hzs
      subst hd
      exact List.mem_singleton.mpr rfl)
    (by simp)
    hs0
    (by
      simp only [List.length_singleton]
      omega)
  obtain ⟨dv, hdv, hdvreal, hdvmin⟩ := hcor t n hw
  -- the BFS run on the unweighted view
  have hbfs := bfsAllLoop_spec (g.map (fun p => (p.1, p.2.map Prod.fst))) s
    ((nodeUniv (g.map (fun p => (p.1, p.2.map Prod.fst))) s).length + 2) 0
    [(s, 0)] [s] []
    (by simp)
    (by
      intro k hk
      simp only [List.map_cons, List.map_nil, List.mem_singleton] at hk
      rw [hk]
      exact start_mem_nodeUniv _ s)
    (by
      intro z hz
      simp only [List.append_nil, List.mem_singleton] at hz
      rw [hz]
      simp)
    (by
      intro z hz
      rw [List.mem_singleton.mp hz]
      simp [dget])
    (by simp)
    (fun _ => rfl)
    (by
      intro z d0 hd0
      by_cases hzs : z = s
      · subst hzs
        have hval : dget [(z, 0)] z = some 0 := by simp [dget]
        rw [hval] at hd0
        have hd : 0 = d0 := (Option.some.injEq _ _).mp hd0
        rw [← hd]
        exact ⟨Npath.refl z, fun m _ => Nat.zero_le m⟩
      · have hval : dget [(s, 0)] z = none := by
          rw [dget_cons_ne s 0 [] z (fun h => hzs h.symm)]
          exact dget_nil z
        rw [hval] at hd0
        exact absurd hd0 (by simp))
    (by
      intro z hz hznq
      exfalso
      apply hznq
      simp only [List.map_cons, List.map_nil, List.mem_singleton] at hz
      rw [hz]
      simp)
    (by
      intro u m hm hle
      have hm0 : m = 0 := by omega
      subst hm0
      have := npath_zero _ s u hm
      rw [← this]
      simp)
    (by
      simp only [List.length_append, List.length_cons, List.length_nil]
      omega)
    t n hn
  obtain ⟨db, hdb, hdbreal, hdbmin⟩ := hbfs
  have h1 : dv ≤ db := hdvmin db (wpath_of_npath_unit g hunit db s t hdbreal)
  have h2 : db ≤ dv := hdbmin dv (npath_of_wpath_unit g hunit dv s t hdvreal)
  have hdd : db = dv := by omega
  refine ⟨res, dv, hres, hdv, ?_⟩
  rw [show bfs_all_shortest_paths (g.map (fun p => (p.1, p.2.map Prod.fst))) s
      = bfsAllLoop (g.map (fun p => (p.1, p.2.map Prod.fst)))
        ((nodeUniv (g.map (fun p => (p.1, p.2.map Prod.fst))) s).length + 2)
        [(s, 0)] ([s] ++ []) from rfl]
  rw [hdb]
  exact congrArg some hdd

/-- Witness for C4: on the unit-weight chain 0 → 1 → 2, Dijkstra and BFS
both give node 2 the distance 2. -/
theorem claim_c4_witness :
    ∃ res d, dijkstra_algorithm
        [(0, [(1, 1)]), (1, [(2, 1)]), (2, ([] : List (Nat × Nat)))] 0
        = some res ∧
      dget res.1 2 = some (some d) ∧
      dget (bfs_all_shortest_paths
        ([(0, [(1, 1)]), (1, [(2, 1)]), (2, ([] : List (Nat × Nat)))].map
          (fun p => (p.1, p.2.map Prod.fst))) 0) 2 = some d :=
  claim_c4_unit_weights
    [(0, [(1, 1)]), (1, [(2, 1)]), (2, ([] : List (Nat × Nat)))] 0 2
    (by decide) (by decide)
    (Relation.ReflTransGen.head
      (show edgeStep ([(0, [(1, 1)]), (1, [(2, 1)]),
          (2, ([] : List (Nat × Nat)))].map
        (fun p => (p.1, p.2.map Prod.fst))) 0 1 by decide)
      (Relation.ReflTransGen.head
        (show edgeStep ([(0, [(1, 1)]), (1, [(2, 1)]),
            (2, ([] : List (Nat × Nat)))].map
          (fun p => (p.1, p.2.map Prod.fst))) 1 2 by decide)
        Relation.ReflTransGen.refl))

/-! Connected components (connected_components.py).

find_connected_components_dfs keeps a shared visited set and a list of
finished components; dfs_component(node, current_component) adds the node
to both the visited set and the current component and recurses into every
unvisited neighbour; the outer loop over the dict keys starts a fresh
component at every unvisited key and appends the sorted component.
union_find_components collects every node appearing as a key or a
neighbour, unions the two endpoints of every stored edge, resolves each
node to its root (find, with path compression), groups the nodes by root
in first-visit order, and sorts each group. sorted(...) is modelled by
mergeSort on a linear order. -/

/-- Python sorted(...) on a list of comparable values. -/
def lsort [LinearOrder V] (l : List V) : List V :=
  l.mergeSort (fun a b => decide (a ≤ b))

omit [DecidableEq V] in
theorem lsort_perm [LinearOrder V] (l : List V) : (lsort l).Perm l :=
  List.mergeSort_perm l _

omit [DecidableEq V] in
theorem lsort_sorted [LinearOrder V] (l : List V) : (lsort l).Sorted (· ≤ ·) := by
  have h : List.Pairwise (fun a b : V => decide (a ≤ b) = true)
      (l.mergeSort (fun a b => decide (a ≤ b))) :=
    List.sorted_mergeSort
      (by intro a b c hab hbc; simp only [decide_eq_true_eq] at hab hbc ⊢
          exact le_trans hab hbc)
      (by intro a b; simpa using le_total a b) l
  exact h.imp (by intro a b h2; simpa using h2)

omit [DecidableEq V] in
theorem lsort_eq_of_mem_iff [LinearOrder V] (l1 l2 : List V)
    (h1 : l1.Nodup) (h2 : l2.Nodup) (h : ∀ z, z ∈ l1 ↔ z ∈ l2) :
    lsort l1 = lsort l2 := by
  have hperm : (lsort l1).Perm (lsort l2) := by
    refine ((lsort_perm l1).trans ?_).trans (lsort_perm l2).symm
    exact (List.perm_ext_iff_of_nodup h1 h2).mpr h
  exact List.eq_of_perm_of_sorted hperm (lsort_sorted l1) (lsort_sorted l2)

omit [DecidableEq V] in
theorem lsort_mem [LinearOrder V] (l : List V) (z : V) : z ∈ lsort l ↔ z ∈ l :=
  (lsort_perm l).mem_iff

omit [DecidableEq V] in
theorem lsort_nodup [LinearOrder V] (l : List V) (h : l.Nodup) : (lsort l).Nodup :=
  (lsort_perm l).nodup_iff.mpr h

/-- all_nodes of union_find_components: the dict keys together with every
node appearing in a neighbour list, without duplicates. -/
def allNodes (g : List (V × List V)) : List V :=
  (g.map Prod.fst ++ (g.map Prod.snd).flatten).dedup

theorem allNodes_nodup (g : List (V × List V)) : (allNodes g).Nodup :=
  List.nodup_dedup _

theorem key_mem_allNodes (g : List (V × List V)) (y : V)
    (hy : y ∈ g.map Prod.fst) : y ∈ allNodes g := by
  simp only [allNodes, List.mem_dedup, List.mem_append]
  exact Or.inl hy

theorem adjGet_subset_allNodes (g : List (V × List V)) (y nb : V)
    (h : nb ∈ adjGet g y) : nb ∈ allNodes g := by
  unfold adjGet at h
  cases hd : dget g y with
  | none => rw [hd] at h; simp at h
  | some l =>
    rw [hd] at h
    simp only [Option.getD_some] at h
    have hl : l ∈ g.map Prod.snd := List.mem_map.mpr ⟨(y, l), dget_mem _ _ _ hd, rfl⟩
    simp only [allNodes, List.mem_dedup, List.mem_append]
    exact Or.inr (List.mem_flatten.mpr ⟨l, hl, h⟩)

theorem allNodes_reach_closed (g : List (V × List V)) (x z : V)
    (hx : x ∈ allNodes g) (h : Reach g x z) : z ∈ allNodes g := by
  induction h with
  | refl => exact hx
  | tail hstep hedge ih => exact adjGet_subset_allNodes g _ _ hedge

theorem reach_symm (g : List (V × List V))
    (hsym : ∀ a b, edgeStep g a b → edgeStep g b a) :
    ∀ z w, Reach g z w → Reach g w z := by
  intro z w h
  induction h with
  | refl => exact Relation.ReflTransGen.refl
  | tail hstep hedge ih =>
    exact Relation.ReflTransGen.trans
      (Relation.ReflTransGen.single (hsym _ _ hedge)) ih

/-- Entry-level symmetry of the stored adjacency lists gives full
symmetry of the edge relation. -/
theorem symm_of_entry_symm (g : List (V × List V))
    (hsym : ∀ p ∈ g, ∀ nb ∈ p.2, edgeStep g nb p.1) :
    ∀ a b, edgeStep g a b → edgeStep g b a := by
  intro a b hab
  unfold edgeStep adjGet at hab
  cases hd : dget g a with
  | none => rw [hd] at hab; simp at hab
  | some l =>
    rw [hd] at hab
    simp only [Option.getD_some] at hab
    exact hsym (a, l) (dget_mem g a l hd) b hab

/-- In a symmetric graph every node of allNodes is a dict key: a
neighbour nb of some entry has an edge back to that entry's key, so its
own adjacency lookup must succeed. -/
theorem neighbor_is_key (g : List (V × List V))
    (hsym : ∀ p ∈ g, ∀ nb ∈ p.2, edgeStep g nb p.1) (nb : V)
    (hnb : nb ∈ allNodes g) : nb ∈ g.map Prod.fst := by
  simp only [allNodes, List.mem_dedup, List.mem_append] at hnb
  rcases hnb with h | h
  · exact h
  · obtain ⟨l, hl, hnbl⟩ := List.mem_flatten.mp h
    obtain ⟨p, hp, hpl⟩ := List.mem_map.mp hl
    have hedge := hsym p hp nb (by rw [hpl]; exact hnbl)
    unfold edgeStep adjGet at hedge
    rw [← dget_isSome_iff]
    cases hd : dget g nb with
    | none => rw [hd] at hedge; simp at hedge
    | some l2 => rfl

/-- Each stored entry of a duplicate-free dict yields real edges. -/
theorem entry_edge (g : List (V × List V)) (hnd : (g.map Prod.fst).Nodup)
    (p : V × List V) (hp : p ∈ g) (nb : V) (hnb : nb ∈ p.2) :
    edgeStep g p.1 nb := by
  obtain ⟨a, l⟩ := p
  have hd : dget g a = some l := dget_of_mem_of_nodup g a l hp hnd
  unfold edgeStep adjGet
  rw [hd]
  simpa using hnb

theorem reach_closed_of_edge_closed (g : List (V × List V)) (vis : List V)
    (hcl : ∀ z ∈ vis, ∀ nb ∈ adjGet g z, nb ∈ vis) :
    ∀ z ∈ vis, ∀ w, Reach g z w → w ∈ vis := by
  intro z hz w h
  induction h with
  | refl => exact hz
  | tail hstep hedge ih => exact hcl _ ih _ hedge

/-- dfs_component(node, current_component) from
find_connected_components_dfs: add the node to the shared visited set and
to the current component, then recurse into every unvisited neighbour.
The state pairs the visited set with the component list. -/
def dfs_component (g : List (V × List V)) :
    Nat → V → List V × List V → List V × List V
  | 0, _, st => st
  | fuel + 1, node, st =>
    (adjGet g node).foldl
      (fun st2 nb => if nb ∈ st2.1 then st2 else dfs_component g fuel nb st2)
      (st.1 ++ [node], st.2 ++ [node])

/-- The outer loop of find_connected_components_dfs over the dict keys,
threading the shared visited set and the list of finished components. -/
def dfsCompFold [LinearOrder V] (g : List (V × List V)) :
    List V → List V × List (List V) → List V × List (List V)
  | [], st => st
  | node :: rest, st =>
    if node ∈ st.1 then dfsCompFold g rest st
    else
      dfsCompFold g rest
        ((dfs_component g ((allNodes g).length + 1) node (st.1, [])).1,
         st.2 ++ [lsort (dfs_component g ((allNodes g).length + 1) node (st.1, [])).2])

/-- find_connected_components_dfs(graph): run a DFS from every unvisited
key, collecting one sorted component per run. -/
def find_connected_components_dfs [LinearOrder V] (g : List (V × List V)) :
    List (List V) :=
  (dfsCompFold g (g.map Prod.fst) ([], [])).2

/-- Inner loop of the edge processing of union_find_components: union the
key with each of its neighbours in turn. -/
def unionNbrs (fuel : Nat) (a : V) : List V → UF V → Option (UF V)
  | [], uf => some uf
  | nb :: rest, uf =>
    match UF.union fuel uf a nb with
    | none => none
    | some (uf2, _) => unionNbrs fuel a rest uf2

/-- Outer loop of the edge processing of union_find_components over the
dict entries. -/
def unionEdges (fuel : Nat) : List (V × List V) → UF V → Option (UF V)
  | [], uf => some uf
  | p :: rest, uf =>
    match unionNbrs fuel p.1 p.2 uf with
    | none => none
    | some uf2 => unionEdges fuel rest uf2

/-- Grouping pass of union_find_components: resolve every node to its
root (find keeps compressing the parent map) and append the node to its
root's bucket, new roots entering the map in first-visit order. -/
def groupFold (fuel : Nat) :
    List V → List (V × V) → List (V × List V) →
      Option (List (V × V) × List (V × List V))
  | [], parent, cmap => some (parent, cmap)
  | node :: rest, parent, cmap =>
    match ufFind fuel parent node with
    | none => none
    | some (p2, root) =>
      match dget cmap root with
      | none => groupFold fuel rest p2 (cmap ++ [(root, [node])])
      | some lst => groupFold fuel rest p2 (dset cmap root (lst ++ [node]))

/-- The chain of parent links from a node to its root: RootP P x r holds
when repeatedly following parent links from x reaches the self-parented
node r. -/
inductive RootP (P : List (V × V)) : V → V → Prop
  | self (x : V) : dget P x = some x → RootP P x x
  | step (x p r : V) : dget P x = some p → p ≠ x → RootP P p r → RootP P x r

theorem rootp_isroot (P : List (V × V)) (x r : V) (h : RootP P x r) :
    dget P r = some r := by
  induction h with
  | self y hy => exact hy
  | step y p r2 hp hne hr ih => exact ih

theorem rootp_inv (P : List (V × V)) (x r : V) (h : RootP P x r) :
    (dget P x = some x ∧ r = x) ∨
    (∃ p, dget P x = some p ∧ p ≠ x ∧ RootP P p r) := by
  cases h with
  | self _ h1 => exact Or.inl ⟨h1, rfl⟩
  | step _ p _ h1 h2 h3 => exact Or.inr ⟨p, h1, h2, h3⟩

theorem rootp_unique (P : List (V × V)) (x r1 r2 : V)
    (h1 : RootP P x r1) : RootP P x r2 → r1 = r2 := by
  induction h1 generalizing r2 with
  | self y hy =>
    intro h2
    rcases rootp_inv P y r2 h2 with ⟨h3, h4⟩ | ⟨p, hp, hne, hr⟩
    · exact h4.symm
    · rw [hy] at hp
      injection hp with hpe
      exact absurd hpe.symm hne
  | step y p r1x hp hne hr ih =>
    intro h2
    rcases rootp_inv P y r2 h2 with ⟨h3, h4⟩ | ⟨p2, hp2, hne2, hr2⟩
    · rw [h3] at hp
      injection hp with hpe
      exact absurd hpe.symm hne
    · rw [hp] at hp2
      injection hp2 with hpe
      rw [← hpe] at hr2
      exact ih r2 hr2

/-- Path compression rewrites one node's parent straight to its own
root: this preserves every node's root. -/
theorem rootp_shortcut (P : List (V × V)) (x r : V) (hxr : RootP P x r) :
    ∀ z ρ, RootP (dset P x r) z ρ ↔ RootP P z ρ := by
  have hrfix : dget P r = some r := rootp_isroot P x r hxr
  intro z ρ
  constructor
  · intro h
    induction h with
    | self w hw =>
      by_cases hwx : w = x
      · rw [hwx] at hw ⊢
        rw [dget_dset_self P x r] at hw
        injection hw with hwe
        rw [hwe] at hxr
        exact hxr
      · rw [dget_dset_ne P x w r hwx] at hw
        exact RootP.self w hw
    | step w p ρ2 hp hne hrp ih =>
      by_cases hwx : w = x
      · rw [hwx] at hp ⊢
        rw [dget_dset_self P x r] at hp
        injection hp with hpe
        rw [← hpe] at ih
        have hre : r = ρ2 := rootp_unique P r r ρ2 (RootP.self r hrfix) ih
        rw [← hre]
        exact hxr
      · rw [dget_dset_ne P x w r hwx] at hp
        exact RootP.step w p ρ2 hp hne ih
  · intro h
    induction h with
    | self w hw =>
      by_cases hwx : w = x
      · rw [hwx] at hw ⊢
        have hx0 : RootP P x x := RootP.self x hw
        have hrx : r = x := rootp_unique P x r x hxr hx0
        rw [hrx]
        exact RootP.self x (dget_dset_self P x x)
      · exact RootP.self w (by rw [dget_dset_ne P x w r hwx]; exact hw)
    | step w p ρ2 hp hne hrp ih =>
      by_cases hwx : w = x
      · rw [hwx] at hp hne ⊢
        have hx2 : RootP P x ρ2 := RootP.step x p ρ2 hp hne hrp
        have hre : r = ρ2 := rootp_unique P x r ρ2 hxr hx2
        rw [← hre]
        by_cases hrxx : r = x
        · rw [hrxx]
          exact RootP.self x (dget_dset_self P x x)
        · refine RootP.step x r r (dget_dset_self P x r) hrxx ?_
          exact RootP.self r (by rw [dget_dset_ne P x r r hrxx]; exact hrfix)
      · refine RootP.step w p ρ2 ?_ hne ih
        rw [dget_dset_ne P x w r hwx]
        exact hp

/-- Well-formedness of the parent and rank dicts of the UnionFind: every
parent key has a rank, every parent link stays inside the key set, and a
non-trivial link strictly increases the stored rank. -/
def UFInv (P : List (V × V)) (rk : List (V × Nat)) : Prop :=
  (∀ x, (dget P x).isSome = true → (dget rk x).isSome = true) ∧
  (∀ x p, dget P x = some p →
    (dget P p).isSome = true ∧
    (p ≠ x → ∃ rx rp, dget rk x = some rx ∧ dget rk p = some rp ∧ rx < rp))

/-- Number of rank entries strictly above a given rank value: the
termination measure of find. -/
def rkAbove (rk : List (V × Nat)) (n : Nat) : Nat :=
  (rk.filter (fun q => decide (n < q.2))).length

theorem rkAbove_lt (rk : List (V × Nat)) (p : V) (rx rp : Nat)
    (hp : dget rk p = some rp) (hlt : rx < rp) :
    rkAbove rk rp < rkAbove rk rx := by
  have hsub : (rk.filter (fun q => decide (rp < q.2))).Sublist
      (rk.filter (fun q => decide (rx < q.2))) := by
    apply List.monotone_filter_right
    intro a ha
    simp only [decide_eq_true_eq] at ha ⊢
    omega
  have hmem : (p, rp) ∈ rk.filter (fun q => decide (rx < q.2)) := by
    rw [List.mem_filter]
    exact ⟨dget_mem rk p rp hp, by simpa using hlt⟩
  have hnmem : (p, rp) ∉ rk.filter (fun q => decide (rp < q.2)) := by
    intro hc
    rw [List.mem_filter] at hc
    simp at hc
  have hle := hsub.length_le
  by_contra hcon
  push_neg at hcon
  have heq := hsub.eq_of_length (le_antisymm hle (by unfold rkAbove at hcon; exact hcon))
  rw [heq] at hnmem
  exact hnmem hmem

/-- Full specification of find: under the UnionFind invariant it
terminates, returns the root of the chain from the queried node, and the
path compression it performs preserves every node's root, the key set,
and the invariant; a non-root query has strictly smaller rank than its
root. -/
theorem ufFind_spec (rk : List (V × Nat)) :
    ∀ fuel P x, UFInv P rk → (dget P x).isSome = true →
      (∀ rx, dget rk x = some rx → rkAbove rk rx < fuel) →
      ∃ P2 r, ufFind fuel P x = some (P2, r) ∧
        RootP P x r ∧
        (∀ z ρ, RootP P2 z ρ ↔ RootP P z ρ) ∧
        P2.map Prod.fst = P.map Prod.fst ∧
        UFInv P2 rk ∧
        (∀ rx, dget rk x = some rx → x ≠ r →
          ∃ rr, dget rk r = some rr ∧ rx < rr) := by
  intro fuel
  induction fuel with
  | zero =>
    intro P x hinv hx hfuel
    exfalso
    obtain ⟨rx, hrx⟩ := Option.isSome_iff_exists.mp (hinv.1 x hx)
    exact absurd (hfuel rx hrx) (by omega)
  | succ f ih =>
    intro P x hinv hx hfuel
    obtain ⟨p, hp⟩ := Option.isSome_iff_exists.mp hx
    by_cases hpx : p = x
    · rw [hpx] at hp
      refine ⟨P, x, ?_, RootP.self x hp, fun z ρ => Iff.rfl, rfl, hinv, ?_⟩
      · simp only [ufFind]
        rw [hp]
        simp
      · intro rx hrx hxx
        exact absurd rfl hxx
    · have hfuelp : ∀ rp, dget rk p = some rp → rkAbove rk rp < f := by
        intro rp hrp
        obtain ⟨rx, rp2, hrx, hrp2, hlt⟩ := (hinv.2 x p hp).2 hpx
        rw [hrp2] at hrp
        injection hrp with hrpe
        rw [hrpe] at hrp2 hlt
        have h1 := rkAbove_lt rk p rx rp hrp2 hlt
        have h2 := hfuel rx hrx
        omega
      obtain ⟨P2, r, heq, hroot, hiff, hkeys, hinv2, hrank⟩ :=
        ih P p hinv (hinv.2 x p hp).1 hfuelp
      have hxroot : RootP P x r := RootP.step x p r hp hpx hroot
      have hxtor : ∀ rx, dget rk x = some rx →
          ∃ rr, dget rk r = some rr ∧ rx < rr := by
        intro rx hrx
        obtain ⟨rx2, rp, hrx2, hrp, hlt⟩ := (hinv.2 x p hp).2 hpx
        rw [hrx2] at hrx
        injection hrx with hrxe
        rw [hrxe] at hlt
        by_cases hpr : p = r
        · rw [hpr] at hrp
          exact ⟨rp, hrp, hlt⟩
        · obtain ⟨rr, hrr, hlt2⟩ := hrank rp hrp hpr
          exact ⟨rr, hrr, by omega⟩
      have hxr2 : RootP P2 x r := (hiff x r).mpr hxroot
      have hxmem : x ∈ P2.map Prod.fst := by
        rw [hkeys]
        exact (dget_isSome_iff P x).mp hx
      refine ⟨dset P2 x r, r, ?_, hxroot, ?_, ?_, ?_, ?_⟩
      · simp only [ufFind]
        rw [hp]
        simp only []
        rw [if_neg hpx, heq]
      · intro z ρ
        exact (rootp_shortcut P2 x r hxr2 z ρ).trans (hiff z ρ)
      · rw [dset_keys_of_mem P2 x r hxmem]
        exact hkeys
      · constructor
        · intro z hz
          rw [dget_isSome_iff, dset_keys_of_mem P2 x r hxmem, hkeys,
            ← dget_isSome_iff] at hz
          exact hinv.1 z hz
        · intro z q hq
          by_cases hzx : z = x
          · rw [hzx, dget_dset_self P2 x r] at hq
            injection hq with hqe
            constructor
            · rw [dget_isSome_iff, dset_keys_of_mem P2 x r hxmem, hkeys,
                ← dget_isSome_iff, ← hqe]
              exact Option.isSome_iff_exists.mpr ⟨r, rootp_isroot P x r hxroot⟩
            · intro hqz
              rw [hzx]
              obtain ⟨rx, hrx⟩ := Option.isSome_iff_exists.mp (hinv.1 x hx)
              obtain ⟨rr, hrr, hlt⟩ := hxtor rx hrx
              rw [← hqe]
              exact ⟨rx, rr, hrx, hrr, hlt⟩
          · rw [dget_dset_ne P2 x z r hzx] at hq
            obtain ⟨hq1, hq2⟩ := hinv2.2 z q hq
            refine ⟨?_, hq2⟩
            rw [dget_isSome_iff] at hq1 ⊢
            exact dset_keys_superset P2 x r q hq1
      · intro rx hrx hxr
        exact hxtor rx hrx

/-- Two nodes are equivalent in a UnionFind parent map when they resolve
to the same root. -/
def ER (P : List (V × V)) (a b : V) : Prop :=
  ∃ r, RootP P a r ∧ RootP P b r

theorem er_symm (P : List (V × V)) (a b : V) (h : ER P a b) : ER P b a := by
  obtain ⟨r, h1, h2⟩ := h
  exact ⟨r, h2, h1⟩

theorem er_trans (P : List (V × V)) (a b c : V) (h1 : ER P a b)
    (h2 : ER P b c) : ER P a c := by
  obtain ⟨r1, ha, hb⟩ := h1
  obtain ⟨r2, hb2, hc⟩ := h2
  rw [rootp_unique P b r1 r2 hb hb2] at ha
  exact ⟨r2, ha, hc⟩

/-- Linking the root rootb under the root roota reroutes exactly the
nodes that rooted at rootb and leaves every other node's root alone. -/
theorem rootp_link (P : List (V × V)) (roota rootb : V)
    (h1 : dget P roota = some roota) (h2 : dget P rootb = some rootb)
    (hne : roota ≠ rootb) :
    ∀ z ρ, RootP (dset P rootb roota) z ρ ↔
      ((RootP P z ρ ∧ ρ ≠ rootb) ∨ (RootP P z rootb ∧ ρ = roota)) := by
  intro z ρ
  constructor
  · intro h
    induction h with
    | self w hw =>
      by_cases hwz : w = rootb
      · rw [hwz, dget_dset_self P rootb roota] at hw
        injection hw with hwe
        exact absurd hwe hne
      · rw [dget_dset_ne P rootb w roota hwz] at hw
        exact Or.inl ⟨RootP.self w hw, hwz⟩
    | step w p ρ2 hp hne2 hrp ih =>
      by_cases hwz : w = rootb
      · rw [hwz, dget_dset_self P rootb roota] at hp
        injection hp with hpe
        rw [← hpe] at ih
        rcases ih with ⟨ha, hb⟩ | ⟨ha, hb⟩
        · have he : roota = ρ2 :=
            rootp_unique P roota roota ρ2 (RootP.self roota h1) ha
          refine Or.inr ⟨?_, he.symm⟩
          rw [hwz]
          exact RootP.self rootb h2
        · have he : roota = rootb :=
            rootp_unique P roota roota rootb (RootP.self roota h1) ha
          exact absurd he hne
      · rw [dget_dset_ne P rootb w roota hwz] at hp
        rcases ih with ⟨ha, hb⟩ | ⟨ha, hb⟩
        · exact Or.inl ⟨RootP.step w p ρ2 hp hne2 ha, hb⟩
        · exact Or.inr ⟨RootP.step w p rootb hp hne2 ha, hb⟩
  · intro h
    rcases h with ⟨h, hρ⟩ | ⟨h, hρ⟩
    · have main : ∀ z2 ρ3, RootP P z2 ρ3 → ρ3 ≠ rootb →
          RootP (dset P rootb roota) z2 ρ3 := by
        intro z2 ρ3 hh
        induction hh with
        | self w hw =>
          intro hρ3
          exact RootP.self w
            (by rw [dget_dset_ne P rootb w roota hρ3]; exact hw)
        | step w p ρ4 hp hne2 hrp ih =>
          intro hρ3
          have hwz : w ≠ rootb := by
            intro hc
            rw [hc, h2] at hp
            injection hp with hpe
            rw [hc] at hne2
            exact hne2 hpe.symm
          exact RootP.step w p ρ4
            (by rw [dget_dset_ne P rootb w roota hwz]; exact hp) hne2 (ih hρ3)
      exact main z ρ h hρ
    · rw [hρ]
      have main : ∀ z2 r0, RootP P z2 r0 → r0 = rootb →
          RootP (dset P rootb roota) z2 roota := by
        intro z2 r0 hh
        induction hh with
        | self w hw =>
          intro hwz
          rw [hwz]
          refine RootP.step rootb roota roota (dget_dset_self P rootb roota)
            hne ?_
          exact RootP.self roota
            (by rw [dget_dset_ne P rootb roota roota hne]; exact h1)
        | step w p r0x hp hne2 hrp ih =>
          intro hr0
          have hwz : w ≠ rootb := by
            intro hc
            rw [hc, h2] at hp
            injection hp with hpe
            rw [hc] at hne2
            exact hne2 hpe.symm
          exact RootP.step w p roota
            (by rw [dget_dset_ne P rootb w roota hwz]; exact hp) hne2 (ih hr0)
      exact main z rootb h rfl

/-- Linking a lower-ranked root under a strictly higher-ranked one
preserves the UnionFind invariant without touching the ranks. -/
theorem ufinv_link (P : List (V × V)) (rk : List (V × Nat)) (ra rb : V)
    (rka rkb : Nat) (hinv : UFInv P rk) (hra : dget P ra = some ra)
    (hrb : dget P rb = some rb) (hne : ra ≠ rb)
    (hk1 : dget rk ra = some rka) (hk2 : dget rk rb = some rkb)
    (hlt : rka < rkb) : UFInv (dset P ra rb) rk := by
  have hramem : ra ∈ P.map Prod.fst :=
    (dget_isSome_iff P ra).mp (by rw [hra]; rfl)
  constructor
  · intro z hz
    rw [dget_isSome_iff, dset_keys_of_mem P ra rb hramem,
      ← dget_isSome_iff] at hz
    exact hinv.1 z hz
  · intro z q hq
    by_cases hza : z = ra
    · rw [hza, dget_dset_self P ra rb] at hq
      injection hq with hqe
      constructor
      · rw [← hqe, dget_dset_ne P ra rb rb (Ne.symm hne), hrb]
        rfl
      · intro hqz
        rw [hza, ← hqe]
        exact ⟨rka, rkb, hk1, hk2, hlt⟩
    · rw [dget_dset_ne P ra z rb hza] at hq
      obtain ⟨s1, s2⟩ := hinv.2 z q hq
      refine ⟨?_, s2⟩
      rw [dget_isSome_iff, dset_keys_of_mem P ra rb hramem, ← dget_isSome_iff]
      exact s1

/-- Linking two equal-ranked roots and bumping the surviving root's rank
preserves the UnionFind invariant. -/
theorem ufinv_link_bump (P : List (V × V)) (rk : List (V × Nat)) (ra rb : V)
    (rr : Nat) (hinv : UFInv P rk) (hra : dget P ra = some ra)
    (hrb : dget P rb = some rb) (hne : ra ≠ rb)
    (hk1 : dget rk ra = some rr) (hk2 : dget rk rb = some rr) :
    UFInv (dset P rb ra) (dset rk ra (rr + 1)) := by
  have hrbmem : rb ∈ P.map Prod.fst :=
    (dget_isSome_iff P rb).mp (by rw [hrb]; rfl)
  have hramem : ra ∈ rk.map Prod.fst :=
    (dget_isSome_iff rk ra).mp (by rw [hk1]; rfl)
  constructor
  · intro z hz
    rw [dget_isSome_iff, dset_keys_of_mem P rb ra hrbmem,
      ← dget_isSome_iff] at hz
    have hz2 := hinv.1 z hz
    rw [dget_isSome_iff] at hz2 ⊢
    exact dset_keys_superset rk ra (rr + 1) z hz2
  · intro z q hq
    by_cases hzb : z = rb
    · rw [hzb, dget_dset_self P rb ra] at hq
      injection hq with hqe
      constructor
      · rw [← hqe, dget_dset_ne P rb ra ra hne, hra]
        rfl
      · intro hqz
        refine ⟨rr, rr + 1, ?_, ?_, by omega⟩
        · rw [hzb, dget_dset_ne rk ra rb (rr + 1) (Ne.symm hne)]
          exact hk2
        · rw [← hqe, dget_dset_self rk ra (rr + 1)]
    · rw [dget_dset_ne P rb z ra hzb] at hq
      obtain ⟨s1, s2⟩ := hinv.2 z q hq
      constructor
      · rw [dget_isSome_iff, dset_keys_of_mem P rb ra hrbmem, ← dget_isSome_iff]
        exact s1
      · intro hqz
        obtain ⟨rz, rp, hz1, hp1, hlt1⟩ := s2 hqz
        have hzra : z ≠ ra := by
          intro hc
          rw [hc, hra] at hq
          injection hq with hqe2
          rw [hc] at hqz
          exact hqz hqe2.symm
        by_cases hqra : q = ra
        · have hrpe : rp = rr := by
            rw [hqra] at hp1
            rw [hp1] at hk1
            injection hk1
          refine ⟨rz, rr + 1, ?_, ?_, by omega⟩
          · rw [dget_dset_ne rk ra z (rr + 1) hzra]
            exact hz1
          · rw [hqra, dget_dset_self rk ra (rr + 1)]
        · refine ⟨rz, rp, ?_, ?_, hlt1⟩
          · rw [dget_dset_ne rk ra z (rr + 1) hzra]
            exact hz1
          · rw [dget_dset_ne rk ra q (rr + 1) hqra]
            exact hp1

theorem dget_id_map (nodes : List V) (x : V) :
    dget (nodes.map (fun n => (n, n))) x = if x ∈ nodes then some x else none := by
  induction nodes with
  | nil => simp
  | cons n rest ih =>
    simp only [List.map_cons, dget_cons]
    by_cases h : n = x
    · rw [if_pos h, h]
      simp
    · rw [if_neg h, ih]
      by_cases hx : x ∈ rest
      · rw [if_pos hx, if_pos (List.mem_cons_of_mem n hx)]
      · rw [if_neg hx, if_neg (by
          intro hc
          rcases List.mem_cons.mp hc with hc1 | hc2
          · exact h hc1.symm
          · exact hx hc2)]

theorem dget_const_map (nodes : List V) (c : Nat) (x : V) :
    dget (nodes.map (fun n => (n, c))) x = if x ∈ nodes then some c else none := by
  induction nodes with
  | nil => simp
  | cons n rest ih =>
    simp only [List.map_cons, dget_cons]
    by_cases h : n = x
    · rw [if_pos h, h]
      simp
    · rw [if_neg h, ih]
      by_cases hx : x ∈ rest
      · rw [if_pos hx, if_pos (List.mem_cons_of_mem n hx)]
      · rw [if_neg hx, if_neg (by
          intro hc
          rcases List.mem_cons.mp hc with hc1 | hc2
          · exact h hc1.symm
          · exact hx hc2)]

omit [DecidableEq V] in
theorem keys_id_map (nodes : List V) :
    (nodes.map (fun n => (n, n))).map Prod.fst = nodes := by
  rw [List.map_map]
  have hcomp : (Prod.fst ∘ fun n : V => (n, n)) = id := rfl
  rw [hcomp, List.map_id]

omit [DecidableEq V] in
theorem keys_const_map (nodes : List V) (c : Nat) :
    (nodes.map (fun n => (n, c))).map Prod.fst = nodes := by
  rw [List.map_map]
  have hcomp : (Prod.fst ∘ fun n : V => (n, c)) = id := rfl
  rw [hcomp, List.map_id]

/-- In the freshly initialised parent map every node is its own root. -/
theorem rootp_init (nodes : List V) (z r : V)
    (h : RootP (nodes.map (fun n => (n, n))) z r) : r = z := by
  rcases rootp_inv _ z r h with ⟨h1, h2⟩ | ⟨p, hp, hne, hr⟩
  · exact h2
  · rw [dget_id_map] at hp
    by_cases hz : z ∈ nodes
    · rw [if_pos hz] at hp
      injection hp with hpe
      exact absurd hpe.symm hne
    · rw [if_neg hz] at hp
      cases hp

theorem rootp_init_self (nodes : List V) (z : V) (hz : z ∈ nodes) :
    RootP (nodes.map (fun n => (n, n))) z z :=
  RootP.self z (by rw [dget_id_map, if_pos hz])

theorem ufinv_init (nodes : List V) :
    UFInv (nodes.map (fun n => (n, n))) (nodes.map (fun n => (n, 0))) := by
  constructor
  · intro x hx
    rw [dget_isSome_iff, keys_id_map] at hx
    rw [dget_isSome_iff, keys_const_map]
    exact hx
  · intro x p hp
    rw [dget_id_map] at hp
    by_cases h : x ∈ nodes
    · rw [if_pos h] at hp
      injection hp with hpe
      constructor
      · rw [← hpe, dget_id_map, if_pos h]
        rfl
      · intro hne
        exact absurd hpe.symm hne
    · rw [if_neg h] at hp
      cases hp

/-- Full specification of union: under the invariant it succeeds, keeps
the key sets, preserves established equivalences, makes its two
arguments equivalent, and creates no equivalence beyond the join of the
old relation with the new pair. -/
theorem uf_union_spec (uf : UF V) (a b : V) (fuel : Nat)
    (hinv : UFInv uf.parent uf.rank)
    (ha : (dget uf.parent a).isSome = true)
    (hb : (dget uf.parent b).isSome = true)
    (hfuel : uf.rank.length < fuel) :
    ∃ uf2 succ, UF.union fuel uf a b = some (uf2, succ) ∧
      UFInv uf2.parent uf2.rank ∧
      uf2.parent.map Prod.fst = uf.parent.map Prod.fst ∧
      uf2.rank.map Prod.fst = uf.rank.map Prod.fst ∧
      (∀ z w, ER uf.parent z w → ER uf2.parent z w) ∧
      ER uf2.parent a b ∧
      (∀ z w, ER uf2.parent z w →
        ER uf.parent z w ∨ (ER uf.parent z a ∧ ER uf.parent w b) ∨
        (ER uf.parent z b ∧ ER uf.parent w a)) := by
  obtain ⟨P1, root1, heq1, hroot1, hiff1, hkeys1, hinv1, hrk1⟩ :=
    ufFind_spec uf.rank fuel uf.parent a hinv ha
      (fun rx _ => lt_of_le_of_lt (List.length_filter_le _ _) hfuel)
  have hb1 : (dget P1 b).isSome = true := by
    rw [dget_isSome_iff, hkeys1, ← dget_isSome_iff]
    exact hb
  obtain ⟨P2, root2, heq2, hroot2, hiff2, hkeys2, hinv2, hrk2⟩ :=
    ufFind_spec uf.rank fuel P1 b hinv1 hb1
      (fun rx _ => lt_of_le_of_lt (List.length_filter_le _ _) hfuel)
  have hroota : RootP uf.parent a root1 := hroot1
  have hrootb : RootP uf.parent b root2 := (hiff1 b root2).mp hroot2
  have hiff12 : ∀ z ρ, RootP P2 z ρ ↔ RootP uf.parent z ρ :=
    fun z ρ => (hiff2 z ρ).trans (hiff1 z ρ)
  have hkeys12 : P2.map Prod.fst = uf.parent.map Prod.fst := hkeys2.trans hkeys1
  have hr1P : dget uf.parent root1 = some root1 := rootp_isroot _ _ _ hroota
  have hr2P : dget uf.parent root2 = some root2 := rootp_isroot _ _ _ hrootb
  have hr1P2 : dget P2 root1 = some root1 :=
    rootp_isroot _ _ _ ((hiff12 a root1).mpr hroota)
  have hr2P2 : dget P2 root2 = some root2 :=
    rootp_isroot _ _ _ ((hiff12 b root2).mpr hrootb)
  by_cases hrr : root1 = root2
  · refine ⟨⟨P2, uf.rank, uf.components⟩, false, ?_, hinv2, hkeys12, rfl,
      ?_, ?_, ?_⟩
    · simp only [UF.union]
      rw [heq1]
      simp only []
      rw [heq2]
      simp only []
      rw [if_neg (by intro hcc; exact hcc hrr)]
    · intro z w h
      obtain ⟨r0, hz0, hw0⟩ := h
      exact ⟨r0, (hiff12 z r0).mpr hz0, (hiff12 w r0).mpr hw0⟩
    · refine ⟨root1, (hiff12 a root1).mpr hroota, (hiff12 b root1).mpr ?_⟩
      rw [hrr]
      exact hrootb
    · intro z w h
      left
      obtain ⟨r0, hz0, hw0⟩ := h
      exact ⟨r0, (hiff12 z r0).mp hz0, (hiff12 w r0).mp hw0⟩
  · have hrka : (dget uf.rank root1).isSome = true :=
      hinv.1 root1 (by rw [hr1P]; rfl)
    have hrkb : (dget uf.rank root2).isSome = true :=
      hinv.1 root2 (by rw [hr2P]; rfl)
    obtain ⟨r1v, hr1v⟩ := Option.isSome_iff_exists.mp hrka
    obtain ⟨r2v, hr2v⟩ := Option.isSome_iff_exists.mp hrkb
    have hr1mem : root1 ∈ P2.map Prod.fst := by
      rw [hkeys12]
      exact (dget_isSome_iff _ _).mp (by rw [hr1P]; rfl)
    have hr2mem : root2 ∈ P2.map Prod.fst := by
      rw [hkeys12]
      exact (dget_isSome_iff _ _).mp (by rw [hr2P]; rfl)
    -- facts about linking root1 under root2 (the rank root1 < rank root2 case)
    have hlinkA := rootp_link P2 root2 root1 hr2P2 hr1P2 (fun h => hrr h.symm)
    have hmnA : ∀ z w, ER uf.parent z w → ER (dset P2 root1 root2) z w := by
      intro z w h
      obtain ⟨r0, hz0, hw0⟩ := h
      have hz2 := (hiff12 z r0).mpr hz0
      have hw2 := (hiff12 w r0).mpr hw0
      by_cases hr0 : r0 = root1
      · rw [hr0] at hz2 hw2
        exact ⟨root2, (hlinkA z root2).mpr (Or.inr ⟨hz2, rfl⟩),
          (hlinkA w root2).mpr (Or.inr ⟨hw2, rfl⟩)⟩
      · exact ⟨r0, (hlinkA z r0).mpr (Or.inl ⟨hz2, hr0⟩),
          (hlinkA w r0).mpr (Or.inl ⟨hw2, hr0⟩)⟩
    have habA : ER (dset P2 root1 root2) a b := by
      refine ⟨root2, (hlinkA a root2).mpr (Or.inr ⟨(hiff12 a root1).mpr hroota, rfl⟩),
        (hlinkA b root2).mpr (Or.inl ⟨(hiff12 b root2).mpr hrootb, fun h => hrr h.symm⟩)⟩
    have hsdA : ∀ z w, ER (dset P2 root1 root2) z w →
        ER uf.parent z w ∨ (ER uf.parent z a ∧ ER uf.parent w b) ∨
        (ER uf.parent z b ∧ ER uf.parent w a) := by
      intro z w h
      obtain ⟨r0, hz0, hw0⟩ := h
      rcases (hlinkA z r0).mp hz0 with ⟨hz2, hzne⟩ | ⟨hz2, hze⟩ <;>
        rcases (hlinkA w r0).mp hw0 with ⟨hw2, hwne⟩ | ⟨hw2, hwe⟩
      · exact Or.inl ⟨r0, (hiff12 z r0).mp hz2, (hiff12 w r0).mp hw2⟩
      · rw [hwe] at hz2
        refine Or.inr (Or.inr ⟨⟨root2, (hiff12 z root2).mp hz2, hrootb⟩,
          ⟨root1, (hiff12 w root1).mp hw2, hroota⟩⟩)
      · rw [hze] at hw2
        refine Or.inr (Or.inl ⟨⟨root1, (hiff12 z root1).mp hz2, hroota⟩,
          ⟨root2, (hiff12 w root2).mp hw2, hrootb⟩⟩)
      · exact Or.inl ⟨root1, (hiff12 z root1).mp hz2, (hiff12 w root1).mp hw2⟩
    -- facts about linking root2 under root1 (the other two rank cases)
    have hlinkB := rootp_link P2 root1 root2 hr1P2 hr2P2 hrr
    have hmnB : ∀ z w, ER uf.parent z w → ER (dset P2 root2 root1) z w := by
      intro z w h
      obtain ⟨r0, hz0, hw0⟩ := h
      have hz2 := (hiff12 z r0).mpr hz0
      have hw2 := (hiff12 w r0).mpr hw0
      by_cases hr0 : r0 = root2
      · rw [hr0] at hz2 hw2
        exact ⟨root1, (hlinkB z root1).mpr (Or.inr ⟨hz2, rfl⟩),
          (hlinkB w root1).mpr (Or.inr ⟨hw2, rfl⟩)⟩
      · exact ⟨r0, (hlinkB z r0).mpr (Or.inl ⟨hz2, hr0⟩),
          (hlinkB w r0).mpr (Or.inl ⟨hw2, hr0⟩)⟩
    have habB : ER (dset P2 root2 root1) a b := by
      refine ⟨root1, (hlinkB a root1).mpr (Or.inl ⟨(hiff12 a root1).mpr hroota, hrr⟩),
        (hlinkB b root1).mpr (Or.inr ⟨(hiff12 b root2).mpr hrootb, rfl⟩)⟩
    have hsdB : ∀ z w, ER (dset P2 root2 root1) z w →
        ER uf.parent z w ∨ (ER uf.parent z a ∧ ER uf.parent w b) ∨
        (ER uf.parent z b ∧ ER uf.parent w a) := by
      intro z w h
      obtain ⟨r0, hz0, hw0⟩ := h
      rcases (hlinkB z r0).mp hz0 with ⟨hz2, hzne⟩ | ⟨hz2, hze⟩ <;>
        rcases (hlinkB w r0).mp hw0 with ⟨hw2, hwne⟩ | ⟨hw2, hwe⟩
      · exact Or.inl ⟨r0, (hiff12 z r0).mp hz2, (hiff12 w r0).mp hw2⟩
      · rw [hwe] at hz2
        refine Or.inr (Or.inl ⟨⟨root1, (hiff12 z root1).mp hz2, hroota⟩,
          ⟨root2, (hiff12 w root2).mp hw2, hrootb⟩⟩)
      · rw [hze] at hw2
        refine Or.inr (Or.inr ⟨⟨root2, (hiff12 z root2).mp hz2, hrootb⟩,
          ⟨root1, (hiff12 w root1).mp hw2, hroota⟩⟩)
      · exact Or.inl ⟨root2, (hiff12 z root2).mp hz2, (hiff12 w root2).mp hw2⟩
    rcases Nat.lt_trichotomy r1v r2v with hcmp | hcmp | hcmp
    · refine ⟨⟨dset P2 root1 root2, uf.rank, uf.components - 1⟩, true, ?_,
        ?_, ?_, rfl, hmnA, habA, hsdA⟩
      · simp only [UF.union]
        rw [heq1]
        simp only []
        rw [heq2]
        simp only []
        rw [if_pos hrr, hr1v, hr2v]
        simp only []
        rw [if_pos hcmp]
      · exact ufinv_link P2 uf.rank root1 root2 r1v r2v hinv2 hr1P2 hr2P2
          hrr hr1v hr2v hcmp
      · rw [show (⟨dset P2 root1 root2, uf.rank, uf.components - 1⟩ : UF V).parent
            = dset P2 root1 root2 from rfl]
        rw [dset_keys_of_mem P2 root1 root2 hr1mem]
        exact hkeys12
    · -- equal ranks: link root2 under root1 and bump root1's rank
      refine ⟨⟨dset P2 root2 root1, dset uf.rank root1 (r1v + 1),
          uf.components - 1⟩, true, ?_, ?_, ?_, ?_, hmnB, habB, hsdB⟩
      · simp only [UF.union]
        rw [heq1]
        simp only []
        rw [heq2]
        simp only []
        rw [if_pos hrr, hr1v, hr2v]
        simp only []
        rw [if_neg (by omega), if_neg (by omega)]
      · refine ufinv_link_bump P2 uf.rank root1 root2 r1v hinv2 hr1P2 hr2P2
          hrr hr1v ?_
        rw [hr2v, hcmp]
      · rw [show (⟨dset P2 root2 root1, dset uf.rank root1 (r1v + 1),
            uf.components - 1⟩ : UF V).parent = dset P2 root2 root1 from rfl]
        rw [dset_keys_of_mem P2 root2 root1 hr2mem]
        exact hkeys12
      · rw [show (⟨dset P2 root2 root1, dset uf.rank root1 (r1v + 1),
            uf.components - 1⟩ : UF V).rank = dset uf.rank root1 (r1v + 1) from rfl]
        exact dset_keys_of_mem uf.rank root1 (r1v + 1)
          ((dget_isSome_iff _ _).mp (by rw [hr1v]; rfl))
    · refine ⟨⟨dset P2 root2 root1, uf.rank, uf.components - 1⟩, true, ?_,
        ?_, ?_, rfl, hmnB, habB, hsdB⟩
      · simp only [UF.union]
        rw [heq1]
        simp only []
        rw [heq2]
        simp only []
        rw [if_pos hrr, hr1v, hr2v]
        simp only []
        rw [if_neg (by omega), if_pos hcmp]
      · exact ufinv_link P2 uf.rank root2 root1 r2v r1v hinv2 hr2P2 hr1P2
          (Ne.symm hrr) hr2v hr1v hcmp
      · rw [show (⟨dset P2 root2 root1, uf.rank, uf.components - 1⟩ : UF V).parent
            = dset P2 root2 root1 from rfl]
        rw [dset_keys_of_mem P2 root2 root1 hr2mem]
        exact hkeys12

theorem er_init (nodes : List V) (z w : V)
    (h : ER (nodes.map (fun n => (n, n))) z w) : z = w := by
  obtain ⟨r, h1, h2⟩ := h
  exact (rootp_init nodes z r h1).symm.trans (rootp_init nodes w r h2)

/-- Every node with a parent entry is equivalent to itself (its chain
terminates in a root). -/
theorem er_refl_of_inv (P : List (V × V)) (rk : List (V × Nat))
    (hinv : UFInv P rk) (z : V) (hz : (dget P z).isSome = true) : ER P z z := by
  obtain ⟨P2, r, heq, hroot, _⟩ := ufFind_spec rk (rk.length + 1) P z hinv hz
    (fun rx _ => Nat.lt_succ_of_le (List.length_filter_le _ _))
  exact ⟨r, hroot, hroot⟩

/-- Processing one key's neighbour list: the unions succeed, make the key
equivalent to each neighbour, and never create an equivalence between
unreachable nodes. -/
theorem unionNbrs_spec (g : List (V × List V))
    (hsymR : ∀ z w, Reach g z w → Reach g w z) (a : V) :
    ∀ (l : List V) (uf : UF V) (fuel : Nat),
      UFInv uf.parent uf.rank →
      (dget uf.parent a).isSome = true →
      (∀ nb ∈ l, (dget uf.parent nb).isSome = true) →
      uf.rank.length < fuel →
      (∀ nb ∈ l, edgeStep g a nb) →
      (∀ z w, ER uf.parent z w → Reach g z w) →
      ∃ uf2, unionNbrs fuel a l uf = some uf2 ∧
        UFInv uf2.parent uf2.rank ∧
        uf2.parent.map Prod.fst = uf.parent.map Prod.fst ∧
        uf2.rank.map Prod.fst = uf.rank.map Prod.fst ∧
        (∀ z w, ER uf.parent z w → ER uf2.parent z w) ∧
        (∀ nb ∈ l, ER uf2.parent a nb) ∧
        (∀ z w, ER uf2.parent z w → Reach g z w) := by
  intro l
  induction l with
  | nil =>
    intro uf fuel hinv ha hl hfuel hedges hsound
    exact ⟨uf, rfl, hinv, rfl, rfl, fun z w h => h, by simp, hsound⟩
  | cons nb rest ih =>
    intro uf fuel hinv ha hl hfuel hedges hsound
    obtain ⟨uf1, succ, heq, hinv1, hpk, hrk, hmn, hab, hsd⟩ :=
      uf_union_spec uf a nb fuel hinv ha (hl nb (List.mem_cons_self _ _)) hfuel
    have redge : Reach g a nb :=
      Relation.ReflTransGen.single (hedges nb (List.mem_cons_self _ _))
    have hsound1 : ∀ z w, ER uf1.parent z w → Reach g z w := by
      intro z w h
      rcases hsd z w h with h0 | ⟨h1, h2⟩ | ⟨h1, h2⟩
      · exact hsound z w h0
      · exact Relation.ReflTransGen.trans (hsound z a h1)
          (Relation.ReflTransGen.trans redge (hsymR w nb (hsound w nb h2)))
      · exact Relation.ReflTransGen.trans (hsound z nb h1)
          (Relation.ReflTransGen.trans (hsymR a nb redge)
            (hsymR w a (hsound w a h2)))
    have hrklen : uf1.rank.length = uf.rank.length := by
      have h1 := congrArg List.length hrk
      simpa using h1
    obtain ⟨uf2, heq2, hinv2, hpk2, hrk2, hmn2, hrest, hsound2⟩ :=
      ih uf1 fuel hinv1
        (by rw [dget_isSome_iff, hpk, ← dget_isSome_iff]; exact ha)
        (fun q hq => by
          rw [dget_isSome_iff, hpk, ← dget_isSome_iff]
          exact hl q (List.mem_cons_of_mem _ hq))
        (by rw [hrklen]; exact hfuel)
        (fun q hq => hedges q (List.mem_cons_of_mem _ hq))
        hsound1
    refine ⟨uf2, ?_, hinv2, hpk2.trans hpk, hrk2.trans hrk,
      fun z w h => hmn2 z w (hmn z w h), ?_, hsound2⟩
    · simp only [unionNbrs]
      rw [heq]
      exact heq2
    · intro q hq
      rcases List.mem_cons.mp hq with rfl | hq2
      · exact hmn2 a q (hab)
      · exact hrest q hq2

/-- Processing every edge of the dict: the unions succeed, the key sets
are untouched, every stored edge's endpoints end up equivalent, and the
final equivalence stays inside reachability. -/
theorem unionEdges_spec (g : List (V × List V))
    (hsymR : ∀ z w, Reach g z w → Reach g w z) :
    ∀ (es : List (V × List V)) (uf : UF V) (fuel : Nat),
      UFInv uf.parent uf.rank →
      (∀ p ∈ es, (dget uf.parent p.1).isSome = true ∧
        ∀ nb ∈ p.2, (dget uf.parent nb).isSome = true) →
      (∀ p ∈ es, ∀ nb ∈ p.2, edgeStep g p.1 nb) →
      (∀ z w, ER uf.parent z w → Reach g z w) →
      uf.rank.length < fuel →
      ∃ uf2, unionEdges fuel es uf = some uf2 ∧
        UFInv uf2.parent uf2.rank ∧
        uf2.parent.map Prod.fst = uf.parent.map Prod.fst ∧
        uf2.rank.map Prod.fst = uf.rank.map Prod.fst ∧
        (∀ z w, ER uf.parent z w → ER uf2.parent z w) ∧
        (∀ p ∈ es, ∀ nb ∈ p.2, ER uf2.parent p.1 nb) ∧
        (∀ z w, ER uf2.parent z w → Reach g z w) := by
  intro es
  induction es with
  | nil =>
    intro uf fuel hinv hpres hedges hsound hfuel
    exact ⟨uf, rfl, hinv, rfl, rfl, fun z w h => h, by simp, hsound⟩
  | cons p rest ih =>
    intro uf fuel hinv hpres hedges hsound hfuel
    obtain ⟨uf1, heq1, hinv1, hpk1, hrk1, hmn1, hnb1, hsound1⟩ :=
      unionNbrs_spec g hsymR p.1 p.2 uf fuel hinv
        (hpres p (List.mem_cons_self _ _)).1
        (fun nb hnb => (hpres p (List.mem_cons_self _ _)).2 nb hnb) hfuel
        (fun nb hnb => hedges p (List.mem_cons_self _ _) nb hnb) hsound
    have hrklen : uf1.rank.length = uf.rank.length := by
      have h1 := congrArg List.length hrk1
      simpa using h1
    obtain ⟨uf2, heq2, hinv2, hpk2, hrk2, hmn2, hest2, hsound2⟩ :=
      ih uf1 fuel hinv1
        (fun q hq => ⟨by
            rw [dget_isSome_iff, hpk1, ← dget_isSome_iff]
            exact (hpres q (List.mem_cons_of_mem _ hq)).1,
          fun nb hnb => by
            rw [dget_isSome_iff, hpk1, ← dget_isSome_iff]
            exact (hpres q (List.mem_cons_of_mem _ hq)).2 nb hnb⟩)
        (fun q hq nb hnb => hedges q (List.mem_cons_of_mem _ hq) nb hnb)
        hsound1
        (by rw [hrklen]; exact hfuel)
    refine ⟨uf2, ?_, hinv2, hpk2.trans hpk1, hrk2.trans hrk1,
      fun z w h => hmn2 z w (hmn1 z w h), ?_, hsound2⟩
    · simp only [unionEdges]
      rw [heq1]
      exact heq2
    · intro q hq nb hnb
      rcases List.mem_cons.mp hq with rfl | hq2
      · exact hmn2 q.1 nb (hnb1 nb hnb)
      · exact hest2 q hq2 nb hnb

/-- Once every stored edge has equivalent endpoints, reachability
implies equivalence. -/
theorem reach_er_final (g : List (V × List V)) (P : List (V × V))
    (hedges : ∀ p ∈ g, ∀ nb ∈ p.2, ER P p.1 nb)
    (hrefl : ∀ z, z ∈ allNodes g → ER P z z) :
    ∀ z w, z ∈ allNodes g → Reach g z w → ER P z w := by
  intro z w hz h
  induction h with
  | refl => exact hrefl z hz
  | tail hstep hedge ih =>
    rename_i b c
    have hb : ER P b c := by
      unfold edgeStep adjGet at hedge
      cases hd : dget g b with
      | none => rw [hd] at hedge; simp at hedge
      | some l =>
        rw [hd] at hedge
        simp only [Option.getD_some] at hedge
        exact hedges (b, l) (dget_mem g b l hd) c hedge
    exact er_trans P z b c ih hb

theorem dset_eq_append_of_not_mem (m : List (V × α)) (x : V) (v : α)
    (hx : x ∉ m.map Prod.fst) : dset m x v = m ++ [(x, v)] := by
  induction m with
  | nil => simp [dset]
  | cons p rest ih =>
    obtain ⟨k, w⟩ := p
    simp only [List.map_cons, List.mem_cons] at hx
    push_neg at hx
    simp only [dset]
    rw [if_neg (fun h => hx.1 h.symm)]
    simp [ih hx.2]

/-- The grouping pass: every find succeeds, and the final map extends
the incoming one with exactly the processed nodes, each appended to the
bucket of its root in the original parent map. -/
theorem groupFold_spec (rk : List (V × Nat)) (P0 : List (V × V)) :
    ∀ (ns : List V) (P : List (V × V)) (cmap : List (V × List V)) (fuel : Nat),
      UFInv P rk →
      (∀ z ρ, RootP P z ρ ↔ RootP P0 z ρ) →
      (∀ z ∈ ns, (dget P z).isSome = true) →
      rk.length < fuel →
      ns.Nodup →
      (cmap.map Prod.fst).Nodup →
      (∀ rt lst, dget cmap rt = some lst → ∀ z ∈ lst, RootP P0 z rt) →
      (∀ rt lst, dget cmap rt = some lst → lst.Nodup) →
      (∀ rt lst, dget cmap rt = some lst → ∀ z ∈ lst, z ∉ ns) →
      (∀ rt, (dget cmap rt).isSome = true → dget P0 rt = some rt) →
      ∃ P2 cmap2, groupFold fuel ns P cmap = some (P2, cmap2) ∧
        (cmap2.map Prod.fst).Nodup ∧
        (∀ rt, (dget cmap rt).isSome = true → (dget cmap2 rt).isSome = true) ∧
        (∀ rt, (dget cmap2 rt).isSome = true → dget P0 rt = some rt) ∧
        (∀ rt lst2, dget cmap2 rt = some lst2 →
          lst2.Nodup ∧
          (∀ z, z ∈ lst2 ↔
            (∃ lst1, dget cmap rt = some lst1 ∧ z ∈ lst1) ∨
            (z ∈ ns ∧ RootP P0 z rt))) ∧
        (∀ z ∈ ns, ∃ rt, RootP P0 z rt ∧ (dget cmap2 rt).isSome = true) := by
  intro ns
  induction ns with
  | nil =>
    intro P cmap fuel hinv hiffP hns hfuel hnsnd hknd hroots hnodups hdisj hrootk
    refine ⟨P, cmap, rfl, hknd, fun rt h => h, hrootk, ?_, by simp⟩
    intro rt lst2 h2
    refine ⟨hnodups rt lst2 h2, ?_⟩
    intro z
    constructor
    · intro hz
      exact Or.inl ⟨lst2, h2, hz⟩
    · intro hz
      rcases hz with ⟨lst1, h1, hz1⟩ | ⟨hz1, _⟩
      · rw [h1] at h2
        injection h2 with he
        rw [← he]
        exact hz1
      · simp at hz1
  | cons node rest ih =>
    intro P cmap fuel hinv hiffP hns hfuel hnsnd hknd hroots hnodups hdisj hrootk
    obtain ⟨Pf, rt0, hfeq, hroot, hiff, hkeysf, hinvf, _⟩ :=
      ufFind_spec rk fuel P node hinv (hns node (List.mem_cons_self _ _))
        (fun rx _ => lt_of_le_of_lt (List.length_filter_le _ _) hfuel)
    have hiffPf : ∀ z ρ, RootP Pf z ρ ↔ RootP P0 z ρ :=
      fun z ρ => (hiff z ρ).trans (hiffP z ρ)
    have hroot0 : RootP P0 node rt0 := (hiffP node rt0).mp hroot
    have hrt0fix : dget P0 rt0 = some rt0 := rootp_isroot _ _ _ hroot0
    have hnodenin : node ∉ rest := (List.nodup_cons.mp hnsnd).1
    have hrestnd : rest.Nodup := (List.nodup_cons.mp hnsnd).2
    have hmain : ∀ (lst0 : List V),
        (dget cmap rt0 = some lst0 ∨ (dget cmap rt0 = none ∧ lst0 = [])) →
        ∃ P2 cmap2,
          groupFold fuel rest Pf (dset cmap rt0 (lst0 ++ [node]))
            = some (P2, cmap2) ∧
          (cmap2.map Prod.fst).Nodup ∧
          (∀ rt, (dget cmap rt).isSome = true → (dget cmap2 rt).isSome = true) ∧
          (∀ rt, (dget cmap2 rt).isSome = true → dget P0 rt = some rt) ∧
          (∀ rt lst2, dget cmap2 rt = some lst2 →
            lst2.Nodup ∧
            (∀ z, z ∈ lst2 ↔
              (∃ lst1, dget cmap rt = some lst1 ∧ z ∈ lst1) ∨
              (z ∈ node :: rest ∧ RootP P0 z rt))) ∧
          (∀ z ∈ node :: rest, ∃ rt, RootP P0 z rt ∧
            (dget cmap2 rt).isSome = true) := by
      intro lst0 hc
      have hlst0root : ∀ z ∈ lst0, RootP P0 z rt0 := by
        rcases hc with hc | ⟨_, hc⟩
        · exact hroots rt0 lst0 hc
        · rw [hc]; simp
      have hlst0nd : lst0.Nodup := by
        rcases hc with hc | ⟨_, hc⟩
        · exact hnodups rt0 lst0 hc
        · rw [hc]; exact List.nodup_nil
      have hlst0dis : ∀ z ∈ lst0, z ∉ (node :: rest) := by
        rcases hc with hc | ⟨_, hc⟩
        · exact hdisj rt0 lst0 hc
        · rw [hc]; simp
      have hknd1 : ((dset cmap rt0 (lst0 ++ [node])).map Prod.fst).Nodup := by
        rcases hc with hc | ⟨hc, _⟩
        · rw [dset_keys_of_mem cmap rt0 _
            ((dget_isSome_iff _ _).mp (by rw [hc]; rfl))]
          exact hknd
        · rw [dset_keys_of_not_mem cmap rt0 _ ((dget_eq_none_iff _ _).mp hc)]
          rw [List.nodup_append]
          refine ⟨hknd, List.nodup_singleton _, ?_⟩
          intro q hq hq2
          simp only [List.mem_singleton] at hq2
          rw [hq2] at hq
          exact (dget_eq_none_iff _ _).mp hc hq
      have hget1_self : dget (dset cmap rt0 (lst0 ++ [node])) rt0
          = some (lst0 ++ [node]) := dget_dset_self cmap rt0 _
      have hget1_ne : ∀ rt, rt ≠ rt0 →
          dget (dset cmap rt0 (lst0 ++ [node])) rt = dget cmap rt :=
        fun rt hrt => dget_dset_ne cmap rt0 rt _ hrt
      have hroots1 : ∀ rt lst,
          dget (dset cmap rt0 (lst0 ++ [node])) rt = some lst →
          ∀ z ∈ lst, RootP P0 z rt := by
        intro rt lst hl z hzl
        by_cases hrt : rt = rt0
        · rw [hrt, hget1_self] at hl
          injection hl with he
          rw [← he] at hzl
          rw [hrt]
          rcases List.mem_append.mp hzl with hz3 | hz3
          · exact hlst0root z hz3
          · have hze : z = node := by simpa using hz3
            rw [hze]
            exact hroot0
        · rw [hget1_ne rt hrt] at hl
          exact hroots rt lst hl z hzl
      have hnodups1 : ∀ rt lst,
          dget (dset cmap rt0 (lst0 ++ [node])) rt = some lst → lst.Nodup := by
        intro rt lst hl
        by_cases hrt : rt = rt0
        · rw [hrt, hget1_self] at hl
          injection hl with he
          rw [← he]
          rw [List.nodup_append]
          refine ⟨hlst0nd, List.nodup_singleton _, ?_⟩
          intro q hq hq2
          simp only [List.mem_singleton] at hq2
          rw [hq2] at hq
          exact hlst0dis node hq (List.mem_cons_self _ _)
        · rw [hget1_ne rt hrt] at hl
          exact hnodups rt lst hl
      have hdisj1 : ∀ rt lst,
          dget (dset cmap rt0 (lst0 ++ [node])) rt = some lst →
          ∀ z ∈ lst, z ∉ rest := by
        intro rt lst hl z hzl
        by_cases hrt : rt = rt0
        · rw [hrt, hget1_self] at hl
          injection hl with he
          rw [← he] at hzl
          rcases List.mem_append.mp hzl with hz3 | hz3
          · intro hzr
            exact hlst0dis z hz3 (List.mem_cons_of_mem _ hzr)
          · have hze : z = node := by simpa using hz3
            rw [hze]
            exact hnodenin
        · rw [hget1_ne rt hrt] at hl
          intro hzr
          exact hdisj rt lst hl z hzl (List.mem_cons_of_mem _ hzr)
      have hrootk1 : ∀ rt,
          (dget (dset cmap rt0 (lst0 ++ [node])) rt).isSome = true →
          dget P0 rt = some rt := by
        intro rt h
        by_cases hrt : rt = rt0
        · rw [hrt]
          exact hrt0fix
        · rw [hget1_ne rt hrt] at h
          exact hrootk rt h
      obtain ⟨P2, cmap2, hgeq, iknd, imono, irootk, ichar, icov⟩ :=
        ih Pf (dset cmap rt0 (lst0 ++ [node])) fuel hinvf hiffPf
          (fun z hz => by
            rw [dget_isSome_iff, hkeysf, ← dget_isSome_iff]
            exact hns z (List.mem_cons_of_mem _ hz))
          hfuel hrestnd hknd1 hroots1 hnodups1 hdisj1 hrootk1
      refine ⟨P2, cmap2, hgeq, iknd, ?_, irootk, ?_, ?_⟩
      · intro rt h
        apply imono rt
        by_cases hrt : rt = rt0
        · rw [hrt, hget1_self]
          rfl
        · rw [hget1_ne rt hrt]
          exact h
      · intro rt lst2 h2
        obtain ⟨ind, iiff⟩ := ichar rt lst2 h2
        refine ⟨ind, ?_⟩
        intro z
        rw [iiff z]
        by_cases hrt : rt = rt0
        · subst hrt
          constructor
          · intro hz
            rcases hz with ⟨lst1, h1, hz1⟩ | ⟨hz1, hz2⟩
            · rw [hget1_self] at h1
              injection h1 with he
              rw [← he] at hz1
              rcases List.mem_append.mp hz1 with hz3 | hz3
              · rcases hc with hcs | ⟨hcn, hl0⟩
                · exact Or.inl ⟨lst0, hcs, hz3⟩
                · rw [hl0] at hz3
                  simp at hz3
              · have hz4 : z = node := by simpa using hz3
                exact Or.inr ⟨by rw [hz4]; exact List.mem_cons_self _ _,
                  by rw [hz4]; exact hroot0⟩
            · exact Or.inr ⟨List.mem_cons_of_mem _ hz1, hz2⟩
          · intro hz
            rcases hz with ⟨lst1, h1, hz1⟩ | ⟨hz1, hz2⟩
            · rcases hc with hcs | ⟨hcn, _⟩
              · rw [hcs] at h1
                injection h1 with he
                rw [← he] at hz1
                exact Or.inl ⟨lst0 ++ [node], hget1_self,
                  List.mem_append.mpr (Or.inl hz1)⟩
              · rw [hcn] at h1
                cases h1
            · rcases List.mem_cons.mp hz1 with hze | hz3
              · exact Or.inl ⟨lst0 ++ [node], hget1_self,
                  List.mem_append.mpr (Or.inr (by rw [hze]; simp))⟩
              · exact Or.inr ⟨hz3, hz2⟩
        · constructor
          · intro hz
            rcases hz with ⟨lst1, h1, hz1⟩ | ⟨hz1, hz2⟩
            · rw [hget1_ne rt hrt] at h1
              exact Or.inl ⟨lst1, h1, hz1⟩
            · exact Or.inr ⟨List.mem_cons_of_mem _ hz1, hz2⟩
          · intro hz
            rcases hz with ⟨lst1, h1, hz1⟩ | ⟨hz1, hz2⟩
            · exact Or.inl ⟨lst1, by rw [hget1_ne rt hrt]; exact h1, hz1⟩
            · rcases List.mem_cons.mp hz1 with hze | hz3
              · rw [hze] at hz2
                exact absurd (rootp_unique P0 node rt rt0 hz2 hroot0) hrt
              · exact Or.inr ⟨hz3, hz2⟩
      · intro z hz
        rcases List.mem_cons.mp hz with hze | hz2
        · exact ⟨rt0, by rw [hze]; exact hroot0,
            imono rt0 (by rw [hget1_self]; rfl)⟩
        · exact icov z hz2
    cases hcm : dget cmap rt0 with
    | none =>
      obtain ⟨P2, cmap2, hgeq, c2, c3, c4, c5, c6⟩ := hmain [] (Or.inr ⟨hcm, rfl⟩)
      refine ⟨P2, cmap2, ?_, c2, c3, c4, c5, c6⟩
      simp only [groupFold]
      rw [hfeq]
      simp only []
      rw [hcm]
      simp only []
      rw [show cmap ++ [(rt0, [node])] = dset cmap rt0 ([] ++ [node]) from
        (dset_eq_append_of_not_mem cmap rt0 ([] ++ [node])
          ((dget_eq_none_iff _ _).mp hcm)).symm]
      exact hgeq
    | some lst =>
      obtain ⟨P2, cmap2, hgeq, c2, c3, c4, c5, c6⟩ := hmain lst (Or.inl hcm)
      refine ⟨P2, cmap2, ?_, c2, c3, c4, c5, c6⟩
      simp only [groupFold]
      rw [hfeq]
      simp only []
      rw [hcm]
      simp only []
      exact hgeq

/-- union_find_components(graph): build a UnionFind over every key and
neighbour, union the endpoints of every stored edge, then group the nodes
by resolved root and sort each group. -/
def union_find_components [LinearOrder V] (g : List (V × List V)) :
    Option (List (List V)) :=
  match unionEdges ((allNodes g).length + 1) g (UF.init (allNodes g)) with
  | none => none
  | some uf =>
    match groupFold ((allNodes g).length + 1) (allNodes g) uf.parent [] with
    | none => none
    | some (_, cmap) => some (cmap.map (fun p => lsort p.2))

/-- dfs_component appends exactly the same block of nodes to the shared
visited set and to the current component. -/
theorem dfs_component_pair (g : List (V × List V)) :
    ∀ fuel node st, ∃ add : List V,
      dfs_component g fuel node st = (st.1 ++ add, st.2 ++ add) := by
  intro fuel
  induction fuel with
  | zero =>
    intro node st
    exact ⟨[], by simp [dfs_component]⟩
  | succ f ih =>
    intro node st
    have hfold : ∀ (l : List V) (st0 : List V × List V),
        ∃ add, l.foldl
          (fun st2 nb => if nb ∈ st2.1 then st2 else dfs_component g f nb st2) st0
          = (st0.1 ++ add, st0.2 ++ add) := by
      intro l
      induction l with
      | nil =>
        intro st0
        exact ⟨[], by simp⟩
      | cons nb rest ihl =>
        intro st0
        simp only [List.foldl_cons]
        by_cases hnb : nb ∈ st0.1
        · rw [if_pos hnb]
          exact ihl st0
        · rw [if_neg hnb]
          obtain ⟨a1, h1⟩ := ih nb st0
          obtain ⟨a2, h2⟩ := ihl (dfs_component g f nb st0)
          rw [h1] at h2
          refine ⟨a1 ++ a2, ?_⟩
          rw [h1, h2]
          simp [List.append_assoc]
    obtain ⟨add, hadd⟩ := hfold (adjGet g node) (st.1 ++ [node], st.2 ++ [node])
    refine ⟨[node] ++ add, ?_⟩
    simp only [dfs_component]
    rw [hadd]
    simp [List.append_assoc]

/-- Specification of one dfs_component call: the visited set only grows,
the start node is visited, every new node is reachable from the start,
newly visited nodes have all their neighbours visited, and no duplicates
are introduced. -/
theorem dfs_component_spec (g : List (V × List V)) (U : List V)
    (hU : ∀ y nb, nb ∈ adjGet g y → nb ∈ U) :
    ∀ fuel x (st : List V × List V), x ∈ U →
      (U.filter (fun z => decide (z ∉ (x :: st.1)))).length < fuel →
      (∀ z ∈ st.1, z ∈ (dfs_component g fuel x st).1) ∧
      x ∈ (dfs_component g fuel x st).1 ∧
      (∀ z ∈ (dfs_component g fuel x st).1, z ∈ st.1 ∨ Reach g x z) ∧
      (∀ z ∈ (dfs_component g fuel x st).1, z ∉ st.1 →
        ∀ nb ∈ adjGet g z, nb ∈ (dfs_component g fuel x st).1) ∧
      ((x :: st.1).Nodup → (dfs_component g fuel x st).1.Nodup) := by
  intro fuel
  induction fuel with
  | zero =>
    intro x st hx hf
    omega
  | succ f ih =>
    intro x st hx hf
    have hfold : ∀ (l : List V), (∀ nb ∈ l, nb ∈ U) →
        ∀ (st0 : List V × List V),
        (U.filter (fun z => decide (z ∉ st0.1))).length ≤ f →
        (∀ z ∈ st0.1, z ∈ (l.foldl
            (fun st2 nb => if nb ∈ st2.1 then st2 else dfs_component g f nb st2)
            st0).1) ∧
        (∀ nb ∈ l, nb ∈ (l.foldl
            (fun st2 nb => if nb ∈ st2.1 then st2 else dfs_component g f nb st2)
            st0).1) ∧
        (∀ z ∈ (l.foldl
            (fun st2 nb => if nb ∈ st2.1 then st2 else dfs_component g f nb st2)
            st0).1, z ∈ st0.1 ∨ ∃ nb ∈ l, Reach g nb z) ∧
        (∀ z ∈ (l.foldl
            (fun st2 nb => if nb ∈ st2.1 then st2 else dfs_component g f nb st2)
            st0).1, z ∉ st0.1 → ∀ nb2 ∈ adjGet g z, nb2 ∈ (l.foldl
            (fun st2 nb => if nb ∈ st2.1 then st2 else dfs_component g f nb st2)
            st0).1) ∧
        (st0.1.Nodup → (l.foldl
            (fun st2 nb => if nb ∈ st2.1 then st2 else dfs_component g f nb st2)
            st0).1.Nodup) := by
      intro l
      induction l with
      | nil =>
        intro hl st0 hcnt
        refine ⟨fun z hz => hz, by simp, fun z hz => Or.inl hz, ?_, fun h => h⟩
        intro z hz hzvis
        exact absurd hz (by simpa using hzvis)
      | cons nb l2 ihl =>
        intro hl st0 hcnt
        have hnbU : nb ∈ U := hl nb (List.mem_cons_self _ _)
        have hl2 : ∀ q ∈ l2, q ∈ U := fun q hq => hl q (List.mem_cons_of_mem _ hq)
        by_cases hnb : nb ∈ st0.1
        · simp only [List.foldl_cons, if_pos hnb]
          obtain ⟨c1, c2, c3, c4, c5⟩ := ihl hl2 st0 hcnt
          refine ⟨c1, ?_, ?_, c4, c5⟩
          · intro q hq
            rcases List.mem_cons.mp hq with hqe | hq
            · rw [hqe]
              exact c1 nb hnb
            · exact c2 q hq
          · intro z hz
            rcases c3 z hz with hz2 | ⟨nb2, hnb2, hr⟩
            · exact Or.inl hz2
            · exact Or.inr ⟨nb2, List.mem_cons_of_mem _ hnb2, hr⟩
        · simp only [List.foldl_cons, if_neg hnb]
          have hcall := ih nb st0 hnbU (by
            have := filter_cons_lt U nb st0.1 hnbU hnb
            omega)
          obtain ⟨d1, d2, d3, d4, d5⟩ := hcall
          have hcnt2 : (U.filter (fun z =>
              decide (z ∉ (dfs_component g f nb st0).1))).length ≤ f := by
            have hmono := filter_not_mem_mono U (nb :: st0.1)
              (dfs_component g f nb st0).1 (by
              intro z hz
              rcases List.mem_cons.mp hz with hze | hz
              · rw [hze]
                exact d2
              · exact d1 z hz)
            have := filter_cons_lt U nb st0.1 hnbU hnb
            omega
          obtain ⟨c1, c2, c3, c4, c5⟩ := ihl hl2 (dfs_component g f nb st0) hcnt2
          refine ⟨?_, ?_, ?_, ?_, ?_⟩
          · intro z hz
            exact c1 z (d1 z hz)
          · intro q hq
            rcases List.mem_cons.mp hq with hqe | hq
            · rw [hqe]
              exact c1 nb d2
            · exact c2 q hq
          · intro z hz
            rcases c3 z hz with hz2 | ⟨nb2, hnb2, hr⟩
            · rcases d3 z hz2 with hz3 | hr
              · exact Or.inl hz3
              · exact Or.inr ⟨nb, List.mem_cons_self _ _, hr⟩
            · exact Or.inr ⟨nb2, List.mem_cons_of_mem _ hnb2, hr⟩
          · intro z hz hzvis nb2 hnb2
            by_cases hzin : z ∈ (dfs_component g f nb st0).1
            · exact c1 _ (d4 z hzin hzvis nb2 hnb2)
            · exact c4 z hz hzin nb2 hnb2
          · intro hnd
            exact c5 (d5 (List.nodup_cons.mpr ⟨hnb, hnd⟩))
    have hcount0 : (U.filter (fun z => decide (z ∉ (st.1 ++ [x])))).length ≤ f := by
      have hmono := filter_not_mem_mono U (x :: st.1) (st.1 ++ [x]) (by
        intro z hz
        rcases List.mem_cons.mp hz with hze | hz
        · rw [hze]
          simp
        · simp [hz])
      omega
    have hspec := hfold (adjGet g x) (fun nb hnb => hU x nb hnb)
      (st.1 ++ [x], st.2 ++ [x]) hcount0
    obtain ⟨c1, c2, c3, c4, c5⟩ := hspec
    simp only [dfs_component]
    refine ⟨?_, ?_, ?_, ?_, ?_⟩
    · intro z hz
      exact c1 z (by simp [hz])
    · exact c1 x (by simp)
    · intro z hz
      rcases c3 z hz with hz2 | ⟨nb, hnb, hr⟩
      · rcases List.mem_append.mp hz2 with hz3 | hz3
        · exact Or.inl hz3
        · have hze : z = x := by simpa using hz3
          rw [hze]
          exact Or.inr Relation.ReflTransGen.refl
      · exact Or.inr (Relation.ReflTransGen.head hnb hr)
    · intro z hz hzvis nb hnb
      by_cases hzx : z = x
      · rw [hzx] at hnb
        exact c2 nb hnb
      · refine c4 z hz ?_ nb hnb
        intro hzc
        rcases List.mem_append.mp hzc with hz3 | hz3
        · exact hzvis hz3
        · exact hzx (by simpa using hz3)
    · intro hnd
      apply c5
      rw [List.nodup_append]
      refine ⟨(List.nodup_cons.mp hnd).2, List.nodup_singleton _, ?_⟩
      intro q hq hq2
      simp only [List.mem_singleton] at hq2
      rw [hq2] at hq
      exact (List.nodup_cons.mp hnd).1 hq

/-- One DFS run from an unvisited key of a symmetric graph collects, in
its component, exactly the nodes reachable from that key, provided the
visited set is closed under edges. -/
theorem dfs_component_run (g : List (V × List V))
    (hsym2 : ∀ a b, edgeStep g a b → edgeStep g b a)
    (vis : List V) (k : V)
    (hkU : k ∈ allNodes g)
    (hvisnd : vis.Nodup)
    (hkvis : k ∉ vis)
    (hclosed : ∀ z ∈ vis, ∀ nb ∈ adjGet g z, nb ∈ vis) :
    ∃ add : List V,
      dfs_component g ((allNodes g).length + 1) k (vis, []) = (vis ++ add, add) ∧
      add.Nodup ∧
      (∀ z, z ∈ add ↔ Reach g k z) ∧
      (vis ++ add).Nodup ∧
      (∀ z ∈ vis ++ add, ∀ nb ∈ adjGet g z, nb ∈ vis ++ add) := by
  obtain ⟨add, hpair⟩ :=
    dfs_component_pair g ((allNodes g).length + 1) k (vis, [])
  have h1 : (dfs_component g ((allNodes g).length + 1) k (vis, [])).1
      = vis ++ add := by rw [hpair]
  have h2 : (dfs_component g ((allNodes g).length + 1) k (vis, [])).2
      = add := by rw [hpair]; rfl
  obtain ⟨c1, c2, c3, c4, c5⟩ :=
    dfs_component_spec g (allNodes g)
      (fun y nb h => adjGet_subset_allNodes g y nb h)
      ((allNodes g).length + 1) k (vis, []) hkU
      (Nat.lt_succ_of_le (List.length_filter_le _ _))
  rw [h1] at c1 c2 c3 c4 c5
  have hndall : (vis ++ add).Nodup := by
    apply c5
    exact List.nodup_cons.mpr ⟨hkvis, hvisnd⟩
  have hdisjva : vis.Disjoint add := (List.nodup_append.mp hndall).2.2
  have haddnd : add.Nodup := (List.nodup_append.mp hndall).2.1
  have hreach_closed := reach_closed_of_edge_closed g vis hclosed
  have hnotvis : ∀ w, Reach g k w → w ∉ vis := by
    intro w hw hwvis
    exact hkvis (hreach_closed w hwvis k (reach_symm g hsym2 k w hw))
  have hin : ∀ w, Reach g k w → w ∈ vis ++ add := by
    intro w hw
    induction hw with
    | refl => exact c2
    | tail hstep hedge ihw =>
      rename_i b c
      exact c4 b ihw (hnotvis b hstep) c hedge
  have hmem : ∀ z, z ∈ add ↔ Reach g k z := by
    intro z
    constructor
    · intro hz
      have hz2 : z ∈ vis ++ add := List.mem_append.mpr (Or.inr hz)
      rcases c3 z hz2 with hz3 | hr
      · exact absurd hz (hdisjva hz3)
      · exact hr
    · intro hr
      rcases List.mem_append.mp (hin z hr) with hz3 | hz3
      · exact absurd hz3 (hnotvis z hr)
      · exact hz3
  have hclosed2 : ∀ z ∈ vis ++ add, ∀ nb ∈ adjGet g z, nb ∈ vis ++ add := by
    intro z hz nb hnb
    rcases List.mem_append.mp hz with hz3 | hz3
    · exact List.mem_append.mpr (Or.inl (hclosed z hz3 nb hnb))
    · exact c4 z hz (fun hc => hdisjva hc hz3) nb hnb
  refine ⟨add, ?_, haddnd, hmem, hndall, hclosed2⟩
  rw [hpair]
  rfl

/-- Invariant of the outer loop of find_connected_components_dfs: the
visited set stays duplicate-free and edge-closed inside allNodes, every
finished component is the sorted duplicate-free list of one reachability
class with a visited representative, and every visited node lies in some
finished component of its own class. -/
theorem dfsCompFold_spec [LinearOrder V] (g : List (V × List V))
    (hsym2 : ∀ a b, edgeStep g a b → edgeStep g b a) :
    ∀ (ks : List V) (vis : List V) (comps : List (List V)),
      (∀ k ∈ ks, k ∈ allNodes g) →
      (∀ z ∈ vis, z ∈ allNodes g) →
      vis.Nodup →
      (∀ z ∈ vis, ∀ nb ∈ adjGet g z, nb ∈ vis) →
      (∀ c ∈ comps, ∃ x0 lst, x0 ∈ vis ∧ c = lsort lst ∧ lst.Nodup ∧
        (∀ z, z ∈ lst ↔ Reach g x0 z)) →
      (∀ z ∈ vis, ∃ x0 lst, Reach g x0 z ∧ lsort lst ∈ comps ∧ lst.Nodup ∧
        (∀ w, w ∈ lst ↔ Reach g x0 w)) →
      (∀ z ∈ (dfsCompFold g ks (vis, comps)).1, z ∈ allNodes g) ∧
      (dfsCompFold g ks (vis, comps)).1.Nodup ∧
      (∀ z ∈ (dfsCompFold g ks (vis, comps)).1, ∀ nb ∈ adjGet g z,
        nb ∈ (dfsCompFold g ks (vis, comps)).1) ∧
      (∀ k ∈ ks, k ∈ (dfsCompFold g ks (vis, comps)).1) ∧
      (∀ z ∈ vis, z ∈ (dfsCompFold g ks (vis, comps)).1) ∧
      (∀ c ∈ (dfsCompFold g ks (vis, comps)).2, ∃ x0 lst,
        x0 ∈ (dfsCompFold g ks (vis, comps)).1 ∧ c = lsort lst ∧ lst.Nodup ∧
        (∀ z, z ∈ lst ↔ Reach g x0 z)) ∧
      (∀ z ∈ (dfsCompFold g ks (vis, comps)).1, ∃ x0 lst, Reach g x0 z ∧
        lsort lst ∈ (dfsCompFold g ks (vis, comps)).2 ∧ lst.Nodup ∧
        (∀ w, w ∈ lst ↔ Reach g x0 w)) := by
  intro ks
  induction ks with
  | nil =>
    intro vis comps hks hvisU hvisnd hcl hcomps hcover
    exact ⟨hvisU, hvisnd, hcl, by simp, fun z hz => hz, hcomps, hcover⟩
  | cons k rest ih =>
    intro vis comps hks hvisU hvisnd hcl hcomps hcover
    by_cases hk : k ∈ vis
    · have heq : dfsCompFold g (k :: rest) (vis, comps)
          = dfsCompFold g rest (vis, comps) := by
        simp only [dfsCompFold]
        rw [if_pos hk]
      rw [heq]
      obtain ⟨e1, e2, e3, e4, e5, e6, e7⟩ :=
        ih vis comps (fun q hq => hks q (List.mem_cons_of_mem _ hq))
          hvisU hvisnd hcl hcomps hcover
      refine ⟨e1, e2, e3, ?_, e5, e6, e7⟩
      intro q hq
      rcases List.mem_cons.mp hq with hqe | hq2
      · rw [hqe]
        exact e5 k hk
      · exact e4 q hq2
    · obtain ⟨add, hrun, haddnd, hmem, hndall, hcl2⟩ :=
        dfs_component_run g hsym2 vis k (hks k (List.mem_cons_self _ _))
          hvisnd hk hcl
      have heq : dfsCompFold g (k :: rest) (vis, comps)
          = dfsCompFold g rest (vis ++ add, comps ++ [lsort add]) := by
        simp only [dfsCompFold]
        rw [if_neg hk]
        rw [show ((vis, comps).1, ([] : List V)) = (vis, ([] : List V)) from rfl,
          hrun]
      have haddU : ∀ z ∈ add, z ∈ allNodes g := fun z hz =>
        allNodes_reach_closed g k z (hks k (List.mem_cons_self _ _))
          ((hmem z).mp hz)
      have hvisU2 : ∀ z ∈ vis ++ add, z ∈ allNodes g := by
        intro z hz
        rcases List.mem_append.mp hz with hz2 | hz2
        · exact hvisU z hz2
        · exact haddU z hz2
      have hkadd : k ∈ add := (hmem k).mpr Relation.ReflTransGen.refl
      have hcomps2 : ∀ c ∈ comps ++ [lsort add], ∃ x0 lst, x0 ∈ vis ++ add ∧
          c = lsort lst ∧ lst.Nodup ∧ (∀ z, z ∈ lst ↔ Reach g x0 z) := by
        intro c hc
        rcases List.mem_append.mp hc with hc2 | hc2
        · obtain ⟨x0, lst, hx0, hrest⟩ := hcomps c hc2
          exact ⟨x0, lst, List.mem_append.mpr (Or.inl hx0), hrest⟩
        · have hce : c = lsort add := by simpa using hc2
          exact ⟨k, add, List.mem_append.mpr (Or.inr hkadd), hce, haddnd, hmem⟩
      have hcover2 : ∀ z ∈ vis ++ add, ∃ x0 lst, Reach g x0 z ∧
          lsort lst ∈ comps ++ [lsort add] ∧ lst.Nodup ∧
          (∀ w, w ∈ lst ↔ Reach g x0 w) := by
        intro z hz
        rcases List.mem_append.mp hz with hz2 | hz2
        · obtain ⟨x0, lst, hr, hmem2, hrest⟩ := hcover z hz2
          exact ⟨x0, lst, hr, List.mem_append.mpr (Or.inl hmem2), hrest⟩
        · exact ⟨k, add, (hmem z).mp hz2,
            List.mem_append.mpr (Or.inr (by simp)), haddnd, hmem⟩
      rw [heq]
      obtain ⟨e1, e2, e3, e4, e5, e6, e7⟩ :=
        ih (vis ++ add) (comps ++ [lsort add])
          (fun q hq => hks q (List.mem_cons_of_mem _ hq))
          hvisU2 hndall hcl2 hcomps2 hcover2
      refine ⟨e1, e2, e3, ?_, fun z hz => e5 z (List.mem_append.mpr (Or.inl hz)),
        e6, e7⟩
      intro q hq
      rcases List.mem_cons.mp hq with hqe | hq2
      · refine e5 q ?_
        rw [hqe]
        exact List.mem_append.mpr (Or.inr hkadd)
      · exact e4 q hq2

/-- Characterisation of find_connected_components_dfs on a symmetric
graph: the components are the sorted duplicate-free reachability classes
of representatives in allNodes, and every key's class appears. -/
theorem find_components_dfs_char [LinearOrder V] (g : List (V × List V))
    (hsym2 : ∀ a b, edgeStep g a b → edgeStep g b a) :
    (∀ c ∈ find_connected_components_dfs g, ∃ x0 lst,
      x0 ∈ allNodes g ∧ c = lsort lst ∧ lst.Nodup ∧
      (∀ z, z ∈ lst ↔ Reach g x0 z)) ∧
    (∀ k, k ∈ g.map Prod.fst → ∃ x0 lst, Reach g x0 k ∧
      lsort lst ∈ find_connected_components_dfs g ∧ lst.Nodup ∧
      (∀ w, w ∈ lst ↔ Reach g x0 w)) := by
  obtain ⟨e1, e2, e3, e4, e5, e6, e7⟩ :=
    dfsCompFold_spec g hsym2 (g.map Prod.fst) [] []
      (fun k hk => key_mem_allNodes g k hk)
      (by simp) List.nodup_nil (by simp) (by simp) (by simp)
  constructor
  · intro c hc
    obtain ⟨x0, lst, hx0, hrest⟩ := e6 c hc
    exact ⟨x0, lst, e1 x0 hx0, hrest⟩
  · intro k hk
    exact e7 k (e4 k hk)

/-- Characterisation of union_find_components on a duplicate-free
symmetric dict: it succeeds, its components are the sorted
duplicate-free reachability classes of representatives in allNodes, and
every node of allNodes appears in the class of some representative. -/
theorem union_find_char [LinearOrder V] (g : List (V × List V))
    (hnd : (g.map Prod.fst).Nodup)
    (hsym2 : ∀ a b, edgeStep g a b → edgeStep g b a) :
    ∃ comps, union_find_components g = some comps ∧
      (∀ c ∈ comps, ∃ rt lst, rt ∈ allNodes g ∧ c = lsort lst ∧ lst.Nodup ∧
        (∀ z, z ∈ lst ↔ Reach g rt z)) ∧
      (∀ x ∈ allNodes g, ∃ rt lst, Reach g rt x ∧ lsort lst ∈ comps ∧
        lst.Nodup ∧ (∀ w, w ∈ lst ↔ Reach g rt w)) := by
  have hsymR := reach_symm g hsym2
  have hnodeget : ∀ x ∈ allNodes g,
      (dget (UF.init (allNodes g)).parent x).isSome = true := by
    intro x hx
    show (dget ((allNodes g).map (fun n => (n, n))) x).isSome = true
    rw [dget_id_map, if_pos hx]
    rfl
  have hnbmem : ∀ p ∈ g, ∀ nb ∈ p.2, nb ∈ allNodes g := by
    intro p hp nb hnb
    simp only [allNodes, List.mem_dedup, List.mem_append]
    right
    exact List.mem_flatten.mpr ⟨p.2, List.mem_map.mpr ⟨p, hp, rfl⟩, hnb⟩
  have hsound0 : ∀ z w, ER (UF.init (allNodes g)).parent z w → Reach g z w := by
    intro z w h
    have he : z = w := er_init (allNodes g) z w h
    rw [he]
    exact Relation.ReflTransGen.refl
  obtain ⟨uf2, hueq, hUinv2, hpk, hrk, hmn, hest, hsound2⟩ :=
    unionEdges_spec g hsymR g (UF.init (allNodes g)) ((allNodes g).length + 1)
      (ufinv_init (allNodes g))
      (fun p hp => ⟨hnodeget p.1 (key_mem_allNodes g p.1
          (List.mem_map.mpr ⟨p, hp, rfl⟩)),
        fun nb hnb => hnodeget nb (hnbmem p hp nb hnb)⟩)
      (fun p hp nb hnb => entry_edge g hnd p hp nb hnb)
      hsound0
      (by
        show ((allNodes g).map (fun n => (n, 0))).length < (allNodes g).length + 1
        rw [List.length_map]
        omega)
  have hpk2 : uf2.parent.map Prod.fst = allNodes g :=
    hpk.trans (keys_id_map (allNodes g))
  have hrk2 : uf2.rank.length = (allNodes g).length := by
    have h1 := congrArg List.length (hrk.trans (keys_const_map (allNodes g) 0))
    simpa using h1
  have hpresent : ∀ z ∈ allNodes g, (dget uf2.parent z).isSome = true := by
    intro z hz
    rw [dget_isSome_iff, hpk2]
    exact hz
  have hrefl : ∀ z, z ∈ allNodes g → ER uf2.parent z z := fun z hz =>
    er_refl_of_inv uf2.parent uf2.rank hUinv2 z (hpresent z hz)
  have hcomplete : ∀ z w, z ∈ allNodes g → Reach g z w → ER uf2.parent z w :=
    reach_er_final g uf2.parent hest hrefl
  obtain ⟨P2, cmap2, hgeq, kknd, kmono, krootk, kchar, kcov⟩ :=
    groupFold_spec uf2.rank uf2.parent (allNodes g) uf2.parent []
      ((allNodes g).length + 1) hUinv2 (fun z ρ => Iff.rfl) hpresent
      (by rw [hrk2]; omega) (allNodes_nodup g) (by simp)
      (fun rt lst h => by rw [dget_nil] at h; cases h)
      (fun rt lst h => by rw [dget_nil] at h; cases h)
      (fun rt lst h => by rw [dget_nil] at h; cases h)
      (fun rt h => by rw [dget_nil] at h; cases h)
  have hchar2 : ∀ rt lst, dget cmap2 rt = some lst →
      rt ∈ allNodes g ∧ lst.Nodup ∧ (∀ z, z ∈ lst ↔ Reach g rt z) := by
    intro rt lst hlst
    have hrtfix : dget uf2.parent rt = some rt :=
      krootk rt (by rw [hlst]; rfl)
    have hrtnodes : rt ∈ allNodes g := by
      have h1 := (dget_isSome_iff _ _).mp
        (show (dget uf2.parent rt).isSome = true by rw [hrtfix]; rfl)
      rw [hpk2] at h1
      exact h1
    obtain ⟨hnd2, hiff2⟩ := kchar rt lst hlst
    refine ⟨hrtnodes, hnd2, ?_⟩
    intro z
    rw [hiff2 z]
    constructor
    · intro hz
      rcases hz with ⟨lst1, h1, _⟩ | ⟨hz1, hz2⟩
      · rw [dget_nil] at h1
        cases h1
      · have her : ER uf2.parent z rt := ⟨rt, hz2, RootP.self rt hrtfix⟩
        exact hsymR z rt (hsound2 z rt her)
    · intro hr
      refine Or.inr ⟨allNodes_reach_closed g rt z hrtnodes hr, ?_⟩
      obtain ⟨ρ, hrtρ, hzρ⟩ := hcomplete rt z hrtnodes hr
      have he : rt = ρ := rootp_unique _ rt rt ρ (RootP.self rt hrtfix) hrtρ
      rw [← he] at hzρ
      exact hzρ
  refine ⟨cmap2.map (fun p => lsort p.2), ?_, ?_, ?_⟩
  · simp only [union_find_components]
    rw [hueq]
    simp only []
    rw [hgeq]
  · intro c hc
    obtain ⟨q, hq, hqe⟩ := List.mem_map.mp hc
    have hget : dget cmap2 q.1 = some q.2 :=
      dget_of_mem_of_nodup cmap2 q.1 q.2 (by rw [Prod.mk.eta]; exact hq) kknd
    obtain ⟨hrtnodes, hnd2, hiff2⟩ := hchar2 q.1 q.2 hget
    exact ⟨q.1, q.2, hrtnodes, hqe.symm, hnd2, hiff2⟩
  · intro x hx
    obtain ⟨rt, hroot, hsome⟩ := kcov x hx
    obtain ⟨lst, hlst⟩ := Option.isSome_iff_exists.mp hsome
    obtain ⟨hrtnodes, hnd2, hiff2⟩ := hchar2 rt lst hlst
    have hrtfix : dget uf2.parent rt = some rt := krootk rt hsome
    have herx : ER uf2.parent x rt :=
      ⟨rt, hroot, RootP.self rt hrtfix⟩
    refine ⟨rt, lst, hsymR x rt (hsound2 x rt herx), ?_, hnd2, hiff2⟩
    exact List.mem_map.mpr ⟨(rt, lst), dget_mem cmap2 rt lst hlst, rfl⟩

/-- C6: for every undirected graph — a duplicate-free dict whose stored
adjacency lists are symmetric — the partition of the nodes into connected
components produced by the Union-Find method (processing every edge
through union, then grouping the nodes by resolved root) equals, as a set
of sets, the partition produced by the DFS-based component finder. -/
theorem claim_c6_components [LinearOrder V] (g : List (V × List V))
    (hnd : (g.map Prod.fst).Nodup)
    (hsym : ∀ p ∈ g, ∀ nb ∈ p.2, edgeStep g nb p.1) :
    ∃ comps, union_find_components g = some comps ∧
      ∀ c, c ∈ comps ↔ c ∈ find_connected_components_dfs g := by
  have hsym2 := symm_of_entry_symm g hsym
  have hsymR := reach_symm g hsym2
  obtain ⟨comps, hueq, hu1, hu2⟩ := union_find_char g hnd hsym2
  obtain ⟨hd1, hd2⟩ := find_components_dfs_char g hsym2
  refine ⟨comps, hueq, ?_⟩
  intro c
  constructor
  · intro hc
    obtain ⟨rt, lst, hrtn, hce, hlnd, hliff⟩ := hu1 c hc
    have hrtk : rt ∈ g.map Prod.fst := neighbor_is_key g hsym rt hrtn
    obtain ⟨x0, lst2, hr0, hmem2, hlnd2, hliff2⟩ := hd2 rt hrtk
    have hiffc : ∀ z, z ∈ lst ↔ z ∈ lst2 := by
      intro z
      rw [hliff z, hliff2 z]
      constructor
      · intro h
        exact Relation.ReflTransGen.trans hr0 h
      · intro h
        exact Relation.ReflTransGen.trans (hsymR x0 rt hr0) h
    rw [hce, lsort_eq_of_mem_iff lst lst2 hlnd hlnd2 hiffc]
    exact hmem2
  · intro hc
    obtain ⟨x0, lst, hx0n, hce, hlnd, hliff⟩ := hd1 c hc
    obtain ⟨rt, lst2, hr0, hmem2, hlnd2, hliff2⟩ := hu2 x0 hx0n
    have hiffc : ∀ z, z ∈ lst ↔ z ∈ lst2 := by
      intro z
      rw [hliff z, hliff2 z]
      constructor
      · intro h
        exact Relation.ReflTransGen.trans hr0 h
      · intro h
        exact Relation.ReflTransGen.trans (hsymR rt x0 hr0) h
    rw [hce, lsort_eq_of_mem_iff lst lst2 hlnd hlnd2 hiffc]
    exact hmem2

/-- Witness for C6: on the symmetric graph with components \x7b1, 2\x7d and
\x7b3\x7d, Union-Find and DFS produce the same set of components. -/
theorem claim_c6_witness :
    ∃ comps, union_find_components [(1, [2]), (2, [1]), (3, [])]
        = some comps ∧
      ∀ c, c ∈ comps ↔
        c ∈ find_connected_components_dfs
          [(1, [2]), (2, [1]), (3, ([] : List Nat))] :=
  claim_c6_components [(1, [2]), (2, [1]), (3, [])] (by decide) (by decide)

end GraphVerif
